import Mathlib

/-!
# Verification of the telegram decoder of `pkg/metrics/metrics.go`

Shallow embedding of `parseAndSetMetrics`, `extractValue`, `extractValueText`,
`hashString` and `parseTimestamp`, together with the parts of the Go standard
library they call (`strings`, `unicode/utf8`, `strconv.Atoi`, `fmt.Sscanf` with
the verb `%f`, `time.Date(..).Unix()`) and of the Prometheus gauge vectors.

Conventions of the embedding.

* A Go `string` is a sequence of bytes: `Str = List Nat`, every element of a
  real string being below 256.  Byte offsets are list positions.
* Go `int` is the 64-bit `int`; it is an `Int` here, wrapped explicitly where
  the code can overflow (`hashString`).
* A `float64` is an `F64`: `F64.num q` is the finite binary64 value whose exact
  value is the rational `q` (the sign of a zero is not tracked), `F64.inf` and
  `F64.nan` are the infinities and NaN.  Every conversion to `float64`
  (`strconv.ParseFloat`, `math.Ldexp`, `float64(n)` of an `int`) rounds to the
  nearest binary64 value, ties to even (`roundF64`); overflow of a parsed
  number is an error of `strconv.ParseFloat`.
* A run-time panic (slice out of range, wrong number of label values) is the
  result `none`.
* Logging (`sugar.Debugf`, `sugar.Warnf`) has no effect on the registry and is
  left out.
-/

namespace Metrics

/-! ## Strings -/

/-- A Go string, as its bytes. -/
abbrev Str := List Nat

/-- The bytes of an ASCII string literal. -/
def ascii (s : String) : Str := s.toList.map Char.toNat

/-- Model of `strings.Index(s, sep)` for a one-byte separator `c`: the offset of
the first occurrence, `-1` when there is none. -/
def index (s : Str) (c : Nat) : Int :=
  if s.indexOf c < s.length then (s.indexOf c : Int) else -1

/-- Model of the slice expression `s[lo:hi]`; `none` is the run-time panic for
bounds that are out of range. -/
def slice (s : Str) (lo hi : Int) : Option Str :=
  if 0 ≤ lo ∧ lo ≤ hi ∧ hi ≤ (s.length : Int) then
    some ((s.take hi.toNat).drop lo.toNat)
  else none

/-- Model of `strings.HasPrefix`. -/
def hasPrefix (s p : Str) : Bool := p.isPrefixOf s

/-- Model of `strings.TrimSuffix`. -/
def trimSuffix (s suf : Str) : Str :=
  if suf.isSuffixOf s then s.take (s.length - suf.length) else s

/-- Model of `strings.Split(s, "\n")`. -/
def splitLines (s : Str) : List Str := s.splitOn 10

/-! ## UTF-8 (`unicode/utf8`, `unicode.IsSpace`) -/

/-- The rune `utf8.RuneError`. -/
def runeError : Nat := 0xFFFD

/-- Model of `utf8.DecodeRuneInString`: the first rune of `s` and its width in
bytes; `(RuneError, 1)` for an invalid encoding, `(RuneError, 0)` for the empty
string. -/
def decodeRune (s : Str) : Nat × Nat :=
  match s with
  | [] => (runeError, 0)
  | s0 :: t =>
    if s0 < 0x80 then (s0, 1)
    else if s0 < 0xC2 ∨ 0xF4 < s0 then (runeError, 1)
    else
      let sz : Nat := if s0 < 0xE0 then 2 else if s0 < 0xF0 then 3 else 4
      let lo : Nat := if s0 = 0xE0 then 0xA0 else if s0 = 0xF0 then 0x90 else 0x80
      let hi : Nat := if s0 = 0xED then 0x9F else if s0 = 0xF4 then 0x8F else 0xBF
      if s.length < sz then (runeError, 1)
      else
        match t with
        | [] => (runeError, 1)
        | s1 :: t1 =>
          if s1 < lo ∨ hi < s1 then (runeError, 1)
          else if sz ≤ 2 then (((s0 &&& 0x1F) <<< 6) ||| (s1 &&& 0x3F), 2)
          else
            match t1 with
            | [] => (runeError, 1)
            | s2 :: t2 =>
              if s2 < 0x80 ∨ 0xBF < s2 then (runeError, 1)
              else if sz ≤ 3 then
                (((s0 &&& 0x0F) <<< 12) ||| ((s1 &&& 0x3F) <<< 6) ||| (s2 &&& 0x3F), 3)
              else
                match t2 with
                | [] => (runeError, 1)
                | s3 :: _ =>
                  if s3 < 0x80 ∨ 0xBF < s3 then (runeError, 1)
                  else
                    (((s0 &&& 0x07) <<< 18) ||| ((s1 &&& 0x3F) <<< 12) |||
                      ((s2 &&& 0x3F) <<< 6) ||| (s3 &&& 0x3F), 4)

/-- Model of `utf8.RuneStart`. -/
def runeStart (b : Nat) : Bool := (b &&& 0xC0) != 0x80

/-- The backward search of `utf8.DecodeLastRuneInString`
(`for start--; start >= lim; start--`), entered with `start` already
decremented; `n` bounds the number of iterations. -/
def lastRuneStart (s : Str) (lim : Int) : Nat → Int → Int
  | 0, start => start
  | n + 1, start =>
    if start < lim then start
    else if runeStart (s.getD start.toNat 0) then start
    else lastRuneStart s lim n (start - 1)

/-- Model of `utf8.DecodeLastRuneInString`. -/
def decodeLastRune (s : Str) : Nat × Nat :=
  let e := s.length
  if e = 0 then (runeError, 0)
  else
    let r := s.getD (e - 1) 0
    if r < 0x80 then (r, 1)
    else
      let lim : Int := if (e : Int) - 4 < 0 then 0 else (e : Int) - 4
      let start0 := lastRuneStart s lim e ((e : Int) - 2)
      let start : Nat := if start0 < 0 then 0 else start0.toNat
      let d := decodeRune (s.drop start)
      if start + d.2 ≠ e then (runeError, 1) else d

/-- Model of `unicode.IsSpace`. -/
def isSpace (r : Nat) : Bool :=
  if r ≤ 0xFF then
    r = 0x09 ∨ r = 0x0A ∨ r = 0x0B ∨ r = 0x0C ∨ r = 0x0D ∨ r = 0x20 ∨ r = 0x85 ∨ r = 0xA0
  else
    r = 0x1680 ∨ (0x2000 ≤ r ∧ r ≤ 0x200A) ∨ r = 0x2028 ∨ r = 0x2029 ∨ r = 0x202F ∨
      r = 0x205F ∨ r = 0x3000

/-- Model of `strings.TrimLeftFunc(s, unicode.IsSpace)`; the first argument
bounds the number of runes removed. -/
def trimLeftAux : Nat → Str → Str
  | 0, s => s
  | n + 1, s =>
    match s with
    | [] => []
    | _ :: _ =>
      let d := decodeRune s
      if isSpace d.1 then trimLeftAux n (s.drop d.2) else s

/-- Model of `strings.TrimRightFunc(s, unicode.IsSpace)`; the first argument
bounds the number of runes removed. -/
def trimRightAux : Nat → Str → Str
  | 0, s => s
  | n + 1, s =>
    match s with
    | [] => []
    | _ :: _ =>
      let d := decodeLastRune s
      if isSpace d.1 then trimRightAux n (s.take (s.length - d.2)) else s

/-- Model of `strings.TrimSpace`. -/
def trimSpace (s : Str) : Str :=
  let l := trimLeftAux s.length s
  trimRightAux l.length l

/-! ## Numbers: `float64`, `strconv.Atoi`, `strconv.ParseFloat` -/

/-- A `float64`: `num q` is the finite binary64 value whose exact value is the
rational `q`. -/
inductive F64 where
  | num (q : ℚ)
  | inf (neg : Bool)
  | nan
  deriving DecidableEq

/-- The integer nearest to a rational, ties going to the even integer. -/
def roundHalfEven (t : ℚ) : Int :=
  let f : Int := ⌊t⌋
  if t - f < 1 / 2 then f
  else if 1 / 2 < t - f then f + 1
  else if f % 2 = 0 then f else f + 1

/-- Rounding to binary64, round to nearest, ties to even: the value `m * 2^e`
nearest to `q` with `|m| ≤ 2^53` and `e ≥ -1074`, `e` being 52 below the binary
exponent of `q` (normal numbers) or -1074 (subnormal numbers).  The range is not
bounded above here: the callers test for overflow. -/
def roundF64 (q : ℚ) : ℚ :=
  if q = 0 then 0
  else
    let e : Int := max (Int.log 2 |q| - 52) (-1074)
    (roundHalfEven (q / 2 ^ e) : ℚ) * 2 ^ e

/-- The conversion `float64(n)` of an `int`. -/
def F64.ofInt (n : Int) : F64 := F64.num (roundF64 n)

/-- The least magnitude that rounds to an infinity in binary64: half-way between
the largest finite value `2^1024 - 2^971` and `2^1024`. -/
def overflowBound : ℚ := 2 ^ 1024 - 2 ^ 970

/-- ASCII decimal digit. -/
def isDigit (c : Nat) : Bool := 0x30 ≤ c && c ≤ 0x39

/-- The `lower` of `strconv`: `c | ('x' - 'X')`. -/
def lower (c : Nat) : Nat := c ||| 0x20

/-- The number written by a sequence of decimal digits. -/
def digitsVal (ds : Str) : Nat := ds.foldl (fun n c => n * 10 + (c - 0x30)) 0

/-- Model of `strconv.Atoi` on a 64-bit platform: the value and whether the
error is nil.  A syntax error gives 0, a range error the nearest `int`. -/
def atoi (s : Str) : Int × Bool :=
  match s with
  | [] => (0, false)
  | c :: t =>
    let neg : Bool := c = 0x2D
    let body : Str := if c = 0x2B ∨ c = 0x2D then t else s
    if body = [] then (0, false)
    else if body.all isDigit then
      let n := digitsVal body
      if ¬ neg ∧ 2 ^ 63 ≤ n then (2 ^ 63 - 1, false)
      else if neg ∧ 2 ^ 63 < n then (-(2 ^ 63), false)
      else (if neg then -(n : Int) else (n : Int), true)
    else (0, false)

/-- Model of `commonPrefixLenIgnoreCase(s, pre)` of `strconv`; `pre` is in lower
case. -/
def commonPrefixLenIgnoreCase : Str → Str → Nat
  | c :: s, p :: pre =>
    let c1 := if 0x41 ≤ c ∧ c ≤ 0x5A then c + 0x20 else c
    if c1 ≠ p then 0 else commonPrefixLenIgnoreCase s pre + 1
  | _, _ => 0

/-- The body of the `'i', 'I'` case of `special` in `strconv`. -/
def specialInf (neg : Bool) (nsign : Nat) (s : Str) : Option (F64 × Nat) :=
  let n := commonPrefixLenIgnoreCase s (ascii "infinity")
  let n := if 3 < n ∧ n < 8 then 3 else n
  if n = 3 ∨ n = 8 then some (F64.inf neg, nsign + n) else none

/-- Model of `special` in `strconv`: a leading `inf`, `infinity` (optionally
signed) or `nan`, with the number of bytes it takes. -/
def special (s : Str) : Option (F64 × Nat) :=
  match s with
  | [] => none
  | c :: t =>
    if c = 0x2B ∨ c = 0x2D then specialInf (c = 0x2D) 1 t
    else if c = 0x69 ∨ c = 0x49 then specialInf false 0 s
    else if c = 0x6E ∨ c = 0x4E then
      (if commonPrefixLenIgnoreCase s (ascii "nan") = 3 then some (F64.nan, 3) else none)
    else none

/-- State of the digit loop of `readFloat`: `mant` is the number written by all
mantissa digits read so far, `frac` how many of them follow the point. -/
structure Mant where
  sawdot : Bool
  sawdigits : Bool
  underscores : Bool
  mant : Nat
  frac : Nat
  deriving DecidableEq

/-- The value of a mantissa digit, `none` for any other byte. -/
def digitOf (hex : Bool) (c : Nat) : Option Nat :=
  if isDigit c then some (c - 0x30)
  else if hex ∧ 0x61 ≤ lower c ∧ lower c ≤ 0x66 then some (lower c - 0x61 + 10)
  else none

/-- The digit loop of `readFloat`: returns the state and the unread bytes. -/
def mantLoop (hex : Bool) : Mant → Str → Mant × Str
  | st, [] => (st, [])
  | st, c :: t =>
    if c = 0x5F then mantLoop hex { st with underscores := true } t
    else if c = 0x2E then
      (if st.sawdot then (st, c :: t) else mantLoop hex { st with sawdot := true } t)
    else
      match digitOf hex c with
      | some d =>
        mantLoop hex
          { st with
            sawdigits := true
            mant := st.mant * (if hex then 16 else 10) + d
            frac := if st.sawdot then st.frac + 1 else st.frac } t
      | none => (st, c :: t)

/-- The exponent digit loop of `readFloat`: the exponent stops growing once it
has reached 10000.  Returns the exponent, whether an underscore was seen, and
the unread bytes. -/
def expLoop : Nat → Bool → Str → Nat × Bool × Str
  | e, u, [] => (e, u, [])
  | e, u, c :: t =>
    if c = 0x5F then expLoop e true t
    else if isDigit c then expLoop (if e < 10000 then e * 10 + (c - 0x30) else e) u t
    else (e, u, c :: t)

/-- The main loop of `underscoreOK` of `strconv`; `saw` is the class of the last
byte seen (`0x30` a digit, `0x5F` an underscore, `0x21` anything else). -/
def underscoreLoop (hex : Bool) : Nat → Str → Bool
  | saw, [] => saw != 0x5F
  | saw, c :: t =>
    if isDigit c ∨ (hex ∧ 0x61 ≤ lower c ∧ lower c ≤ 0x66) then underscoreLoop hex 0x30 t
    else if c = 0x5F then (if saw ≠ 0x30 then false else underscoreLoop hex 0x5F t)
    else if saw = 0x5F then false
    else underscoreLoop hex 0x21 t

/-- Model of `underscoreOK` of `strconv`. -/
def underscoreOK (s : Str) : Bool :=
  let s :=
    match s with
    | c :: t => if c = 0x2D ∨ c = 0x2B then t else s
    | [] => s
  match s with
  | c0 :: c1 :: t =>
    if c0 = 0x30 ∧ (lower c1 = 0x62 ∨ lower c1 = 0x6F ∨ lower c1 = 0x78) then
      underscoreLoop (lower c1 = 0x78) 0x30 t
    else underscoreLoop false 0x5E s
  | _ => underscoreLoop false 0x5E s

/-- The test for a hexadecimal mantissa in `readFloat`:
`i+2 < len(s) && s[i] == '0' && lower(s[i+1]) == 'x'`. -/
def hexPrefix (s : Str) : Bool :=
  match s with
  | c0 :: c1 :: _ :: _ => c0 = 0x30 ∧ lower c1 = 0x78
  | _ => false

/-- What `readFloat` of `strconv` returns when it succeeds: the sign, the base
(hexadecimal or decimal), the number written by the mantissa digits, the power
of the base (decimal) or of two (hexadecimal) it is scaled by, and the number of
bytes consumed. -/
structure ReadFloat where
  neg : Bool
  hex : Bool
  mant : Nat
  exp : Int
  n : Nat
  deriving DecidableEq

/-- Model of `readFloat` of `strconv`; `none` is `ok = false`.  The mantissa is
kept in full: the truncation to 19 digits in the source only selects the
conversion algorithm, the value returned is the rounded value of all digits. -/
def readFloat (s : Str) : Option ReadFloat :=
  match s with
  | [] => none
  | c :: t =>
    let neg : Bool := c = 0x2D
    let s1 : Str := if c = 0x2B ∨ c = 0x2D then t else s
    let hex : Bool := hexPrefix s1
    let s2 : Str := if hex then s1.drop 2 else s1
    let r := mantLoop hex ⟨false, false, false, 0, 0⟩ s2
    let st := r.1
    let s3 := r.2
    if ¬ st.sawdigits then none
    else
      let expChar : Nat := if hex then 0x70 else 0x65
      let scale : Int := if hex then -(4 * (st.frac : Int)) else -(st.frac : Int)
      match s3 with
      | c3 :: t3 =>
        if lower c3 = expChar then
          match t3 with
          | [] => none
          | c4 :: t4 =>
            let esign : Int := if c4 = 0x2D then -1 else 1
            let s5 : Str := if c4 = 0x2B ∨ c4 = 0x2D then t4 else t3
            match s5 with
            | [] => none
            | c5 :: _ =>
              if ¬ isDigit c5 then none
              else
                let x := expLoop 0 st.underscores s5
                let n := s.length - x.2.2.length
                if x.2.1 ∧ ¬ underscoreOK (s.take n) then none
                else some ⟨neg, hex, st.mant, scale + (x.1 : Int) * esign, n⟩
        else if hex then none
        else
          let n := s.length - s3.length
          if st.underscores ∧ ¬ underscoreOK (s.take n) then none
          else some ⟨neg, hex, st.mant, scale, n⟩
      | [] =>
        if hex then none
        else if st.underscores ∧ ¬ underscoreOK s then none
        else some ⟨neg, hex, st.mant, scale, s.length⟩

/-- The rational written by a successful `readFloat`. -/
def ReadFloat.value (r : ReadFloat) : ℚ :=
  (if r.neg then -1 else 1) * (r.mant : ℚ) * (if r.hex then (2 : ℚ) else 10) ^ r.exp

/-- Model of `strconv.ParseFloat(s, 64)`; `none` is a non-nil error (a syntax
error, or a range error when the value overflows binary64).  The result is
correctly rounded. -/
def parseFloat (s : Str) : Option F64 :=
  match special s with
  | some (f, n) => if n = s.length then some f else none
  | none =>
    match readFloat s with
    | none => none
    | some r =>
      if r.n ≠ s.length then none
      else if overflowBound ≤ |r.value| then none
      else some (F64.num (roundF64 r.value))

/-- Model of `math.Ldexp(f, m)`. -/
def ldexp (f : F64) (m : Int) : F64 :=
  match f with
  | F64.num q =>
    let v := q * (2 : ℚ) ^ m
    if overflowBound ≤ |v| then F64.inf (decide (v < 0)) else F64.num (roundF64 v)
  | f => f

/-! ## `fmt.Sscanf(payload, "%f", &value)` -/

/-- Model of `(*ss).SkipSpace` of `fmt` as `Sscanf` runs it (newlines are not
space): the input after the leading space, `none` for the error
"unexpected newline".  The first argument bounds the number of runes skipped.
The space test of `fmt` is the set of `unicode.IsSpace`. -/
def skipSpaceAux : Nat → Str → Option Str
  | 0, s => some s
  | n + 1, s =>
    match s with
    | [] => some []
    | _ :: _ =>
      let d := decodeRune s
      let t := s.drop d.2
      if d.1 = 0x0D ∧ t.head? = some 0x0A then skipSpaceAux n t
      else if d.1 = 0x0A then none
      else if isSpace d.1 then skipSpaceAux n t
      else some s

/-- The space skipped before a verb. -/
def skipSpace (s : Str) : Option Str := skipSpaceAux s.length s

/-- Model of `(*ss).accept(ok)` of `fmt` on the pair (token read so far, unread
input): every accepted set is ASCII, and a rune is an ASCII rune exactly when
it is decoded from a single byte below 0x80, so the test is on the next byte. -/
def accept (ok : Str) (sc : Str × Str) : Bool × (Str × Str) :=
  match sc.2 with
  | [] => (false, sc)
  | b :: t => if b ∈ ok then (true, (sc.1 ++ [b], t)) else (false, sc)

/-- The loop `for s.accept(ok) {}`. -/
def acceptAll (ok : Str) (sc : Str × Str) : Str × Str :=
  (sc.1 ++ sc.2.takeWhile (fun b => decide (b ∈ ok)), sc.2.dropWhile (fun b => decide (b ∈ ok)))

/-- Model of `(*ss).floatToken` of `fmt`: the longest prefix of the input that
has the shape of a floating-point number. -/
def floatToken (input : Str) : Str :=
  let s0 : Str × Str := ([], input)
  let a1 := accept (ascii "nN") s0
  let a2 := if a1.1 then accept (ascii "aA") a1.2 else (false, a1.2)
  let a3 := if a2.1 then accept (ascii "nN") a2.2 else (false, a2.2)
  if a3.1 then a3.2.1
  else
    let s4 := (accept (ascii "+-") a3.2).2
    let b1 := accept (ascii "iI") s4
    let b2 := if b1.1 then accept (ascii "nN") b1.2 else (false, b1.2)
    let b3 := if b2.1 then accept (ascii "fF") b2.2 else (false, b2.2)
    if b3.1 then b3.2.1
    else
      let c1 := accept (ascii "0") b3.2
      let c2 := if c1.1 then accept (ascii "xX") c1.2 else (false, c1.2)
      let digits := if c2.1 then ascii "0123456789aAbBcCdDeEfF_" else ascii "0123456789_"
      let exp := if c2.1 then ascii "pP" else ascii "eEpP"
      let s10 := acceptAll digits c2.2
      let d1 := accept (ascii ".") s10
      let s12 := if d1.1 then acceptAll digits d1.2 else d1.2
      let e1 := accept exp s12
      let s14 := if e1.1 then acceptAll (ascii "0123456789_") (accept (ascii "+-") e1.2).2 else e1.2
      s14.1

/-- Model of `(*ss).convertFloat(str, 64)` of `fmt`; `none` is a scan error. -/
def convertFloat (str : Str) : Option F64 :=
  if 0x70 ∈ str ∧ ¬ (0x78 ∈ str ∨ 0x58 ∈ str) then
    let p := str.indexOf 0x70
    match parseFloat (str.take p) with
    | none => none
    | some f =>
      let m := atoi (str.drop (p + 1))
      if m.2 then some (ldexp f m.1) else none
  else parseFloat str

/-- Model of `fmt.Sscanf(input, "%f", &value)`: the value stored, `none` when the
scan fails and `value` is left untouched. -/
def sscanFloat (input : Str) : Option F64 :=
  match skipSpace input with
  | none => none
  | some s => if s = [] then none else convertFloat (floatToken s)

/-! ## The extractors of the source -/

/-- The tail of `extractValue`: `var value float64; fmt.Sscanf(payload, "%f",
&value); return value`. -/
def scanValue (payload : Str) : F64 := (sscanFloat payload).getD (F64.num 0)

/-- Embedding of `extractValue`. -/
def extractValue (line : Str) : Option F64 :=
  let start := index line 0x28 + 1
  let end0 := index line 0x2A
  if start < 0 ∨ end0 < 0 ∨ end0 ≤ start then
    let end1 := index line 0x29
    if end1 ≤ start then some (F64.num 0)
    else (slice line start end1).map scanValue
  else (slice line start end0).map scanValue

/-- Embedding of `extractValueText`. -/
def extractValueText (line : Str) : Option Str :=
  let start := index line 0x28 + 1
  let end0 := index line 0x29
  if start < 0 ∨ end0 < 0 ∨ end0 ≤ start then some []
  else slice line start end0

/-- Wrap-around of 64-bit signed arithmetic. -/
def wrap64 (x : Int) : Int := (x + 2 ^ 63) % 2 ^ 64 - 2 ^ 63

/-- The loop of `hashString` (`for _, c := range s`), one rune per iteration;
the first argument bounds the number of iterations. -/
def hashLoop : Nat → Int → Str → Int
  | 0, h, _ => h
  | n + 1, h, s =>
    match s with
    | [] => h
    | _ :: _ =>
      let d := decodeRune s
      hashLoop n (wrap64 (h * 31 + (d.1 : Int))) (s.drop d.2)

/-- Embedding of `hashString`. -/
def hashString (s : Str) : Int := hashLoop s.length 0 s

/-! ## `time.Date(...).Unix()` -/

/-- Leap year of the proleptic Gregorian calendar. -/
def isLeap (year : Int) : Bool := year % 4 = 0 ∧ (year % 100 ≠ 0 ∨ year % 400 = 0)

/-- Days from 1970-01-01 to the first of January of `year`. -/
def daysSinceEpoch (year : Int) : Int :=
  let leaps (y : Int) : Int := (y - 1) / 4 - (y - 1) / 100 + (y - 1) / 400
  365 * (year - 1970) + leaps year - leaps 1970

/-- The table `daysBefore` of `time`: days of a non-leap year before month
`m + 1`. -/
def daysBefore (m : Int) : Int :=
  [0, 31, 59, 90, 120, 151, 181, 212, 243, 273, 304, 334].getD m.toNat 0

/-- Model of `time.Date(year, month, day, hour, min, sec, 0, time.UTC).Unix()`:
values outside their usual ranges are normalised (`norm` of `time` is the floor
division). -/
def dateUnix (year month day hour min sec : Int) : Int :=
  let m0 := month - 1
  let year := year + m0 / 12
  let m := m0 % 12
  let min := min + sec / 60
  let sec := sec % 60
  let hour := hour + min / 60
  let min := min % 60
  let day := day + hour / 24
  let hour := hour % 24
  let d := daysSinceEpoch year + daysBefore m +
    (if isLeap year ∧ 3 ≤ m + 1 then 1 else 0) + (day - 1)
  d * 86400 + (hour * 3600 + min * 60 + sec)

/-- Embedding of `parseTimestamp`. -/
def parseTimestamp (ts : Str) : Option Int :=
  if ts.length < 12 then some 0
  else
    (slice ts 0 2).bind fun yy =>
    (slice ts 2 4).bind fun mo =>
    (slice ts 4 6).bind fun dd =>
    (slice ts 6 8).bind fun hh =>
    (slice ts 8 10).bind fun mi =>
    (slice ts 10 12).bind fun ss =>
      some (dateUnix (atoi (ascii "20" ++ yy)).1 (atoi mo).1 (atoi dd).1
        (atoi hh).1 (atoi mi).1 (atoi ss).1)

/-! ## The gauge vectors and the registry -/

/-- A series: a metric name with its label values. -/
structure Series where
  name : String
  labels : List String
  deriving DecidableEq

/-- The state of the registry: the current value of every series that exists. -/
abbrev Registry := Series → Option F64

/-- The registry with no series. -/
def emptyRegistry : Registry := fun _ => none

/-- A Prometheus `GaugeVec`: its name and its label names. -/
structure GaugeVec where
  name : String
  labelNames : List String
  deriving DecidableEq

/-- Embedding of the constant `metricPrefix`. -/
def metricPrefix : String := "elcentral_"

def activeEnergy : GaugeVec := ⟨metricPrefix ++ "active_energy_kwh", ["direction", "tariff"]⟩
def reactiveEnergy : GaugeVec := ⟨metricPrefix ++ "reactive_energy_kvarh", ["direction", "tariff"]⟩
def activePower : GaugeVec := ⟨metricPrefix ++ "active_power_kw", ["direction"]⟩
def reactivePower : GaugeVec := ⟨metricPrefix ++ "reactive_power_kvar", ["direction"]⟩
def instantaneousActivePower : GaugeVec :=
  ⟨metricPrefix ++ "instantaneous_active_power_kw", ["phase"]⟩
def instantaneousReactivePower : GaugeVec :=
  ⟨metricPrefix ++ "instantaneous_reactive_power_kvar", ["phase"]⟩
def voltage : GaugeVec := ⟨metricPrefix ++ "voltage_v", ["phase"]⟩
def current : GaugeVec := ⟨metricPrefix ++ "current_a", ["phase"]⟩
def meterID : GaugeVec := ⟨metricPrefix ++ "meter_id", ["device"]⟩
def timestamp : GaugeVec := ⟨metricPrefix ++ "timestamp", ["device"]⟩

/-- The gauge vectors that `init` registers, in the order of registration. -/
def gauges : List GaugeVec :=
  [activeEnergy, reactiveEnergy, activePower, reactivePower, instantaneousActivePower,
    instantaneousReactivePower, voltage, current, meterID, timestamp]

/-- Model of `(*GaugeVec).WithLabelValues`: the series of these label values;
`none` is the panic for a wrong number of label values. -/
def GaugeVec.withLabelValues (g : GaugeVec) (lvs : List String) : Option Series :=
  if lvs.length = g.labelNames.length then some ⟨g.name, lvs⟩ else none

/-- Model of `Gauge.Set`: the series is created if need be and holds `v`. -/
def Registry.set (r : Registry) (k : Series) (v : F64) : Registry :=
  fun k1 => if k1 = k then some v else r k1

/-- The statement `g.WithLabelValues(lvs...).Set(v)`. -/
def setGauge (g : GaugeVec) (lvs : List String) (v : F64) (r : Registry) : Option Registry :=
  (g.withLabelValues lvs).map fun k => r.set k v

/-- The body shared by the 26 numeric cases of the switch:
`value := extractValue(line); g.WithLabelValues(lvs...).Set(value)`. -/
def setNumeric (g : GaugeVec) (lvs : List String) (line : Str) (r : Registry) :
    Option Registry :=
  (extractValue line).bind fun value => setGauge g lvs value r

/-! ## The dispatcher -/

/-- The body of the loop of `parseAndSetMetrics` for one element of `lines`. -/
def processLine (r : Registry) (line0 : Str) : Option Registry :=
  let line := trimSpace line0
  if line = [] then some r
  else if hasPrefix line (ascii "0-0:96.1.0(") then
    (extractValueText line).bind fun value =>
      setGauge meterID ["meter"] (F64.ofInt (hashString value)) r
  else if hasPrefix line (ascii "0-0:1.0.0(") then
    (extractValueText line).bind fun value =>
      (parseTimestamp (trimSuffix value (ascii "W"))).bind fun unixTs =>
        setGauge timestamp ["meter"] (F64.ofInt unixTs) r
  else if hasPrefix line (ascii "1-0:1.8.0(") then
    setNumeric activeEnergy ["import", "T1"] line r
  else if hasPrefix line (ascii "1-0:2.8.0(") then
    setNumeric activeEnergy ["export", "T1"] line r
  else if hasPrefix line (ascii "1-0:3.8.0(") then
    setNumeric reactiveEnergy ["import", "T1"] line r
  else if hasPrefix line (ascii "1-0:4.8.0(") then
    setNumeric reactiveEnergy ["export", "T1"] line r
  else if hasPrefix line (ascii "1-0:1.7.0(") then
    setNumeric activePower ["import"] line r
  else if hasPrefix line (ascii "1-0:2.7.0(") then
    setNumeric activePower ["export"] line r
  else if hasPrefix line (ascii "1-0:3.7.0(") then
    setNumeric reactivePower ["import"] line r
  else if hasPrefix line (ascii "1-0:4.7.0(") then
    setNumeric reactivePower ["export"] line r
  else if hasPrefix line (ascii "1-0:21.7.0(") then
    setNumeric instantaneousActivePower ["L1"] line r
  else if hasPrefix line (ascii "1-0:22.7.0(") then
    setNumeric instantaneousActivePower ["L1_export"] line r
  else if hasPrefix line (ascii "1-0:41.7.0(") then
    setNumeric instantaneousActivePower ["L2"] line r
  else if hasPrefix line (ascii "1-0:42.7.0(") then
    setNumeric instantaneousActivePower ["L2_export"] line r
  else if hasPrefix line (ascii "1-0:61.7.0(") then
    setNumeric instantaneousActivePower ["L3"] line r
  else if hasPrefix line (ascii "1-0:62.7.0(") then
    setNumeric instantaneousActivePower ["L3_export"] line r
  else if hasPrefix line (ascii "1-0:23.7.0(") then
    setNumeric instantaneousReactivePower ["L1"] line r
  else if hasPrefix line (ascii "1-0:24.7.0(") then
    setNumeric instantaneousReactivePower ["L1_export"] line r
  else if hasPrefix line (ascii "1-0:43.7.0(") then
    setNumeric instantaneousReactivePower ["L2"] line r
  else if hasPrefix line (ascii "1-0:44.7.0(") then
    setNumeric instantaneousReactivePower ["L2_export"] line r
  else if hasPrefix line (ascii "1-0:63.7.0(") then
    setNumeric instantaneousReactivePower ["L3"] line r
  else if hasPrefix line (ascii "1-0:64.7.0(") then
    setNumeric instantaneousReactivePower ["L3_export"] line r
  else if hasPrefix line (ascii "1-0:32.7.0(") then
    setNumeric voltage ["L1"] line r
  else if hasPrefix line (ascii "1-0:52.7.0(") then
    setNumeric voltage ["L2"] line r
  else if hasPrefix line (ascii "1-0:72.7.0(") then
    setNumeric voltage ["L3"] line r
  else if hasPrefix line (ascii "1-0:31.7.0(") then
    setNumeric current ["L1"] line r
  else if hasPrefix line (ascii "1-0:51.7.0(") then
    setNumeric current ["L2"] line r
  else if hasPrefix line (ascii "1-0:71.7.0(") then
    setNumeric current ["L3"] line r
  else if hasPrefix line (ascii "/") then some r
  else if hasPrefix line (ascii "!") then some r
  else some r

/-- Embedding of `parseAndSetMetrics`: the registry after the call, `none` if
the call panics. -/
def parseAndSetMetrics (data : Str) (r : Registry) : Option Registry :=
  (splitLines data).foldlM processLine r

/-- Embedding of the loop of `ReadSerialData`: every line the scanner delivers
is handed to `parseAndSetMetrics`. -/
def ReadSerialData (lines : List Str) (r : Registry) : Option Registry :=
  lines.foldlM (fun r line => parseAndSetMetrics line r) r

/-! ## Notions of the specification -/

/-- An unsigned decimal literal: the digits `ip`, followed, when `fp` is not
empty, by a point and the digits `fp`. -/
def decimalLiteral (ip fp : Str) : Str := if fp = [] then ip else ip ++ 0x2E :: fp

/-- The number the decimal literal with integer digits `ip` and fraction digits
`fp` denotes. -/
def decimalValue (ip fp : Str) : ℚ := (digitsVal ip : ℚ) + (digitsVal fp : ℚ) / 10 ^ fp.length

/-- ASCII white space: tab, line feed, vertical tab, form feed, carriage return
and space. -/
def blank (b : Nat) : Bool := (9 ≤ b ∧ b ≤ 13) ∨ b = 0x20

/-- A text without its sign, if it starts with one. -/
def unsigned (s : Str) : Str :=
  match s with
  | c :: t => if c = 0x2B ∨ c = 0x2D then t else s
  | [] => []

/-- Whether a text starts with the letters of the lower-case word `w`, each in
either case. -/
def isWord : Str → Str → Bool
  | [], _ => true
  | _ :: _, [] => false
  | l :: w, c :: s => (c = l ∨ c + 0x20 = l) && isWord w s

/-- Whether a text begins the way a number begins: after an optional sign, a
digit or a point followed by a digit; or the word `inf` after the optional sign;
or the word `nan`. -/
def numberStart (s : Str) : Bool :=
  (match unsigned s with
    | c :: t => isDigit c || (c = 0x2E && (match t with | d :: _ => isDigit d | [] => false))
    | [] => false) ||
  isWord (ascii "inf") (unsigned s) || isWord (ascii "nan") s

/-- Whether a payload can begin with a number: after its leading ASCII white
space it begins the way a number begins, or with a byte that is not ASCII (which
can belong to further white space). -/
def mayStartNumber (p : Str) : Bool :=
  match p.dropWhile blank with
  | [] => false
  | b :: t => 0x80 ≤ b || numberStart (b :: t)

/-- Leap year of the Gregorian calendar. -/
def leapYear (y : Nat) : Bool := y % 4 = 0 ∧ (y % 100 ≠ 0 ∨ y % 400 = 0)

/-- Number of days of the year `y`. -/
def daysInYear (y : Nat) : Nat := if leapYear y then 366 else 365

/-- Number of days of the month `m` (1 to 12) of the year `y`. -/
def daysInMonth (y m : Nat) : Nat :=
  if m = 2 then (if leapYear y then 29 else 28)
  else if m = 4 ∨ m = 6 ∨ m = 9 ∨ m = 11 then 30
  else 31

/-- A valid calendar date with a valid time of day. -/
def validDateTime (y m d h mi s : Nat) : Prop :=
  1 ≤ m ∧ m ≤ 12 ∧ 1 ≤ d ∧ d ≤ daysInMonth y m ∧ h < 24 ∧ mi < 60 ∧ s < 60

instance (y m d h mi s : Nat) : Decidable (validDateTime y m d h mi s) := by
  unfold validDateTime
  exact inferInstance

/-- The number of seconds from 1970-01-01T00:00:00Z to `y-m-d h:mi:s` taken as
UTC, for a year from 1970 on: the whole years, months and days that have gone by
are counted one by one, every day having 86400 seconds. -/
def unixSeconds (y m d h mi s : Nat) : Int :=
  let days : Nat :=
    ((List.range (y - 1970)).map fun i => daysInYear (1970 + i)).sum +
      ((List.range (m - 1)).map fun i => daysInMonth y (i + 1)).sum + (d - 1)
  (days : Int) * 86400 + (h : Int) * 3600 + (mi : Int) * 60 + (s : Int)

/-- The number written by the two digits at offset `i` of a timestamp. -/
def field (ts : Str) (i : Nat) : Nat := digitsVal ((ts.drop i).take 2)

/-- The kind of an entry of the code table: which extractor the dispatcher
applies. -/
inductive Kind where
  | identity
  | timestamp
  | numeric
  deriving DecidableEq

/-- An entry of the code table of the specification: the code prefix, the series
written (exported metric name and label values), the names of its labels and the
kind. -/
structure Entry where
  code : Str
  series : Series
  labelNames : List String
  kind : Kind
  deriving DecidableEq

/-- The literal code table of the specification (section 6), with the exported
metric names, in the order of the table. -/
def codeTable : List Entry :=
  [
    ⟨ascii "0-0:96.1.0(", ⟨"elcentral_meter_id", ["meter"]⟩, ["device"], Kind.identity⟩,
    ⟨ascii "0-0:1.0.0(", ⟨"elcentral_timestamp", ["meter"]⟩, ["device"], Kind.timestamp⟩,
    ⟨ascii "1-0:1.8.0(", ⟨"elcentral_active_energy_kwh", ["import", "T1"]⟩, ["direction", "tariff"], Kind.numeric⟩,
    ⟨ascii "1-0:2.8.0(", ⟨"elcentral_active_energy_kwh", ["export", "T1"]⟩, ["direction", "tariff"], Kind.numeric⟩,
    ⟨ascii "1-0:3.8.0(", ⟨"elcentral_reactive_energy_kvarh", ["import", "T1"]⟩, ["direction", "tariff"], Kind.numeric⟩,
    ⟨ascii "1-0:4.8.0(", ⟨"elcentral_reactive_energy_kvarh", ["export", "T1"]⟩, ["direction", "tariff"], Kind.numeric⟩,
    ⟨ascii "1-0:1.7.0(", ⟨"elcentral_active_power_kw", ["import"]⟩, ["direction"], Kind.numeric⟩,
    ⟨ascii "1-0:2.7.0(", ⟨"elcentral_active_power_kw", ["export"]⟩, ["direction"], Kind.numeric⟩,
    ⟨ascii "1-0:3.7.0(", ⟨"elcentral_reactive_power_kvar", ["import"]⟩, ["direction"], Kind.numeric⟩,
    ⟨ascii "1-0:4.7.0(", ⟨"elcentral_reactive_power_kvar", ["export"]⟩, ["direction"], Kind.numeric⟩,
    ⟨ascii "1-0:21.7.0(", ⟨"elcentral_instantaneous_active_power_kw", ["L1"]⟩, ["phase"], Kind.numeric⟩,
    ⟨ascii "1-0:22.7.0(", ⟨"elcentral_instantaneous_active_power_kw", ["L1_export"]⟩, ["phase"], Kind.numeric⟩,
    ⟨ascii "1-0:41.7.0(", ⟨"elcentral_instantaneous_active_power_kw", ["L2"]⟩, ["phase"], Kind.numeric⟩,
    ⟨ascii "1-0:42.7.0(", ⟨"elcentral_instantaneous_active_power_kw", ["L2_export"]⟩, ["phase"], Kind.numeric⟩,
    ⟨ascii "1-0:61.7.0(", ⟨"elcentral_instantaneous_active_power_kw", ["L3"]⟩, ["phase"], Kind.numeric⟩,
    ⟨ascii "1-0:62.7.0(", ⟨"elcentral_instantaneous_active_power_kw", ["L3_export"]⟩, ["phase"], Kind.numeric⟩,
    ⟨ascii "1-0:23.7.0(", ⟨"elcentral_instantaneous_reactive_power_kvar", ["L1"]⟩, ["phase"], Kind.numeric⟩,
    ⟨ascii "1-0:24.7.0(", ⟨"elcentral_instantaneous_reactive_power_kvar", ["L1_export"]⟩, ["phase"], Kind.numeric⟩,
    ⟨ascii "1-0:43.7.0(", ⟨"elcentral_instantaneous_reactive_power_kvar", ["L2"]⟩, ["phase"], Kind.numeric⟩,
    ⟨ascii "1-0:44.7.0(", ⟨"elcentral_instantaneous_reactive_power_kvar", ["L2_export"]⟩, ["phase"], Kind.numeric⟩,
    ⟨ascii "1-0:63.7.0(", ⟨"elcentral_instantaneous_reactive_power_kvar", ["L3"]⟩, ["phase"], Kind.numeric⟩,
    ⟨ascii "1-0:64.7.0(", ⟨"elcentral_instantaneous_reactive_power_kvar", ["L3_export"]⟩, ["phase"], Kind.numeric⟩,
    ⟨ascii "1-0:32.7.0(", ⟨"elcentral_voltage_v", ["L1"]⟩, ["phase"], Kind.numeric⟩,
    ⟨ascii "1-0:52.7.0(", ⟨"elcentral_voltage_v", ["L2"]⟩, ["phase"], Kind.numeric⟩,
    ⟨ascii "1-0:72.7.0(", ⟨"elcentral_voltage_v", ["L3"]⟩, ["phase"], Kind.numeric⟩,
    ⟨ascii "1-0:31.7.0(", ⟨"elcentral_current_a", ["L1"]⟩, ["phase"], Kind.numeric⟩,
    ⟨ascii "1-0:51.7.0(", ⟨"elcentral_current_a", ["L2"]⟩, ["phase"], Kind.numeric⟩,
    ⟨ascii "1-0:71.7.0(", ⟨"elcentral_current_a", ["L3"]⟩, ["phase"], Kind.numeric⟩
  ]

/-- Table lookup by exact-prefix match: the first entry whose code prefix the
line starts with. -/
def lookupLine (line : Str) : Option Entry :=
  codeTable.find? fun e => hasPrefix line e.code

/-- The value an entry of a given kind writes for a line: the hash of the text
converted to `float64` (identity), the normalised instant of the text without a
trailing `W` converted to `float64` (timestamp), the extracted number
(numeric); `none` if the extraction panics. -/
def entryValue (k : Kind) (line : Str) : Option F64 :=
  match k with
  | Kind.identity => (extractValueText line).map fun t => F64.ofInt (hashString t)
  | Kind.timestamp =>
    (extractValueText line).bind fun t =>
      (parseTimestamp (trimSuffix t (ascii "W"))).map fun u => F64.ofInt u
  | Kind.numeric => extractValue line

/-- What the dispatcher does with the result of the lookup: nothing when no
entry matches, else the value of the entry is written to its series. -/
def applyEntry (r : Registry) (line : Str) : Option Entry → Option Registry
  | none => some r
  | some e => (entryValue e.kind line).map fun v => r.set e.series v

/-- The dispatcher as a table lookup: what `processLine` does, told with the
code table. -/
def dispatchTable (r : Registry) (line0 : Str) : Option Registry :=
  let line := trimSpace line0
  if line = [] then some r else applyEntry r line (lookupLine line)

/-- A byte that can belong to the encoding of a white-space rune: an ASCII
white-space byte or a byte of a multi-byte encoding. -/
def spaceByte (b : Nat) : Bool := (9 ≤ b ∧ b ≤ 13) ∨ b = 32 ∨ 0x80 ≤ b

/-- The effect of one line on the registry: nothing, or one series set to a
value. -/
def applyEffect (r : Registry) : Option (Series × F64) → Registry
  | none => r
  | some kv => r.set kv.1 kv.2

/-- The registry after a sequence of effects. -/
def applyEffects (r : Registry) (effs : List (Option (Series × F64))) : Registry :=
  effs.foldl applyEffect r

/-- The series that a sequence of effects writes. -/
def written (effs : List (Option (Series × F64))) : List Series :=
  effs.filterMap fun e => e.map Prod.fst

/-- The two bytes of the field at offset `i` of a timestamp. -/
def fieldBytes (ts : Str) (i : Nat) : Str := (ts.drop i).take 2

/-- The timestamp with the two bytes of the field at offset `i` replaced by
`00`. -/
def zeroField (ts : Str) (i : Nat) : Str := ts.take i ++ ascii "00" ++ ts.drop (i + 2)

/-- The runes that `for _, c := range s` yields, one per iteration: the code
points of `s` when `s` is valid UTF-8, `RuneError` for every byte that starts no
valid encoding.  The first argument bounds the number of iterations. -/
def runesAux : Nat → Str → List Nat
  | 0, _ => []
  | n + 1, s =>
    match s with
    | [] => []
    | _ :: _ =>
      let d := decodeRune s
      d.1 :: runesAux n (s.drop d.2)

/-- The runes of a string. -/
def runes (s : Str) : List Nat := runesAux s.length s

/-- The base-31 polynomial of the code points `c_1 .. c_n`: the sum of
`c_i * 31^(n-i)`. -/
def polySum : List Nat → Int
  | [] => 0
  | c :: cs => (c : Int) * 31 ^ cs.length + polySum cs

/-- The payload of the specification inside the text that follows the opening
delimiter: what stands before whichever of `*` or `)` occurs first. -/
def firstGroup (after : Str) : Str := after.takeWhile fun b => b != 0x2A && b != 0x29

/-- Table lookup by exact-prefix match in a table `t` taken in the order of
`t`. -/
def lookupIn (t : List Entry) (line : Str) : Option Entry :=
  t.find? fun e => hasPrefix line e.code

/-- The dispatcher as a lookup in a table `t`. -/
def dispatchWith (t : List Entry) (r : Registry) (line0 : Str) : Option Registry :=
  let line := trimSpace line0
  if line = [] then some r else applyEntry r line (lookupIn t line)

/-- The series of the code table: the fixed (metric name, label values)
pairs. -/
def tableSeries : List Series := codeTable.map fun e => e.series

/-! ## Lemmas on the string primitives -/

theorem index_of_not_mem (s : Str) (c : Nat) (h : c ∉ s) : index s c = -1 := by
  unfold index
  have : s.indexOf c = s.length := List.indexOf_eq_length.2 h
  simp [this]

theorem index_of_mem (s : Str) (c : Nat) (h : c ∈ s) : index s c = (s.indexOf c : Int) := by
  unfold index
  have : s.indexOf c < s.length := List.indexOf_lt_length.2 h
  simp [this]

theorem index_append (a t : Str) (c : Nat) (h : c ∉ a) :
    index (a ++ c :: t) c = (a.length : Int) := by
  have hm : c ∈ a ++ c :: t := by simp
  rw [index_of_mem _ _ hm]
  congr 1
  induction a with
  | nil => simp
  | cons x a ih =>
    have hx : x ≠ c := fun e => h (by simp [e])
    have ha : c ∉ a := fun e => h (by simp [e])
    simp [List.indexOf_cons, hx, ih ha (by simp)]

theorem index_bounds (s : Str) (c : Nat) : -1 ≤ index s c ∧ index s c < (s.length : Int) := by
  unfold index
  split <;> omega

theorem slice_mid (a p t : Str) :
    slice (a ++ p ++ t) (a.length : Int) ((a.length : Int) + (p.length : Int)) = some p := by
  unfold slice
  have h : (0:Int) ≤ a.length ∧ (a.length:Int) ≤ a.length + p.length ∧
      (a.length : Int) + p.length ≤ ((a ++ p ++ t).length : Int) := by
    simp only [List.length_append, Nat.cast_add]; omega
  rw [if_pos h]
  have e1 : ((a.length : Int) + (p.length : Int)).toNat = a.length + p.length := by omega
  have e2 : ((a.length : Int)).toNat = a.length := by omega
  rw [e1, e2]
  have : (a ++ p ++ t).take (a.length + p.length) = a ++ p := by
    exact List.take_left' (by simp)
  rw [this, List.drop_left' rfl]

/-! ## `extractValueText` -/

/-- C8. `extractValueText` returns the text strictly between the delimiters: in a
line whose first `(` comes before its first `)`, that is a line
`a ++ "(" ++ p ++ ")" ++ t` with neither delimiter in `a` and no `)` in `p`, the
result is `p` (the empty string when the two delimiters are adjacent). -/
theorem extractValueText_between (a p t : Str) (ha : 0x28 ∉ a) (hb : 0x29 ∉ a)
    (hp : 0x29 ∉ p) :
    extractValueText (a ++ 0x28 :: (p ++ 0x29 :: t)) = some p := by
  have h1 : index (a ++ 0x28 :: (p ++ 0x29 :: t)) 0x28 = (a.length : Int) :=
    index_append a _ 0x28 ha
  have h2 : index (a ++ 0x28 :: (p ++ 0x29 :: t)) 0x29 = ((a ++ 0x28 :: p).length : Int) := by
    have hn : 0x29 ∉ a ++ 0x28 :: p := by
      simp only [List.mem_append, List.mem_cons, not_or]
      exact ⟨hb, by decide, hp⟩
    have := index_append (a ++ 0x28 :: p) t 0x29 hn
    simpa using this
  unfold extractValueText
  simp only [h1, h2]
  rcases p with _ | ⟨x, p⟩
  · simp
  · have hc : ¬ ((a.length : Int) + 1 < 0 ∨ (((a ++ 0x28 :: x :: p).length : Nat) : Int) < 0 ∨
        (((a ++ 0x28 :: x :: p).length : Nat) : Int) ≤ (a.length : Int) + 1) := by
      simp only [List.length_append, List.length_cons, Nat.cast_add, Nat.cast_one]; omega
    rw [if_neg hc]
    have := slice_mid (a ++ [0x28]) (x :: p) (0x29 :: t)
    simp only [List.length_append, List.length_cons, List.length_nil, Nat.cast_add,
      Nat.cast_one, List.append_assoc, List.singleton_append, List.cons_append, zero_add,
      Nat.cast_zero] at this ⊢
    rw [← this]
    congr 1
    omega

/-- The instance of C8 named by the specification:
`extractValueText("(12345678)") = "12345678"`. -/
theorem extractValueText_between_witness :
    (0x28 ∉ ([] : Str) ∧ 0x29 ∉ ([] : Str) ∧ 0x29 ∉ ascii "12345678") ∧
      extractValueText (ascii "(12345678)") = some (ascii "12345678") :=
  ⟨by decide, extractValueText_between [] (ascii "12345678") [] (by decide) (by decide)
    (by decide)⟩

/-- C9, the code at the failing input: a line without `(` whose first `)` is not
at offset 0 does not give the empty string, because `start` is `Index + 1` and
the test `start < 0` can never hold. -/
theorem extractValueText_no_open_paren :
    0x28 ∉ ascii "abc)" ∧ extractValueText (ascii "abc)") = some (ascii "abc") := by
  decide

/-! ## Rounding to binary64 -/

theorem roundHalfEven_int (n : Int) : roundHalfEven (n : ℚ) = n := by
  unfold roundHalfEven
  simp

/-- The binary exponent of a rational between two consecutive powers of two. -/
theorem log_two_eq (a : ℚ) (L : Int) (h1 : (2 : ℚ) ^ L ≤ a) (h2 : a < (2 : ℚ) ^ (L + 1)) :
    Int.log 2 a = L := by
  have ha : 0 < a := lt_of_lt_of_le (zpow_pos (by norm_num) L) h1
  have l1 : L ≤ Int.log 2 a := (Int.zpow_le_iff_le_log (by norm_num) ha).1 (by exact_mod_cast h1)
  have l2 : Int.log 2 a < L + 1 := (Int.lt_zpow_iff_log_lt (by norm_num) ha).1 (by exact_mod_cast h2)
  omega

/-- Rounding of a number of known binary exponent `L` in the normal range: the
mantissa is rounded at `2^(L - 52)`. -/
theorem roundF64_normal (q : ℚ) (L : Int) (h1 : (2 : ℚ) ^ L ≤ |q|) (h2 : |q| < (2 : ℚ) ^ (L + 1))
    (hL : -1022 ≤ L) :
    roundF64 q = (roundHalfEven (q / 2 ^ (L - 52)) : ℚ) * 2 ^ (L - 52) := by
  have hq : q ≠ 0 := by
    intro h
    rw [h, abs_zero] at h1
    exact absurd h1 (not_le.2 (zpow_pos (by norm_num) L))
  unfold roundF64
  rw [if_neg hq, log_two_eq |q| L h1 h2]
  simp only
  rw [max_eq_left (by omega)]

/-- Rounding in the subnormal range: the mantissa is rounded at `2^(-1074)`. -/
theorem roundF64_subnormal (q : ℚ) (hq : q ≠ 0) (h2 : |q| < (2 : ℚ) ^ (-1022 : Int)) :
    roundF64 q = (roundHalfEven (q / 2 ^ (-1074 : Int)) : ℚ) * 2 ^ (-1074 : Int) := by
  have ha : 0 < |q| := abs_pos.2 hq
  have l2 : Int.log 2 |q| < -1022 :=
    (Int.lt_zpow_iff_log_lt (by norm_num) ha).1 (by exact_mod_cast h2)
  unfold roundF64
  rw [if_neg hq]
  simp only
  rw [max_eq_right (by omega)]

/-- An integer of at most 53 bits is a binary64 value. -/
theorem roundF64_int (n : Int) (h : |n| ≤ 2 ^ 53) : roundF64 (n : ℚ) = n := by
  by_cases h0 : n = 0
  · subst h0
    simp [roundF64]
  · have hq : (n : ℚ) ≠ 0 := by exact_mod_cast h0
    have ha : 0 < |(n : ℚ)| := abs_pos.2 hq
    have hge : (1 : ℚ) ≤ |(n : ℚ)| := by
      have : (1 : Int) ≤ |n| := Int.one_le_abs h0
      exact_mod_cast this
    have hle : |(n : ℚ)| ≤ 2 ^ 53 := by exact_mod_cast h
    have l1 : 0 ≤ Int.log 2 |(n : ℚ)| :=
      (Int.zpow_le_iff_le_log (by norm_num) ha).1 (by simpa using hge)
    have l2 : Int.log 2 |(n : ℚ)| < 54 :=
      (Int.lt_zpow_iff_log_lt (by norm_num) ha).1
        (lt_of_le_of_lt hle (by norm_num))
    have l3 : ((2 : Nat) : ℚ) ^ Int.log 2 |(n : ℚ)| ≤ |(n : ℚ)| :=
      Int.zpow_log_le_self (by norm_num) ha
    unfold roundF64
    rw [if_neg hq]
    simp only
    generalize Int.log 2 |(n : ℚ)| = k at l1 l2 l3
    rw [max_eq_left (by omega)]
    by_cases hk : k ≤ 52
    · obtain ⟨j, hj⟩ : ∃ j : Nat, k - 52 = -(j : Int) := ⟨(52 - k).toNat, by omega⟩
      rw [hj, zpow_neg, zpow_natCast, div_inv_eq_mul]
      have e : ((n : ℚ) * 2 ^ j) = ((n * 2 ^ j : Int) : ℚ) := by push_cast; ring
      rw [e, roundHalfEven_int]
      push_cast
      field_simp
    · have hk53 : k = 53 := by omega
      subst hk53
      have l3' : (2 : ℚ) ^ (53 : Nat) ≤ |(n : ℚ)| := by
        have := l3
        rw [show (53 : Int) = ((53 : Nat) : Int) by rfl, zpow_natCast] at this
        simpa using this
      have habs : |(n : ℚ)| = 2 ^ 53 := le_antisymm hle l3'
      have hn : |n| = 2 ^ 53 := by exact_mod_cast habs
      have e : (n : ℚ) / 2 ^ ((53 : Int) - 52) = ((n / 2 : Int) : ℚ) := by
        have h2 : n = 2 * (n / 2) := by
          rcases abs_eq (by norm_num : (0 : Int) ≤ 2 ^ 53) |>.1 hn with h | h <;> omega
        have : (n : ℚ) = 2 * ((n / 2 : Int) : ℚ) := by exact_mod_cast h2
        rw [show ((53 : Int) - 52) = 1 by norm_num, zpow_one]
        linarith
      rw [e, roundHalfEven_int]
      have h2 : n = 2 * (n / 2) := by
        rcases abs_eq (by norm_num : (0 : Int) ≤ 2 ^ 53) |>.1 hn with h | h <;> omega
      rw [show ((53 : Int) - 52) = 1 by norm_num, zpow_one]
      have : (n : ℚ) = 2 * ((n / 2 : Int) : ℚ) := by exact_mod_cast h2
      linarith

theorem roundF64_nat (n : Nat) (h : n ≤ 2 ^ 53) : roundF64 (n : ℚ) = n := by
  have := roundF64_int (n : Int) (by
    rw [abs_of_nonneg (Int.natCast_nonneg _)]
    exact_mod_cast h)
  simpa using this

/-- Evaluation of `roundHalfEven` away from a tie. -/
theorem roundHalfEven_eval (t : ℚ) (m : Int) (h : |t - m| < 1 / 2) : roundHalfEven t = m := by
  rw [abs_lt] at h
  unfold roundHalfEven
  simp only
  by_cases hm : (m : ℚ) ≤ t
  · have hf : ⌊t⌋ = m := Int.floor_eq_iff.2 ⟨hm, by linarith [h.2]⟩
    rw [hf, if_pos (by linarith [h.2])]
  · have hf : ⌊t⌋ = m - 1 := Int.floor_eq_iff.2 ⟨by push_cast; linarith [h.1], by
      push_cast; linarith [not_le.1 hm]⟩
    rw [hf]
    push_cast
    rw [if_neg (by linarith [h.1]), if_pos (by linarith [h.1])]
    ring

/-- Evaluation of `roundHalfEven` at a tie. -/
theorem roundHalfEven_tie (m : Int) (hm : m % 2 = 0) :
    roundHalfEven ((m : ℚ) + 1 / 2) = m ∧ roundHalfEven ((m : ℚ) - 1 / 2) = m := by
  constructor
  · unfold roundHalfEven
    simp only
    have hf : ⌊(m : ℚ) + 1 / 2⌋ = m := Int.floor_eq_iff.2 ⟨by linarith, by linarith⟩
    rw [hf, if_neg (by norm_num), if_neg (by norm_num), if_pos hm]
  · unfold roundHalfEven
    simp only
    have hf : ⌊(m : ℚ) - 1 / 2⌋ = m - 1 := Int.floor_eq_iff.2 ⟨by push_cast; linarith, by
      push_cast; linarith⟩
    rw [hf]
    push_cast
    rw [if_neg (by norm_num), if_neg (by norm_num), if_neg (by omega)]
    ring

/-- A tie: 2^53 + 1 is half-way between 2^53 and 2^53 + 2 and goes to the even
mantissa. -/
theorem roundF64_tie_example : roundF64 9007199254740993 = 9007199254740992 := by
  have h := roundF64_normal 9007199254740993 53 (by norm_num [abs_of_pos]) (by norm_num [abs_of_pos])
    (by norm_num)
  have e : (9007199254740993 : ℚ) / 2 ^ ((53 : Int) - 52) = ((4503599627370496 : Int) : ℚ) + 1 / 2 := by
    norm_num
  rw [h, e, (roundHalfEven_tie 4503599627370496 (by norm_num)).1]
  norm_num

/-- The binary64 value nearest to 1234.567. -/
theorem roundF64_energy : roundF64 (1234567 / 1000) = 5429683087074132 / 2 ^ 42 := by
  have h := roundF64_normal (1234567 / 1000) 10 (by norm_num [abs_of_pos]) (by norm_num [abs_of_pos])
    (by norm_num)
  have e : roundHalfEven ((1234567 / 1000 : ℚ) / 2 ^ ((10 : Int) - 52)) = 5429683087074132 := by
    apply roundHalfEven_eval
    norm_num [abs_lt]
  rw [h, e]
  norm_num

theorem pow_two_lt_pow_ten (k j : Nat) (h : k + 1 ≤ 3 * j) : (2 : ℚ) ^ k < 10 ^ j := by
  have h0 : (2 : ℚ) ^ k < 2 ^ (k + 1) := by
    rw [pow_succ]
    have : (0 : ℚ) < 2 ^ k := pow_pos (by norm_num) k
    linarith
  have h1 : (2 : ℚ) ^ (k + 1) ≤ 2 ^ (3 * j) := pow_le_pow_right₀ (by norm_num) h
  have h2 : (2 : ℚ) ^ (3 * j) = 8 ^ j := by
    rw [pow_mul]
    norm_num
  have h3 : (8 : ℚ) ^ j ≤ 10 ^ j := pow_le_pow_left₀ (by norm_num) (by norm_num) j
  calc (2 : ℚ) ^ k < 2 ^ (k + 1) := h0
    _ ≤ 8 ^ j := by rw [← h2]; exact h1
    _ ≤ 10 ^ j := h3

/-- Underflow: 1e-400 is below half the least subnormal number and rounds to 0. -/
theorem roundF64_underflow_example : roundF64 (1 / 10 ^ 400) = 0 := by
  have hpos : (0 : ℚ) < 1 / 10 ^ 400 :=
    one_div_pos.2 (pow_pos (by norm_num : (0 : ℚ) < 10) 400)
  have b1 : (2 : ℚ) ^ 1022 < 10 ^ 400 := pow_two_lt_pow_ten 1022 400 (by norm_num)
  have b2 : (2 : ℚ) ^ 1075 < 10 ^ 400 := pow_two_lt_pow_ten 1075 400 (by norm_num)
  have h := roundF64_subnormal (1 / 10 ^ 400) (ne_of_gt hpos) (by
    rw [abs_of_pos hpos, show (-1022 : Int) = -((1022 : Nat) : Int) by rfl, zpow_neg,
      zpow_natCast, ← one_div]
    exact one_div_lt_one_div_of_lt (by positivity) b1)
  have e : roundHalfEven ((1 / 10 ^ 400 : ℚ) / 2 ^ (-1074 : Int)) = 0 := by
    apply roundHalfEven_eval
    have h10 : (0 : ℚ) < 10 ^ 400 := by positivity
    have e2 : (2 : ℚ) ^ 1075 = 2 ^ 1074 * 2 := by rw [← pow_succ]
    rw [Int.cast_zero, sub_zero, show (-1074 : Int) = -((1074 : Nat) : Int) by rfl, zpow_neg,
      zpow_natCast, div_inv_eq_mul, abs_of_pos (by positivity), div_mul_eq_mul_div, one_mul,
      div_lt_iff₀ h10]
    linarith
  rw [h, e]
  simp

/-- The rounded integer is within one half of the rational. -/
theorem roundHalfEven_near (t : ℚ) : |t - (roundHalfEven t : ℚ)| ≤ 1 / 2 := by
  have h1 := Int.floor_le t
  have h2 := Int.lt_floor_add_one t
  unfold roundHalfEven
  simp only
  rw [abs_le]
  split_ifs with c1 c2 c3
  · constructor <;> linarith
  · push_cast
    constructor <;> linarith
  · constructor <;> linarith
  · push_cast
    constructor <;> linarith

/-- Rounding to an integer is monotone against an integer bound. -/
theorem roundHalfEven_le (t : ℚ) (n : Int) (h : t ≤ n) : roundHalfEven t ≤ n := by
  have h1' : ⌊t⌋ ≤ n := by
    exact_mod_cast (Int.floor_mono h).trans (le_of_eq (Int.floor_intCast n))
  unfold roundHalfEven
  simp only
  split_ifs with c1 c2 c3
  · exact h1'
  · by_contra hlt
    have hn : n = ⌊t⌋ := by omega
    have : (n : ℚ) = (⌊t⌋ : ℚ) := by exact_mod_cast hn
    linarith
  · exact h1'
  · by_contra hlt
    have hn : n = ⌊t⌋ := by omega
    have : (n : ℚ) = (⌊t⌋ : ℚ) := by exact_mod_cast hn
    have h3 : t - ⌊t⌋ = 1 / 2 := le_antisymm (not_lt.1 c2) (not_lt.1 c1)
    linarith

theorem roundHalfEven_ge (t : ℚ) (n : Int) (h : (n : ℚ) ≤ t) : n ≤ roundHalfEven t := by
  have h1 : n ≤ ⌊t⌋ := Int.le_floor.2 h
  unfold roundHalfEven
  simp only
  split_ifs <;> omega

/-- The result of `roundF64` is a binary64 value: an integer of at most 53 bits
times a power of two not below `2^(-1074)`, and it is within half a unit of that
power of two of the rational. -/
theorem roundF64_form (q : ℚ) :
    ∃ m e : Int, roundF64 q = (m : ℚ) * 2 ^ e ∧ |m| ≤ 2 ^ 53 ∧ -1074 ≤ e ∧
      |q - roundF64 q| ≤ 2 ^ e / 2 := by
  by_cases hq : q = 0
  · refine ⟨0, 0, ?_, by norm_num, by norm_num, ?_⟩
    · simp [roundF64, hq]
    · simp [roundF64, hq]
  · have ha : 0 < |q| := abs_pos.2 hq
    have hlt : |q| < ((2 : Nat) : ℚ) ^ (Int.log 2 |q| + 1) := Int.lt_zpow_succ_log_self (by norm_num) _
    unfold roundF64
    rw [if_neg hq]
    simp only
    generalize he : max (Int.log 2 |q| - 52) (-1074) = e
    have he1 : Int.log 2 |q| - 52 ≤ e := by rw [← he]; exact le_max_left _ _
    have he2 : -1074 ≤ e := by rw [← he]; exact le_max_right _ _
    have hpos : (0 : ℚ) < 2 ^ e := zpow_pos (by norm_num) e
    have hb : |q / 2 ^ e| ≤ 2 ^ 53 := by
      rw [abs_div, abs_of_pos hpos, div_le_iff₀ hpos]
      have h1 : ((2 : Nat) : ℚ) ^ (Int.log 2 |q| + 1) ≤ (2 : ℚ) ^ (53 + e) := by
        push_cast
        exact zpow_le_zpow_right₀ (by norm_num) (by omega)
      have h2 : (2 : ℚ) ^ (53 + e) = 2 ^ 53 * 2 ^ e := by
        rw [zpow_add₀ (by norm_num)]
        norm_num
      linarith
    rw [abs_le] at hb
    refine ⟨roundHalfEven (q / 2 ^ e), e, rfl, ?_, he2, ?_⟩
    · rw [abs_le]
      constructor
      · have := roundHalfEven_ge (q / 2 ^ e) (-(2 ^ 53)) (by push_cast; linarith [hb.1])
        exact this
      · exact roundHalfEven_le (q / 2 ^ e) (2 ^ 53) (by push_cast; linarith [hb.2])
    · have hn := roundHalfEven_near (q / 2 ^ e)
      have e1 : q - (roundHalfEven (q / 2 ^ e) : ℚ) * 2 ^ e =
          (q / 2 ^ e - (roundHalfEven (q / 2 ^ e) : ℚ)) * 2 ^ e := by
        rw [sub_mul, div_mul_cancel₀ q (ne_of_gt hpos)]
      rw [e1, abs_mul, abs_of_pos hpos]
      calc |q / 2 ^ e - (roundHalfEven (q / 2 ^ e) : ℚ)| * 2 ^ e ≤ 1 / 2 * 2 ^ e :=
            mul_le_mul_of_nonneg_right hn (le_of_lt hpos)
        _ = 2 ^ e / 2 := by ring

/-! ## Scanning a number: lemmas on the model of `fmt.Sscanf` -/

theorem isDigit_iff (c : Nat) : isDigit c = true ↔ 0x30 ≤ c ∧ c ≤ 0x39 := by
  simp [isDigit]

theorem decodeRune_ascii (b : Nat) (t : Str) (h : b < 0x80) : decodeRune (b :: t) = (b, 1) := by
  simp [decodeRune, h]

theorem skipSpace_nonspace (b : Nat) (t : Str) (h : b < 0x80) (hs : isSpace b = false) :
    skipSpace (b :: t) = some (b :: t) := by
  have h13 : b ≠ 0x0D := by rintro rfl; simp [isSpace] at hs
  have h10 : b ≠ 0x0A := by rintro rfl; simp [isSpace] at hs
  simp [skipSpace, skipSpaceAux, decodeRune_ascii b t h, hs, h13, h10]

theorem isSpace_digit (d : Nat) (h : isDigit d = true) : isSpace d = false := by
  rw [isDigit_iff] at h
  simp only [isSpace]
  rw [if_pos (by omega)]
  simp only [decide_eq_false_iff_not]
  omega

theorem accept_nil (ok buf : Str) : accept ok (buf, []) = (false, (buf, [])) := rfl

theorem accept_cons_neg (ok buf t : Str) (b : Nat) (h : b ∉ ok) :
    accept ok (buf, b :: t) = (false, (buf, b :: t)) := by
  simp [accept, h]

theorem accept_cons_pos (ok buf t : Str) (b : Nat) (h : b ∈ ok) :
    accept ok (buf, b :: t) = (true, (buf ++ [b], t)) := by
  simp [accept, h]

theorem acceptAll_digits (buf ds t : Str) (ok : Str) (h : ∀ x ∈ ds, x ∈ ok)
    (ht : ∀ x ∈ t.head?, x ∉ ok) :
    acceptAll ok (buf, ds ++ t) = (buf ++ ds, t) := by
  have h1 : ∀ a ∈ ds, (fun b => decide (b ∈ ok)) a = true := by
    intro a ha; simpa using h a ha
  have h2 : t.takeWhile (fun b => decide (b ∈ ok)) = [] := by
    cases t with
    | nil => rfl
    | cons x t => simp [List.takeWhile_cons, ht x (by simp)]
  have h3 : t.dropWhile (fun b => decide (b ∈ ok)) = t := by
    cases t with
    | nil => rfl
    | cons x t => simp [List.dropWhile_cons, ht x (by simp)]
  simp only [acceptAll, List.takeWhile_append_of_pos h1, List.dropWhile_append_of_pos h1, h2, h3,
    List.append_nil]

theorem ascii_nN : ascii "nN" = [0x6E, 0x4E] := by decide
theorem ascii_aA : ascii "aA" = [0x61, 0x41] := by decide
theorem ascii_sign : ascii "+-" = [0x2B, 0x2D] := by decide
theorem ascii_iI : ascii "iI" = [0x69, 0x49] := by decide
theorem ascii_fF : ascii "fF" = [0x66, 0x46] := by decide
theorem ascii_zero : ascii "0" = [0x30] := by decide
theorem ascii_xX : ascii "xX" = [0x78, 0x58] := by decide
theorem ascii_point : ascii "." = [0x2E] := by decide
theorem ascii_exp : ascii "eEpP" = [0x65, 0x45, 0x70, 0x50] := by decide
theorem ascii_dec : ascii "0123456789_" =
    [0x30, 0x31, 0x32, 0x33, 0x34, 0x35, 0x36, 0x37, 0x38, 0x39, 0x5F] := by decide

theorem digit_mem_dec (d : Nat) (h : isDigit d = true) : d ∈ ascii "0123456789_" := by
  rw [isDigit_iff] at h
  rw [ascii_dec]
  simp only [List.mem_cons, List.mem_singleton, List.not_mem_nil, or_false]
  omega

theorem floatToken_decimal (ip fp : Str) (hne : ip ≠ []) (h1 : ∀ x ∈ ip, isDigit x = true)
    (h2 : ∀ x ∈ fp, isDigit x = true) :
    floatToken (decimalLiteral ip fp) = decimalLiteral ip fp := by
  obtain ⟨d, ds, rfl⟩ := List.exists_cons_of_ne_nil hne
  have hd := (isDigit_iff d).1 (h1 d (by simp))
  have hds : ∀ x ∈ ds, x ∈ ascii "0123456789_" := fun x hx => digit_mem_dec x (h1 x (by simp [hx]))
  have hfp : ∀ x ∈ fp, x ∈ ascii "0123456789_" := fun x hx => digit_mem_dec x (h2 x hx)
  -- the bytes after the integer digits
  obtain ⟨rest, hrest, hlit⟩ : ∃ rest : Str, (rest = [] ∨ rest = 0x2E :: fp) ∧
      decimalLiteral (d :: ds) fp = d :: (ds ++ rest) := by
    by_cases hf : fp = []
    · exact ⟨[], Or.inl rfl, by simp [decimalLiteral, hf]⟩
    · exact ⟨0x2E :: fp, Or.inr rfl, by simp [decimalLiteral, hf]⟩
  rw [hlit]
  have hxr : ∀ x ∈ (ds ++ rest).head?, x ∉ ascii "xX" := by
    intro x hx
    have : isDigit x = true ∨ x = 0x2E := by
      rcases ds with _ | ⟨y, ds⟩
      · rcases hrest with rfl | rfl
        · simp at hx
        · simp at hx; exact Or.inr hx.symm
      · simp at hx; subst hx; exact Or.inl (h1 _ (by simp))
    rw [ascii_xX]
    rcases this with h | rfl
    · rw [isDigit_iff] at h; simp; omega
    · decide
  have hrd : ∀ x ∈ rest.head?, x ∉ ascii "0123456789_" := by
    intro x hx
    rcases hrest with rfl | rfl
    · simp at hx
    · simp at hx; subst hx; decide
  -- the scan after the integer digits
  have tail : ∀ buf : Str,
      (let s10 : Str × Str := (buf ++ ds, rest)
       let d1 := accept (ascii ".") s10
       let s12 := if d1.1 then acceptAll (ascii "0123456789_") d1.2 else d1.2
       let e1 := accept (ascii "eEpP") s12
       let s14 := if e1.1 then
          acceptAll (ascii "0123456789_") (accept (ascii "+-") e1.2).2 else e1.2
       s14.1) = buf ++ ds ++ rest := by
    intro buf
    rcases hrest with rfl | rfl
    · simp [accept_nil]
    · have := acceptAll_digits (buf ++ ds ++ [0x2E]) fp [] (ascii "0123456789_") hfp (by simp)
      simp only [List.append_nil] at this
      simp only [accept_cons_pos _ _ _ _ (show 0x2E ∈ ascii "." by decide), if_true, this,
        accept_nil]
      simp
  have n1 : d ∉ ascii "nN" := by rw [ascii_nN]; simp; omega
  have n2 : d ∉ ascii "+-" := by rw [ascii_sign]; simp; omega
  have n3 : d ∉ ascii "iI" := by rw [ascii_iI]; simp; omega
  unfold floatToken
  simp only [accept_cons_neg _ _ _ _ n1, accept_cons_neg _ _ _ _ n2, accept_cons_neg _ _ _ _ n3,
    Bool.false_eq_true, if_false]
  by_cases h0 : d = 0x30
  · subst h0
    have hx : accept (ascii "xX") ([] ++ [0x30], ds ++ rest) = (false, ([] ++ [0x30], ds ++ rest)) := by
      rcases hl : ds ++ rest with _ | ⟨y, l⟩
      · rfl
      · exact accept_cons_neg _ _ _ _ (hxr y (by simp [hl]))
    simp only [accept_cons_pos _ _ _ _ (show 0x30 ∈ ascii "0" by decide), hx, if_true,
      Bool.false_eq_true, if_false]
    rw [acceptAll_digits _ ds rest _ hds hrd]
    simpa using tail [0x30]
  · have n4 : d ∉ ascii "0" := by rw [ascii_zero]; simpa using h0
    simp only [accept_cons_neg _ _ _ _ n4, Bool.false_eq_true, if_false]
    have := acceptAll_digits [] (d :: ds) rest _
      (fun x hx => digit_mem_dec x (h1 x hx)) hrd
    simp only [List.nil_append, List.cons_append] at this
    rw [this]
    simpa using tail [d]

theorem foldl_digits (ds : Str) (acc : Nat) :
    ds.foldl (fun n c => n * 10 + (c - 0x30)) acc = acc * 10 ^ ds.length + digitsVal ds := by
  unfold digitsVal
  induction ds generalizing acc with
  | nil => simp
  | cons d ds ih =>
    simp only [List.foldl_cons, List.length_cons]
    rw [ih (acc * 10 + (d - 0x30)), ih (0 * 10 + (d - 0x30))]
    ring

theorem digitsVal_cons (d : Nat) (ds : Str) :
    digitsVal (d :: ds) = (d - 0x30) * 10 ^ ds.length + digitsVal ds := by
  have := foldl_digits ds (0 * 10 + (d - 0x30))
  simp only [zero_mul, zero_add] at this
  simpa [digitsVal] using this

theorem digitsVal_append (a b : Str) :
    digitsVal (a ++ b) = digitsVal a * 10 ^ b.length + digitsVal b := by
  unfold digitsVal
  rw [List.foldl_append, foldl_digits]
  rfl

theorem mantLoop_digits (ds rest : Str) (st : Mant) (h : ∀ x ∈ ds, isDigit x = true) :
    mantLoop false st (ds ++ rest) =
      mantLoop false
        { st with
          sawdigits := st.sawdigits || !ds.isEmpty
          mant := st.mant * 10 ^ ds.length + digitsVal ds
          frac := if st.sawdot then st.frac + ds.length else st.frac } rest := by
  induction ds generalizing st with
  | nil => cases st; simp [digitsVal]
  | cons d ds ih =>
    have hd := (isDigit_iff d).1 (h d (by simp))
    have h1 : d ≠ 0x5F := by omega
    have h2 : d ≠ 0x2E := by omega
    have h3 : digitOf false d = some (d - 0x30) := by simp [digitOf, h d (by simp)]
    rw [List.cons_append, mantLoop]
    simp only [h1, h2, if_false, h3]
    rw [ih _ (fun x hx => h x (by simp [hx]))]
    congr 1
    rw [digitsVal_cons]
    cases hs : st.sawdot
    · simp [hs]; ring
    · simp [hs]; constructor <;> ring

theorem lower_ne_x (c : Nat) (h : c < 64) : lower c ≠ 0x78 := by
  have : c ||| 0x20 < 2 ^ 6 := Nat.or_lt_two_pow (by simpa using h) (by norm_num)
  unfold lower
  omega

theorem hexPrefix_of_lt (d : Nat) (l : Str) (hl : ∀ x ∈ l.head?, x < 64) :
    hexPrefix (d :: l) = false := by
  rcases l with _ | ⟨c1, _ | ⟨c2, l⟩⟩
  · rfl
  · rfl
  · simp [hexPrefix, lower_ne_x c1 (hl c1 (by simp))]

theorem mantLoop_nil (hex : Bool) (st : Mant) : mantLoop hex st [] = (st, []) := by
  simp [mantLoop]

theorem mantLoop_int_digits (ds rest : Str) (h : ∀ x ∈ ds, isDigit x = true) :
    mantLoop false ⟨false, false, false, 0, 0⟩ (ds ++ rest) =
      mantLoop false ⟨false, !ds.isEmpty, false, digitsVal ds, 0⟩ rest := by
  rw [mantLoop_digits ds rest _ h]; simp

theorem mantLoop_frac_digits (ds : Str) (m : Nat) (h : ∀ x ∈ ds, isDigit x = true) :
    mantLoop false ⟨true, true, false, m, 0⟩ ds =
      (⟨true, true, false, m * 10 ^ ds.length + digitsVal ds, ds.length⟩, []) := by
  have := mantLoop_digits ds [] ⟨true, true, false, m, 0⟩ h
  rw [List.append_nil, mantLoop_nil] at this
  rw [this]; simp

theorem readFloat_decimal (ip fp : Str) (hne : ip ≠ []) (h1 : ∀ x ∈ ip, isDigit x = true)
    (h2 : ∀ x ∈ fp, isDigit x = true) :
    readFloat (decimalLiteral ip fp) =
      some ⟨false, false, digitsVal (ip ++ fp), -(fp.length : Int),
        (decimalLiteral ip fp).length⟩ := by
  obtain ⟨d, ds, rfl⟩ := List.exists_cons_of_ne_nil hne
  have hd := (isDigit_iff d).1 (h1 d (by simp))
  have hs1 : d ≠ 0x2B := by omega
  have hs2 : d ≠ 0x2D := by omega
  by_cases hf : fp = []
  · subst hf
    have hl : ∀ x ∈ ds.head?, x < 64 := by
      intro x hx
      have := (isDigit_iff x).1 (h1 x (by
        rcases ds with _ | ⟨y, ds⟩
        · simp at hx
        · simp at hx; simp [hx]))
      omega
    have hm := mantLoop_int_digits (d :: ds) [] h1
    rw [List.append_nil, mantLoop_nil] at hm
    simp only [decimalLiteral, if_true, readFloat, hs1, hs2, or_self, if_false,
      hexPrefix_of_lt d ds hl, Bool.false_eq_true, hm]
    simp
  · have hl : ∀ x ∈ (ds ++ 0x2E :: fp).head?, x < 64 := by
      intro x hx
      rcases ds with _ | ⟨y, ds⟩
      · simp at hx; omega
      · simp at hx
        have := (isDigit_iff x).1 (h1 x (by simp [hx]))
        omega
    have hm := mantLoop_int_digits (d :: ds) (0x2E :: fp) h1
    rw [mantLoop] at hm
    simp only [show (0x2E : Nat) ≠ 0x5F by decide, if_false, if_true, Bool.false_eq_true,
      List.isEmpty_cons, Bool.not_false, mantLoop_frac_digits fp _ h2] at hm
    simp only [decimalLiteral, hf, if_false, readFloat, hs1, hs2, or_self, List.cons_append,
      hexPrefix_of_lt d _ hl, Bool.false_eq_true]
    rw [← List.cons_append, hm]
    simp
    rw [← List.cons_append, digitsVal_append]

theorem special_digit (d : Nat) (t : Str) (h : isDigit d = true) : special (d :: t) = none := by
  rw [isDigit_iff] at h
  have a1 : d ≠ 0x2B := by omega
  have a2 : d ≠ 0x2D := by omega
  have a3 : d ≠ 0x69 := by omega
  have a4 : d ≠ 0x49 := by omega
  have a5 : d ≠ 0x6E := by omega
  have a6 : d ≠ 0x4E := by omega
  simp [special, a1, a2, a3, a4, a5, a6]

theorem decimalValue_nonneg (ip fp : Str) : 0 ≤ decimalValue ip fp := by
  unfold decimalValue
  positivity

theorem value_decimal (ip fp : Str) (n : Nat) :
    ReadFloat.value ⟨false, false, digitsVal (ip ++ fp), -(fp.length : Int), n⟩ =
      decimalValue ip fp := by
  simp only [ReadFloat.value, decimalValue, digitsVal_append, Bool.false_eq_true, if_false,
    one_mul, zpow_neg, zpow_natCast, Nat.cast_add, Nat.cast_mul, Nat.cast_pow, Nat.cast_ofNat]
  field_simp

theorem mem_decimalLiteral (ip fp : Str) (h1 : ∀ x ∈ ip, isDigit x = true)
    (h2 : ∀ x ∈ fp, isDigit x = true) (x : Nat) (hx : x ∈ decimalLiteral ip fp) :
    isDigit x = true ∨ x = 0x2E := by
  unfold decimalLiteral at hx
  split at hx
  · exact Or.inl (h1 x hx)
  · simp only [List.mem_append, List.mem_cons] at hx
    rcases hx with h | h | h
    · exact Or.inl (h1 x h)
    · exact Or.inr h
    · exact Or.inl (h2 x h)

theorem decimalLiteral_cons (d : Nat) (ds fp : Str) :
    ∃ l, decimalLiteral (d :: ds) fp = d :: l := by
  unfold decimalLiteral
  split
  · exact ⟨ds, rfl⟩
  · exact ⟨ds ++ 0x2E :: fp, rfl⟩

/-- What `fmt.Sscanf(n, "%f", &value)` stores for a decimal literal `n`. -/
theorem sscanFloat_decimal (ip fp : Str) (hne : ip ≠ []) (h1 : ∀ x ∈ ip, isDigit x = true)
    (h2 : ∀ x ∈ fp, isDigit x = true) :
    sscanFloat (decimalLiteral ip fp) =
      if overflowBound ≤ decimalValue ip fp then none
      else some (F64.num (roundF64 (decimalValue ip fp))) := by
  obtain ⟨d, ds, rfl⟩ := List.exists_cons_of_ne_nil hne
  obtain ⟨l, hl⟩ := decimalLiteral_cons d ds fp
  have hd := h1 d (by simp)
  have hd2 := (isDigit_iff d).1 hd
  have hp : ¬ (0x70 ∈ decimalLiteral (d :: ds) fp ∧
      ¬ (0x78 ∈ decimalLiteral (d :: ds) fp ∨ 0x58 ∈ decimalLiteral (d :: ds) fp)) := by
    rintro ⟨h, -⟩
    rcases mem_decimalLiteral _ _ h1 h2 _ h with h | h
    · simp [isDigit] at h
    · simp at h
  have hsk : skipSpace (decimalLiteral (d :: ds) fp) = some (decimalLiteral (d :: ds) fp) := by
    rw [hl]; exact skipSpace_nonspace d l (by omega) (isSpace_digit d hd)
  have hsp : special (decimalLiteral (d :: ds) fp) = none := by
    rw [hl]; exact special_digit d l hd
  have hnn : decimalLiteral (d :: ds) fp ≠ [] := by rw [hl]; simp
  unfold sscanFloat
  rw [hsk]
  simp only [hnn, if_false, floatToken_decimal _ _ hne h1 h2]
  unfold convertFloat
  rw [if_neg hp]
  unfold parseFloat
  rw [hsp]
  simp only [readFloat_decimal _ _ hne h1 h2, ne_eq, not_true_eq_false, if_false, value_decimal,
    abs_of_nonneg (decimalValue_nonneg _ _)]

/-! ## `extractValue` -/

/-- The payload located by `extractValue` in a line `c ++ "(" ++ n ++ "*" ++ t`
with no delimiter before the `(` and a non-empty `n` without `*`. -/
theorem extractValue_star (c n t : Str) (hc1 : 0x28 ∉ c) (hc2 : 0x2A ∉ c) (hn : 0x2A ∉ n)
    (hne : n ≠ []) :
    extractValue (c ++ 0x28 :: (n ++ 0x2A :: t)) = some (scanValue n) := by
  have h1 : index (c ++ 0x28 :: (n ++ 0x2A :: t)) 0x28 = (c.length : Int) :=
    index_append c _ 0x28 hc1
  have h2 : index (c ++ 0x28 :: (n ++ 0x2A :: t)) 0x2A = ((c ++ 0x28 :: n).length : Int) := by
    have hm : 0x2A ∉ c ++ 0x28 :: n := by
      simp only [List.mem_append, List.mem_cons, not_or]
      exact ⟨hc2, by decide, hn⟩
    have := index_append (c ++ 0x28 :: n) t 0x2A hm
    simpa using this
  have hlen : 0 < n.length := List.length_pos.2 hne
  unfold extractValue
  simp only [h1, h2]
  have hcond : ¬ ((c.length : Int) + 1 < 0 ∨ (((c ++ 0x28 :: n).length : Nat) : Int) < 0 ∨
      (((c ++ 0x28 :: n).length : Nat) : Int) ≤ (c.length : Int) + 1) := by
    simp only [List.length_append, List.length_cons, Nat.cast_add, Nat.cast_one]; omega
  rw [if_neg hcond]
  have key : slice (c ++ 0x28 :: (n ++ 0x2A :: t)) ((c.length : Int) + 1)
      (((c ++ 0x28 :: n).length : Nat) : Int) = some n := by
    have := slice_mid (c ++ [0x28]) n (0x2A :: t)
    have e1 : (((c ++ [0x28]).length : Nat) : Int) = (c.length : Int) + 1 := by simp
    have e2 : (((c ++ 0x28 :: n).length : Nat) : Int) = (c.length : Int) + 1 + n.length := by
      simp only [List.length_append, List.length_cons, Nat.cast_add, Nat.cast_one]; omega
    rw [e1] at this
    rw [e2]
    simpa using this
  rw [key]
  rfl

theorem extractValue_decimal (c ip fp t : Str) (hc1 : 0x28 ∉ c) (hc2 : 0x2A ∉ c)
    (hne : ip ≠ []) (h1 : ∀ x ∈ ip, isDigit x = true) (h2 : ∀ x ∈ fp, isDigit x = true) :
    extractValue (c ++ 0x28 :: (decimalLiteral ip fp ++ 0x2A :: t)) =
      some (if overflowBound ≤ decimalValue ip fp then F64.num 0
        else F64.num (roundF64 (decimalValue ip fp))) := by
  have hn : 0x2A ∉ decimalLiteral ip fp := by
    intro h
    rcases mem_decimalLiteral _ _ h1 h2 _ h with h | h
    · simp [isDigit] at h
    · simp at h
  have hnn : decimalLiteral ip fp ≠ [] := by
    obtain ⟨d, ds, rfl⟩ := List.exists_cons_of_ne_nil hne
    obtain ⟨l, hl⟩ := decimalLiteral_cons d ds fp
    rw [hl]; simp
  rw [extractValue_star c _ t hc1 hc2 hn hnn, scanValue, sscanFloat_decimal ip fp hne h1 h2]
  split <;> rfl

/-- C6, as amended. For a line `c ++ "(" ++ n ++ "*" ++ t` where `c` has no `(`
and no `*` and `n` is an unsigned decimal literal (digits `ip`, optionally a
point and the digits `fp`) whose value is below the binary64 overflow bound,
`extractValue` returns the binary64 value nearest to the number that `n`
denotes (ties to even); it is that number itself when the number is an integer
of at most 53 bits. -/
theorem extractValue_decimal_literal (c ip fp t : Str) (hc1 : 0x28 ∉ c) (hc2 : 0x2A ∉ c)
    (hne : ip ≠ []) (h1 : ∀ x ∈ ip, isDigit x = true) (h2 : ∀ x ∈ fp, isDigit x = true)
    (hb : decimalValue ip fp < overflowBound) :
    extractValue (c ++ 0x28 :: (decimalLiteral ip fp ++ 0x2A :: t)) =
        some (F64.num (roundF64 (decimalValue ip fp))) ∧
      (fp = [] → digitsVal ip ≤ 2 ^ 53 →
        extractValue (c ++ 0x28 :: (decimalLiteral ip fp ++ 0x2A :: t)) =
          some (F64.num (digitsVal ip))) := by
  have h := extractValue_decimal c ip fp t hc1 hc2 hne h1 h2
  rw [if_neg (not_le.2 hb)] at h
  refine ⟨h, fun hfp hle => ?_⟩
  rw [h]
  subst hfp
  have e : decimalValue ip [] = ((digitsVal ip : Int) : ℚ) := by
    rw [decimalValue]
    simp [digitsVal]
  have hr := roundF64_int (digitsVal ip : Int) (by
    rw [abs_of_nonneg (Int.natCast_nonneg _)]
    exact_mod_cast hle)
  rw [e, hr]
  simp

theorem digitsVal_zeros (n : Nat) : digitsVal (List.replicate n 0x30) = 0 := by
  induction n with
  | zero => rfl
  | succ n ih => rw [List.replicate_succ, digitsVal_cons, ih]; simp

theorem overflowBound_lt : overflowBound < 10 ^ 309 := by
  unfold overflowBound
  norm_num

theorem decimalValue_small : decimalValue (ascii "001234") (ascii "567") = 1234567 / 1000 := by
  have e1 : digitsVal (ascii "001234") = 1234 := by decide
  have e2 : digitsVal (ascii "567") = 567 := by decide
  have e3 : (ascii "567").length = 3 := by decide
  rw [decimalValue, e1, e2, e3]
  norm_num

theorem decimalValue_small_lt : decimalValue (ascii "001234") (ascii "567") < overflowBound := by
  rw [decimalValue_small]
  unfold overflowBound
  norm_num

/-- The instance of C6 named by the specification:
`extractValue("(001234.567*kWh)")` is the binary64 value nearest to 1234.567,
which is 5429683087074132 / 2^42. -/
theorem extractValue_decimal_literal_witness :
    (0x28 ∉ ([] : Str) ∧ 0x2A ∉ ([] : Str) ∧ ascii "001234" ≠ [] ∧
      (∀ x ∈ ascii "001234", isDigit x = true) ∧ (∀ x ∈ ascii "567", isDigit x = true) ∧
      decimalValue (ascii "001234") (ascii "567") < overflowBound) ∧
    extractValue (ascii "(001234.567*kWh)") = some (F64.num (roundF64 (1234567 / 1000))) ∧
    roundF64 (1234567 / 1000) = 5429683087074132 / 2 ^ 42 := by
  refine ⟨⟨by decide, by decide, by decide, by decide, by decide, decimalValue_small_lt⟩, ?_,
    roundF64_energy⟩
  have h := (extractValue_decimal_literal [] (ascii "001234") (ascii "567") (ascii "kWh)")
    (by decide) (by decide) (by decide) (by decide) (by decide) decimalValue_small_lt).1
  rw [decimalValue_small] at h
  exact h

/-- C6 as stated fails when the literal overflows binary64: for the literal `1`
followed by 309 zeros (the number `10^309`) `strconv.ParseFloat` reports a range
error, `Sscanf` stores nothing and `extractValue` returns 0. -/
theorem extractValue_overflow :
    (∀ x ∈ (0x31 :: List.replicate 309 0x30 : Str), isDigit x = true) ∧
    decimalValue (0x31 :: List.replicate 309 0x30) [] = 10 ^ 309 ∧
    extractValue (0x28 :: ((0x31 :: List.replicate 309 0x30) ++ ascii "*kWh)")) =
      some (F64.num 0) ∧
    extractValue (0x28 :: ((0x31 :: List.replicate 309 0x30) ++ ascii "*kWh)")) ≠
      some (F64.num (decimalValue (0x31 :: List.replicate 309 0x30) [])) := by
  have hd : ∀ x ∈ (0x31 :: List.replicate 309 0x30 : Str), isDigit x = true := by
    intro x hx
    simp only [List.mem_cons, List.mem_replicate] at hx
    rcases hx with rfl | ⟨-, rfl⟩ <;> decide
  have hv : decimalValue (0x31 :: List.replicate 309 0x30) [] = 10 ^ 309 := by
    rw [decimalValue, digitsVal_cons, digitsVal_zeros, List.length_replicate]
    norm_num [digitsVal]
  have he := extractValue_decimal [] (0x31 :: List.replicate 309 0x30) [] (ascii "kWh)")
    (by decide) (by decide) (List.cons_ne_nil _ _) hd (fun x hx => absurd hx (List.not_mem_nil x))
  rw [hv, if_pos overflowBound_lt.le] at he
  have e1 : decimalLiteral (0x31 :: List.replicate 309 0x30) [] =
      0x31 :: List.replicate 309 0x30 := if_pos rfl
  have e2 : ascii "*kWh)" = 0x2A :: ascii "kWh)" := by decide
  rw [e1, List.nil_append] at he
  rw [e2]
  refine ⟨hd, hv, he, ?_⟩
  rw [he, hv]
  intro h
  have h2 : (0 : ℚ) = 10 ^ 309 := F64.num.inj (Option.some.inj h)
  exact absurd h2.symm (pow_ne_zero _ (by norm_num))

/-- A literal that is not a binary64 value is rounded: `2^53 + 1` is read as
`2^53`. -/
theorem extractValue_rounds :
    extractValue (ascii "(9007199254740993*W)") = some (F64.num 9007199254740992) := by
  have hv : decimalValue (ascii "9007199254740993") [] = 9007199254740993 := by
    have e1 : digitsVal (ascii "9007199254740993") = 9007199254740993 := by decide
    rw [decimalValue, e1]
    norm_num [digitsVal]
  have he := extractValue_decimal [] (ascii "9007199254740993") [] (ascii "W)")
    (by decide) (by decide) (by decide) (by decide) (by decide)
  rw [hv, if_neg (by unfold overflowBound; norm_num), roundF64_tie_example] at he
  exact he

theorem accept_inv (ok : Str) (sc : Str × Str) :
    (accept ok sc).2.1 ++ (accept ok sc).2.2 = sc.1 ++ sc.2 := by
  obtain ⟨buf, rest⟩ := sc
  rcases rest with _ | ⟨b, t⟩
  · rfl
  · by_cases h : b ∈ ok
    · simp [accept, h]
    · simp [accept, h]

theorem acceptAll_inv (ok : Str) (sc : Str × Str) :
    (acceptAll ok sc).1 ++ (acceptAll ok sc).2 = sc.1 ++ sc.2 := by
  simp [acceptAll, List.takeWhile_append_dropWhile]

theorem guard_inv (b : Bool) (ok : Str) (sc : Str × Str) :
    (if b = true then accept ok sc else (false, sc)).2.1 ++
      (if b = true then accept ok sc else (false, sc)).2.2 = sc.1 ++ sc.2 := by
  cases b
  · rfl
  · simpa using accept_inv ok sc

theorem guardAll_inv (b : Bool) (ok : Str) (sc : Str × Str) :
    (if b = true then acceptAll ok sc else sc).1 ++
      (if b = true then acceptAll ok sc else sc).2 = sc.1 ++ sc.2 := by
  cases b
  · rfl
  · simpa using acceptAll_inv ok sc

/-- The token is a prefix of the input. -/
theorem floatToken_initial (s : Str) : floatToken s <+: s := by
  unfold floatToken
  lift_lets
  intro s0 a1 a2 a3 s4 b1 b2 b3 c1 c2 digits exp s10 d1 s12 e1 s14
  have r1 : a1.2.1 ++ a1.2.2 = s := accept_inv (ascii "nN") ([], s)
  have r2 : a2.2.1 ++ a2.2.2 = s := (guard_inv a1.1 (ascii "aA") a1.2).trans r1
  have r3 : a3.2.1 ++ a3.2.2 = s := (guard_inv a2.1 (ascii "nN") a2.2).trans r2
  have r4 : s4.1 ++ s4.2 = s := (accept_inv (ascii "+-") a3.2).trans r3
  have r5 : b1.2.1 ++ b1.2.2 = s := (accept_inv (ascii "iI") s4).trans r4
  have r6 : b2.2.1 ++ b2.2.2 = s := (guard_inv b1.1 (ascii "nN") b1.2).trans r5
  have r7 : b3.2.1 ++ b3.2.2 = s := (guard_inv b2.1 (ascii "fF") b2.2).trans r6
  have r8 : c1.2.1 ++ c1.2.2 = s := (accept_inv (ascii "0") b3.2).trans r7
  have r9 : c2.2.1 ++ c2.2.2 = s := (guard_inv c1.1 (ascii "xX") c1.2).trans r8
  have r10 : s10.1 ++ s10.2 = s := (acceptAll_inv digits c2.2).trans r9
  have r11 : d1.2.1 ++ d1.2.2 = s := (accept_inv (ascii ".") s10).trans r10
  have r12 : s12.1 ++ s12.2 = s := (guardAll_inv d1.1 digits d1.2).trans r11
  have r13 : e1.2.1 ++ e1.2.2 = s := (accept_inv exp s12).trans r12
  have r14 : s14.1 ++ s14.2 = s := by
    show (if e1.1 = true then acceptAll (ascii "0123456789_") (accept (ascii "+-") e1.2).2
      else e1.2).1 ++ (if e1.1 = true then
        acceptAll (ascii "0123456789_") (accept (ascii "+-") e1.2).2 else e1.2).2 = s
    split
    · exact (acceptAll_inv _ _).trans ((accept_inv (ascii "+-") e1.2).trans r13)
    · exact r13
  split
  · exact ⟨_, r3⟩
  · split
    · exact ⟨_, r7⟩
    · exact ⟨_, r14⟩

theorem slice_isSome (s : Str) (lo hi : Int) (h1 : 0 ≤ lo) (h2 : lo ≤ hi)
    (h3 : hi ≤ (s.length : Int)) : slice s lo hi = some ((s.take hi.toNat).drop lo.toNat) := by
  unfold slice
  rw [if_pos ⟨h1, h2, h3⟩]

/-- Totality of `extractValue`: it never panics, its slices are always in range. -/
theorem extractValue_total (line : Str) : ∃ v, extractValue line = some v := by
  have b1 := index_bounds line 0x28
  have b2 := index_bounds line 0x2A
  have b3 := index_bounds line 0x29
  unfold extractValue
  dsimp only
  split
  · split
    · exact ⟨_, rfl⟩
    · rw [slice_isSome _ _ _ (by omega) (by omega) (by omega)]
      exact ⟨_, rfl⟩
  · rw [slice_isSome _ _ _ (by omega) (by omega) (by omega)]
    exact ⟨_, rfl⟩

/-- Totality of `extractValueText`: it never panics. -/
theorem extractValueText_total (line : Str) : ∃ v, extractValueText line = some v := by
  have b1 := index_bounds line 0x28
  have b3 := index_bounds line 0x29
  unfold extractValueText
  dsimp only
  split
  · exact ⟨_, rfl⟩
  · rw [slice_isSome _ _ _ (by omega) (by omega) (by omega)]
    exact ⟨_, rfl⟩

/-- The payload located by `extractValue` in a line `c ++ "(" ++ p ++ ")" ++ t`
with no `(` and no `)` before the opening delimiter, a non-empty `p` without
`)`, and no `*` after the opening delimiter. -/
theorem extractValue_paren (c p t : Str) (hc1 : 0x28 ∉ c) (hc2 : 0x29 ∉ c) (hp1 : 0x29 ∉ p)
    (hp2 : 0x2A ∉ p) (ht : 0x2A ∉ t) (hne : p ≠ []) :
    extractValue (c ++ 0x28 :: (p ++ 0x29 :: t)) = some (scanValue p) := by
  have h1 : index (c ++ 0x28 :: (p ++ 0x29 :: t)) 0x28 = (c.length : Int) :=
    index_append c _ 0x28 hc1
  have h2 : index (c ++ 0x28 :: (p ++ 0x29 :: t)) 0x29 = ((c ++ 0x28 :: p).length : Int) := by
    have hm : 0x29 ∉ c ++ 0x28 :: p := by
      simp only [List.mem_append, List.mem_cons, not_or]
      exact ⟨hc2, by decide, hp1⟩
    have := index_append (c ++ 0x28 :: p) t 0x29 hm
    simpa using this
  have h3 : index (c ++ 0x28 :: (p ++ 0x29 :: t)) 0x2A < (c.length : Int) := by
    by_cases hm : 0x2A ∈ c
    · have hm2 : 0x2A ∈ c ++ 0x28 :: (p ++ 0x29 :: t) := List.mem_append_left _ hm
      rw [index_of_mem _ _ hm2, List.indexOf_append_of_mem hm]
      exact_mod_cast List.indexOf_lt_length.2 hm
    · have hm2 : 0x2A ∉ c ++ 0x28 :: (p ++ 0x29 :: t) := by
        simp only [List.mem_append, List.mem_cons, not_or]
        exact ⟨hm, by decide, hp2, by decide, ht⟩
      rw [index_of_not_mem _ _ hm2]
      omega
  have hlen : 0 < p.length := List.length_pos.2 hne
  have e2 : (((c ++ 0x28 :: p).length : Nat) : Int) = (c.length : Int) + 1 + p.length := by
    simp only [List.length_append, List.length_cons, Nat.cast_add, Nat.cast_one]; omega
  unfold extractValue
  simp only [h1, h2]
  rw [if_pos (Or.inr (Or.inr (by omega))), if_neg (by omega)]
  have key : slice (c ++ 0x28 :: (p ++ 0x29 :: t)) ((c.length : Int) + 1)
      (((c ++ 0x28 :: p).length : Nat) : Int) = some p := by
    have := slice_mid (c ++ [0x28]) p (0x29 :: t)
    have e1 : (((c ++ [0x28]).length : Nat) : Int) = (c.length : Int) + 1 := by simp
    rw [e1] at this
    rw [e2]
    simpa using this
  rw [key]
  rfl

theorem floatToken_star (x : Str) : floatToken (0x2A :: x) = [] := by
  unfold floatToken
  simp only [accept_cons_neg _ _ _ _ (show 0x2A ∉ ascii "nN" by decide),
    accept_cons_neg _ _ _ _ (show 0x2A ∉ ascii "+-" by decide),
    accept_cons_neg _ _ _ _ (show 0x2A ∉ ascii "iI" by decide),
    accept_cons_neg _ _ _ _ (show 0x2A ∉ ascii "0" by decide),
    accept_cons_neg _ _ _ _ (show 0x2A ∉ ascii "." by decide),
    accept_cons_neg _ _ _ _ (show 0x2A ∉ ascii "eEpP" by decide),
    Bool.false_eq_true, if_false, acceptAll,
    List.takeWhile_cons, List.dropWhile_cons,
    show decide (0x2A ∈ ascii "0123456789_") = false by decide, List.append_nil]

theorem scanValue_star (x : Str) : scanValue (0x2A :: x) = F64.num 0 := by
  have h1 : skipSpace (0x2A :: x) = some (0x2A :: x) :=
    skipSpace_nonspace 0x2A x (by decide) (by decide)
  have h2 : convertFloat [] = none := by decide
  simp [scanValue, sscanFloat, h1, floatToken_star, h2]

theorem parseFloat_eval (s : Str) (r : ReadFloat) (hs : special s = none)
    (hr : readFloat s = some r) (hn : r.n = s.length) (hv : |r.value| < overflowBound) :
    parseFloat s = some (F64.num (roundF64 r.value)) := by
  unfold parseFloat
  rw [hs, hr]
  simp only [hn, ne_eq, not_true_eq_false, if_false, not_le.2 hv]

theorem sscanFloat_eval (p s tok : Str) (v : Option F64) (h1 : skipSpace p = some s)
    (h2 : s ≠ []) (h3 : floatToken s = tok) (h4 : convertFloat tok = v) :
    sscanFloat p = v := by
  unfold sscanFloat
  rw [h1]
  simp only [h2, if_false, h3, h4]

theorem scanValue_one_dot : scanValue (ascii "1.0.0") = F64.num 1 := by
  have hp : parseFloat (ascii "1.0") = some (F64.num 1) := by
    have hr : readFloat (ascii "1.0") = some ⟨false, false, 10, -1, 3⟩ := by decide
    have hv : ReadFloat.value ⟨false, false, 10, -1, 3⟩ = 1 := by
      norm_num [ReadFloat.value]
    have := parseFloat_eval (ascii "1.0") _ (by decide) hr (by decide)
      (by rw [hv]; unfold overflowBound; norm_num)
    have e1 : roundF64 (1 : ℚ) = 1 := by simpa using roundF64_nat 1 (by norm_num)
    rw [this, hv, e1]
  have hc : convertFloat (ascii "1.0") = some (F64.num 1) := by
    unfold convertFloat
    rw [if_neg (by decide), hp]
  have := sscanFloat_eval (ascii "1.0.0") (ascii "1.0.0") (ascii "1.0") _ (by decide) (by decide)
    (by decide) hc
  rw [scanValue, this]
  rfl

theorem extractValue_one_dot : extractValue (ascii "(1.0.0)") = some (F64.num 1) := by
  have := extractValue_paren [] (ascii "1.0.0") [] (by decide) (by decide) (by decide) (by decide)
    (by decide) (by decide)
  rw [scanValue_one_dot] at this
  exact this

/-- A line in which the unit separator directly follows the opening delimiter. -/
theorem extractValue_empty_star (c t : Str) (hc1 : 0x28 ∉ c) (hc2 : 0x2A ∉ c) :
    extractValue (c ++ 0x28 :: 0x2A :: t) = some (F64.num 0) := by
  have h1 : index (c ++ 0x28 :: 0x2A :: t) 0x28 = (c.length : Int) :=
    index_append c _ 0x28 hc1
  have h2 : index (c ++ 0x28 :: 0x2A :: t) 0x2A = (c.length : Int) + 1 := by
    have hm : 0x2A ∉ c ++ [0x28] := by
      simp only [List.mem_append, List.mem_singleton, not_or]
      exact ⟨hc2, by decide⟩
    have := index_append (c ++ [0x28]) t 0x2A hm
    simpa using this
  have b3 := index_bounds (c ++ 0x28 :: 0x2A :: t) 0x29
  unfold extractValue
  simp only [h1, h2]
  rw [if_pos (Or.inr (Or.inr (le_refl _)))]
  split
  · rfl
  · rename_i hgt
    rw [slice_isSome _ _ _ (by omega) (by omega) (by omega)]
    have e1 : ((c.length : Int) + 1).toNat = (c ++ [0x28]).length := by simp
    obtain ⟨k, hk⟩ : ∃ k : Nat, (index (c ++ 0x28 :: 0x2A :: t) 0x29).toNat =
        (c ++ [0x28]).length + (k + 1) := by
      refine ⟨(index (c ++ 0x28 :: 0x2A :: t) 0x29).toNat - (c.length + 2), ?_⟩
      simp only [List.length_append, List.length_singleton]
      omega
    have e3 : c ++ 0x28 :: 0x2A :: t = (c ++ [0x28]) ++ 0x2A :: t := by simp
    rw [e1, hk, e3, List.take_append, List.drop_left' rfl, List.take_succ_cons, Option.map_some',
      scanValue_star]

/-! ## Payloads that cannot begin a number -/

theorem unsigned_mono (a b : Str) (h : a <+: b) (ha : unsigned a ≠ []) :
    unsigned a <+: unsigned b := by
  obtain ⟨t, rfl⟩ := h
  rcases a with _ | ⟨c, a1⟩
  · exact absurd rfl ha
  · simp only [List.cons_append, unsigned]
    split
    · exact List.prefix_append _ _
    · exact List.prefix_append _ _

theorem isWord_mono (w a b : Str) (h : a <+: b) (hw : isWord w a = true) : isWord w b = true := by
  induction w generalizing a b with
  | nil => rfl
  | cons l w ih =>
    rcases a with _ | ⟨c, a1⟩
    · simp [isWord] at hw
    · obtain ⟨t, rfl⟩ := h
      simp only [List.cons_append, isWord, Bool.and_eq_true] at hw ⊢
      exact ⟨hw.1, ih a1 _ (List.prefix_append _ _) hw.2⟩

theorem isWord_ne_nil (w s : Str) (hw : w ≠ []) (h : isWord w s = true) : s ≠ [] := by
  rintro rfl
  rcases w with _ | ⟨l, w⟩
  · exact hw rfl
  · simp [isWord] at h

/-- A text that extends one that begins like a number begins like a number. -/
theorem numberStart_mono (a b : Str) (h : a <+: b) (ha : numberStart a = true) :
    numberStart b = true := by
  unfold numberStart at ha ⊢
  simp only [Bool.or_eq_true] at ha ⊢
  rcases ha with (ha | ha) | ha
  · have hne : unsigned a ≠ [] := by
      intro h0
      rw [h0] at ha
      simp at ha
    obtain ⟨t, ht⟩ := unsigned_mono a b h hne
    left; left
    rcases hu : unsigned a with _ | ⟨c, u⟩
    · exact absurd hu hne
    · rw [hu] at ha ht
      rw [← ht, List.cons_append]
      simp only [Bool.or_eq_true, Bool.and_eq_true, decide_eq_true_eq] at ha ⊢
      rcases ha with ha | ⟨hc, hd⟩
      · exact Or.inl ha
      · right
        refine ⟨hc, ?_⟩
        rcases u with _ | ⟨d, u1⟩
        · simp at hd
        · exact hd
  · have hne : unsigned a ≠ [] := isWord_ne_nil _ _ (by decide) ha
    left; right
    exact isWord_mono _ _ _ (unsigned_mono a b h hne) ha
  · right
    exact isWord_mono _ _ _ h ha

theorem commonPrefixLen_word (k : Nat) :
    ∀ (s w : Str), k ≤ commonPrefixLenIgnoreCase s w → isWord (w.take k) s = true := by
  induction k with
  | zero => intro s w _; rfl
  | succ k ih =>
    intro s w h
    rcases s with _ | ⟨c, s⟩
    · simp [commonPrefixLenIgnoreCase] at h
    · rcases w with _ | ⟨l, w⟩
      · simp [commonPrefixLenIgnoreCase] at h
      · unfold commonPrefixLenIgnoreCase at h
        simp only at h
        by_cases hc : (if 0x41 ≤ c ∧ c ≤ 0x5A then c + 0x20 else c) ≠ l
        · rw [if_pos hc] at h
          omega
        · rw [if_neg hc] at h
          simp only [List.take_succ_cons, isWord, Bool.and_eq_true, decide_eq_true_eq]
          refine ⟨?_, ih s w (by omega)⟩
          simp only [ne_eq, not_not] at hc
          split_ifs at hc
          · exact Or.inr hc
          · exact Or.inl hc

theorem specialInf_word (neg : Bool) (k : Nat) (s : Str) (x : F64 × Nat)
    (h : specialInf neg k s = some x) : isWord (ascii "inf") s = true := by
  unfold specialInf at h
  simp only at h
  have e : ascii "inf" = (ascii "infinity").take 3 := by decide
  rw [e]
  apply commonPrefixLen_word
  by_contra hlt
  have h3 : ¬ (3 < commonPrefixLenIgnoreCase s (ascii "infinity") ∧
      commonPrefixLenIgnoreCase s (ascii "infinity") < 8) := by omega
  rw [if_neg h3, if_neg (by omega)] at h
  exact absurd h (by simp)

/-- A text that `special` of `strconv` accepts begins with `inf` (after an
optional sign) or with `nan`. -/
theorem special_start (s : Str) (x : F64 × Nat) (h : special s = some x) :
    numberStart s = true := by
  unfold numberStart
  simp only [Bool.or_eq_true]
  rcases s with _ | ⟨c, t⟩
  · simp [special] at h
  · unfold special at h
    simp only at h
    by_cases h1 : c = 0x2B ∨ c = 0x2D
    · rw [if_pos h1] at h
      left; right
      have : unsigned (c :: t) = t := by simp [unsigned, h1]
      rw [this]
      exact specialInf_word _ _ _ _ h
    · rw [if_neg h1] at h
      have hu : unsigned (c :: t) = c :: t := by simp [unsigned, h1]
      by_cases h2 : c = 0x69 ∨ c = 0x49
      · rw [if_pos h2] at h
        left; right
        rw [hu]
        exact specialInf_word _ _ _ _ h
      · rw [if_neg h2] at h
        by_cases h3 : c = 0x6E ∨ c = 0x4E
        · rw [if_pos h3] at h
          right
          by_cases h4 : commonPrefixLenIgnoreCase (c :: t) (ascii "nan") = 3
          · have e : ascii "nan" = (ascii "nan").take 3 := by decide
            rw [e]
            exact commonPrefixLen_word 3 _ _ (by omega)
          · rw [if_neg h4] at h
            exact absurd h (by simp)
        · rw [if_neg h3] at h
          exact absurd h (by simp)

theorem mantLoop_flag (hex : Bool) (s : Str) :
    ∀ st : Mant, st.underscores = true → (mantLoop hex st s).1.underscores = true := by
  induction s with
  | nil => intro st h; exact h
  | cons c t ih =>
    intro st h
    unfold mantLoop
    split
    · exact ih _ rfl
    · split
      · split
        · exact h
        · exact ih _ h
      · split
        · exact ih _ h
        · exact h

theorem mantLoop_length (hex : Bool) (s : Str) :
    ∀ st : Mant, (mantLoop hex st s).2.length ≤ s.length := by
  induction s with
  | nil => intro st; exact le_refl _
  | cons c t ih =>
    intro st
    unfold mantLoop
    split
    · exact le_trans (ih _) (by simp)
    · split
      · split
        · exact le_refl _
        · exact le_trans (ih _) (by simp)
      · split
        · exact le_trans (ih _) (by simp)
        · exact le_refl _

theorem expLoop_flag (s : Str) : ∀ e : Nat, (expLoop e true s).2.1 = true := by
  induction s with
  | nil => intro e; rfl
  | cons c t ih =>
    intro e
    unfold expLoop
    split
    · exact ih _
    · split
      · exact ih _
      · rfl

theorem expLoop_length (s : Str) : ∀ (e : Nat) (u : Bool), (expLoop e u s).2.2.length ≤ s.length := by
  induction s with
  | nil => intro e u; exact le_refl _
  | cons c t ih =>
    intro e u
    unfold expLoop
    split
    · exact le_trans (ih _ _) (by simp)
    · split
      · exact le_trans (ih _ _) (by simp)
      · exact le_refl _

/-- What every successful exit of `readFloat` has passed: digits were seen, and
with an underscore among the mantissa bytes the test `underscoreOK` was passed
on a prefix that reaches at least to the end of the mantissa. -/
theorem readFloat_exit (c : Nat) (t : Str) (r : ReadFloat) (h : readFloat (c :: t) = some r) :
    (mantLoop (hexPrefix (unsigned (c :: t))) ⟨false, false, false, 0, 0⟩
        (if hexPrefix (unsigned (c :: t)) then (unsigned (c :: t)).drop 2
          else unsigned (c :: t))).1.sawdigits = true ∧
    ((mantLoop (hexPrefix (unsigned (c :: t))) ⟨false, false, false, 0, 0⟩
        (if hexPrefix (unsigned (c :: t)) then (unsigned (c :: t)).drop 2
          else unsigned (c :: t))).1.underscores = true →
      ∃ n, (c :: t).length - (mantLoop (hexPrefix (unsigned (c :: t))) ⟨false, false, false, 0, 0⟩
        (if hexPrefix (unsigned (c :: t)) then (unsigned (c :: t)).drop 2
          else unsigned (c :: t))).2.length ≤ n ∧ underscoreOK ((c :: t).take n) = true) := by
  have hu : unsigned (c :: t) = (if c = 0x2B ∨ c = 0x2D then t else c :: t) := rfl
  rw [hu]
  unfold readFloat at h
  simp only at h
  generalize (if c = 0x2B ∨ c = 0x2D then t else c :: t) = s1 at h ⊢
  generalize hexPrefix s1 = hex at h ⊢
  generalize (if hex = true then List.drop 2 s1 else s1) = s2 at h ⊢
  generalize hm : mantLoop hex ⟨false, false, false, 0, 0⟩ s2 = m at h ⊢
  obtain ⟨st, s3⟩ := m
  simp only at h ⊢
  by_cases hsd : st.sawdigits = true
  · refine ⟨hsd, fun hus => ?_⟩
    simp only [hsd, not_true_eq_false, if_false, hus, true_and] at h
    rcases s3 with _ | ⟨c3, t3⟩
    · simp only at h
      refine ⟨(c :: t).length, by simp, ?_⟩
      rw [List.take_length]
      cases hex
      · simp only [Bool.false_eq_true, if_false] at h
        by_cases h2 : underscoreOK (c :: t) = true
        · exact h2
        · rw [if_pos h2] at h
          exact absurd h (by simp)
      · simp only [if_true] at h
        exact absurd h (by simp)
    · simp only at h
      by_cases he : lower c3 = (if hex = true then 0x70 else 0x65)
      · rw [if_pos he] at h
        rcases t3 with _ | ⟨c4, t4⟩
        · exact absurd h (by simp)
        · simp only at h
          generalize hs5 : (if c4 = 0x2B ∨ c4 = 0x2D then t4 else c4 :: t4) = s5 at h
          have hl5 : s5.length ≤ (c4 :: t4).length := by
            rw [← hs5]
            split
            · simp
            · exact le_refl _
          rcases s5 with _ | ⟨c5, t5⟩
          · exact absurd h (by simp)
          · simp only at h
            have hf := expLoop_flag (c5 :: t5) 0
            have hl := expLoop_length (c5 :: t5) 0 true
            by_cases hd5 : isDigit c5 = true
            · rw [if_neg (by simpa using hd5)] at h
              by_cases h2 : underscoreOK (List.take ((c :: t).length -
                  List.length (expLoop 0 true (c5 :: t5)).2.2) (c :: t)) = true
              · refine ⟨_, ?_, h2⟩
                simp only [List.length_cons] at hl hl5 ⊢
                omega
              · rw [if_pos ⟨hf, h2⟩] at h
                exact absurd h (by simp)
            · rw [if_pos (by simpa using hd5)] at h
              exact absurd h (by simp)
      · rw [if_neg he] at h
        cases hex
        · simp only [Bool.false_eq_true, if_false] at h
          by_cases h2 : underscoreOK (List.take ((c :: t).length - (c3 :: t3).length) (c :: t)) = true
          · exact ⟨_, le_refl _, h2⟩
          · rw [if_pos h2] at h
            exact absurd h (by simp)
        · simp only [if_true] at h
          exact absurd h (by simp)
  · simp only [hsd, Bool.false_eq_true, not_false_eq_true, if_true] at h
    exact absurd h (by simp)

theorem underscoreLoop_under (hex : Bool) (saw : Nat) (t : Str) (h : saw ≠ 0x30) :
    underscoreLoop hex saw (0x5F :: t) = false := by
  unfold underscoreLoop
  have h1 : ¬ (isDigit 0x5F = true ∨ (hex = true ∧ 0x61 ≤ lower 0x5F ∧ lower 0x5F ≤ 0x66)) := by
    have : lower 0x5F = 0x7F := by decide
    rw [this]
    simp [isDigit]
  rw [if_neg h1, if_pos rfl, if_pos h]

/-- A text that starts, after an optional sign, with an underscore does not pass
`underscoreOK`. -/
theorem underscoreOK_under (t : Str) : underscoreOK (0x5F :: t) = false := by
  unfold underscoreOK
  simp only [show ¬ ((0x5F : Nat) = 0x2D ∨ (0x5F : Nat) = 0x2B) by decide, if_false]
  rcases t with _ | ⟨c1, t1⟩
  · exact underscoreLoop_under false _ _ (by decide)
  · simp only [show ¬ ((0x5F : Nat) = 0x30) by decide, false_and, if_false]
    exact underscoreLoop_under false _ _ (by decide)

theorem underscoreOK_sign_under (c : Nat) (t : Str) (hc : c = 0x2B ∨ c = 0x2D) :
    underscoreOK (c :: 0x5F :: t) = false := by
  unfold underscoreOK
  have hc' : c = 0x2D ∨ c = 0x2B := hc.symm
  simp only [hc', if_true]
  rcases t with _ | ⟨c1, t1⟩
  · exact underscoreLoop_under false _ _ (by decide)
  · simp only [show ¬ ((0x5F : Nat) = 0x30) by decide, false_and, if_false]
    exact underscoreLoop_under false _ _ (by decide)

theorem underscoreLoop_point_under (t : Str) :
    underscoreLoop false 0x5E (0x2E :: 0x5F :: t) = false := by
  unfold underscoreLoop
  have h1 : ¬ (isDigit 0x2E = true ∨ (false = true ∧ 0x61 ≤ lower 0x2E ∧ lower 0x2E ≤ 0x66)) := by
    simp [isDigit]
  rw [if_neg h1, if_neg (by decide), if_neg (by decide)]
  exact underscoreLoop_under false _ _ (by decide)

theorem underscoreOK_point_under (t : Str) : underscoreOK (0x2E :: 0x5F :: t) = false := by
  unfold underscoreOK
  simp only [show ¬ ((0x2E : Nat) = 0x2D ∨ (0x2E : Nat) = 0x2B) by decide, if_false,
    show ¬ ((0x2E : Nat) = 0x30) by decide, false_and]
  exact underscoreLoop_point_under t

theorem underscoreOK_sign_point_under (c : Nat) (t : Str) (hc : c = 0x2B ∨ c = 0x2D) :
    underscoreOK (c :: 0x2E :: 0x5F :: t) = false := by
  unfold underscoreOK
  have hc' : c = 0x2D ∨ c = 0x2B := hc.symm
  simp only [hc', if_true, show ¬ ((0x2E : Nat) = 0x30) by decide, false_and, if_false]
  exact underscoreLoop_point_under t

/-- A text that `readFloat` of `strconv` accepts has, after its optional sign, a
digit or a point followed by a digit at its head. -/
theorem readFloat_head (s : Str) (r : ReadFloat) (h : readFloat s = some r) :
    (match unsigned s with
      | c :: t => isDigit c || (c = 0x2E && (match t with | d :: _ => isDigit d | [] => false))
      | [] => false) = true := by
  rcases s with _ | ⟨c, t⟩
  · simp [readFloat] at h
  · obtain ⟨h1, h2⟩ := readFloat_exit c t r h
    by_cases hx : hexPrefix (unsigned (c :: t)) = true
    · rcases hs1 : unsigned (c :: t) with _ | ⟨c0, _ | ⟨c1, _ | ⟨c2, s3⟩⟩⟩
      · rw [hs1] at hx; simp [hexPrefix] at hx
      · rw [hs1] at hx; simp [hexPrefix] at hx
      · rw [hs1] at hx; simp [hexPrefix] at hx
      · rw [hs1] at hx
        simp only [hexPrefix, decide_eq_true_eq] at hx
        have h0 : isDigit 0x30 = true := by decide
        simp only [hx.1, h0, Bool.true_or]
    · have hx' : hexPrefix (unsigned (c :: t)) = false := by simpa using hx
      rw [hx'] at h1 h2
      simp only [Bool.false_eq_true, if_false] at h1 h2
      obtain ⟨pre, hpre, hsplit⟩ : ∃ pre : Str, (pre = [] ∨ ∃ x, pre = [x] ∧ (x = 0x2B ∨ x = 0x2D)) ∧
          c :: t = pre ++ unsigned (c :: t) := by
        by_cases hsg : c = 0x2B ∨ c = 0x2D
        · exact ⟨[c], Or.inr ⟨c, rfl, hsg⟩, by simp [unsigned, hsg]⟩
        · exact ⟨[], Or.inl rfl, by simp [unsigned, hsg]⟩
      generalize unsigned (c :: t) = s1 at h1 h2 hsplit ⊢
      rcases s1 with _ | ⟨c0, s2⟩
      · simp [mantLoop] at h1
      · by_cases hd : isDigit c0 = true
        · simp [hd]
        · have hdo : digitOf false c0 = none := by
            unfold digitOf
            rw [if_neg hd]
            simp
          by_cases hus : c0 = 0x5F
          · exfalso
            subst hus
            have hm : mantLoop false ⟨false, false, false, 0, 0⟩ (0x5F :: s2) =
                mantLoop false ⟨false, false, true, 0, 0⟩ s2 := by
              rw [mantLoop]
              simp
            rw [hm] at h2
            obtain ⟨n, hn, hok⟩ := h2 (mantLoop_flag false s2 _ rfl)
            have hlen := mantLoop_length false s2 ⟨false, false, true, 0, 0⟩
            rw [hsplit] at hn hok
            rcases hpre with rfl | ⟨x, rfl, hxs⟩
            · simp only [List.nil_append, List.length_cons] at hn hok
              obtain ⟨k, rfl⟩ : ∃ k, n = k + 1 := ⟨n - 1, by omega⟩
              rw [List.take_succ_cons, underscoreOK_under] at hok
              exact absurd hok (by simp)
            · simp only [List.singleton_append, List.length_cons] at hn hok
              obtain ⟨k, rfl⟩ : ∃ k, n = k + 2 := ⟨n - 2, by omega⟩
              rw [List.take_succ_cons, List.take_succ_cons, underscoreOK_sign_under x _ hxs] at hok
              exact absurd hok (by simp)
          · by_cases hdot : c0 = 0x2E
            · subst hdot
              have hm : mantLoop false ⟨false, false, false, 0, 0⟩ (0x2E :: s2) =
                  mantLoop false ⟨true, false, false, 0, 0⟩ s2 := by
                rw [mantLoop]
                simp
              rw [hm] at h1 h2
              rcases s2 with _ | ⟨d, s3⟩
              · simp [mantLoop] at h1
              · by_cases hdd : isDigit d = true
                · simp [hdd]
                · exfalso
                  have hdo2 : digitOf false d = none := by
                    unfold digitOf
                    rw [if_neg hdd]
                    simp
                  by_cases hus2 : d = 0x5F
                  · subst hus2
                    have hm2 : mantLoop false ⟨true, false, false, 0, 0⟩ (0x5F :: s3) =
                        mantLoop false ⟨true, false, true, 0, 0⟩ s3 := by
                      rw [mantLoop]
                      simp
                    rw [hm2] at h2
                    obtain ⟨n, hn, hok⟩ := h2 (mantLoop_flag false s3 _ rfl)
                    have hlen := mantLoop_length false s3 ⟨true, false, true, 0, 0⟩
                    rw [hsplit] at hn hok
                    rcases hpre with rfl | ⟨x, rfl, hxs⟩
                    · simp only [List.nil_append, List.length_cons] at hn hok
                      obtain ⟨k, rfl⟩ : ∃ k, n = k + 2 := ⟨n - 2, by omega⟩
                      rw [List.take_succ_cons, List.take_succ_cons, underscoreOK_point_under] at hok
                      exact absurd hok (by simp)
                    · simp only [List.singleton_append, List.length_cons] at hn hok
                      obtain ⟨k, rfl⟩ : ∃ k, n = k + 3 := ⟨n - 3, by omega⟩
                      rw [List.take_succ_cons, List.take_succ_cons, List.take_succ_cons,
                        underscoreOK_sign_point_under x _ hxs] at hok
                      exact absurd hok (by simp)
                  · have hm2 : mantLoop false ⟨true, false, false, 0, 0⟩ (d :: s3) =
                        (⟨true, false, false, 0, 0⟩, d :: s3) := by
                      rw [mantLoop]
                      rw [if_neg hus2]
                      by_cases hdd2 : d = 0x2E
                      · rw [if_pos hdd2]
                        simp
                      · rw [if_neg hdd2, hdo2]
                    rw [hm2] at h1
                    simp at h1
            · exfalso
              have hm : mantLoop false ⟨false, false, false, 0, 0⟩ (c0 :: s2) =
                  (⟨false, false, false, 0, 0⟩, c0 :: s2) := by
                rw [mantLoop]
                rw [if_neg hus, if_neg hdot, hdo]
              rw [hm] at h1
              simp at h1

theorem readFloat_start (s : Str) (r : ReadFloat) (h : readFloat s = some r) :
    numberStart s = true := by
  unfold numberStart
  rw [readFloat_head s r h]
  rfl

/-- A text that `strconv.ParseFloat` accepts begins the way a number begins. -/
theorem parseFloat_start (s : Str) (v : F64) (h : parseFloat s = some v) :
    numberStart s = true := by
  unfold parseFloat at h
  cases hs : special s with
  | some x => exact special_start s x hs
  | none =>
    rw [hs] at h
    simp only at h
    cases hr : readFloat s with
    | none => rw [hr] at h; exact absurd h (by simp)
    | some r => exact readFloat_start s r hr

/-- A token that `convertFloat` of `fmt` converts begins the way a number
begins. -/
theorem convertFloat_start (tok : Str) (v : F64) (h : convertFloat tok = some v) :
    numberStart tok = true := by
  unfold convertFloat at h
  split at h
  · simp only at h
    cases hp : parseFloat (tok.take (tok.indexOf 0x70)) with
    | none => rw [hp] at h; exact absurd h (by simp)
    | some f =>
      exact numberStart_mono _ _ (List.take_prefix _ _) (parseFloat_start _ f hp)
  · exact parseFloat_start tok v h

theorem blank_iff (b : Nat) : blank b = true ↔ (9 ≤ b ∧ b ≤ 13) ∨ b = 0x20 := by
  simp [blank]

theorem isSpace_of_not_blank (b : Nat) (h : b < 0x80) (hb : blank b = false) :
    isSpace b = false := by
  have hb' : ¬ ((9 ≤ b ∧ b ≤ 13) ∨ b = 0x20) := by
    rw [← blank_iff, hb]
    simp
  simp only [isSpace]
  rw [if_pos (by omega)]
  simp only [decide_eq_false_iff_not]
  omega

/-- The space skipped before the verb on a payload whose leading ASCII white space is
followed by nothing or by an ASCII byte: the scan fails on a line feed, or the
leading white space is what is skipped. -/
theorem skipSpaceAux_blank (p : Str) :
    ∀ n : Nat, p.length ≤ n → (∀ b ∈ (p.dropWhile blank).head?, b < 0x80) →
      skipSpaceAux n p = none ∨ skipSpaceAux n p = some (p.dropWhile blank) := by
  induction p with
  | nil =>
    intro n _ _
    right
    cases n <;> rfl
  | cons b t ih =>
    intro n hn hh
    obtain ⟨n1, rfl⟩ : ∃ n1, n = n1 + 1 := ⟨n - 1, by simp at hn; omega⟩
    by_cases hb : blank b = true
    · have hlt : b < 0x80 := by
        rw [blank_iff] at hb
        omega
      have hdw : (b :: t).dropWhile blank = t.dropWhile blank := by
        rw [List.dropWhile_cons, if_pos hb]
      rw [hdw] at hh ⊢
      have hrec := ih n1 (by simp at hn; omega) hh
      unfold skipSpaceAux
      simp only [decodeRune_ascii b t hlt, List.drop_succ_cons, List.drop_zero]
      by_cases c1 : b = 0x0D ∧ t.head? = some 0x0A
      · rw [if_pos c1]
        exact hrec
      · rw [if_neg c1]
        by_cases c2 : b = 0x0A
        · rw [if_pos c2]
          exact Or.inl rfl
        · rw [if_neg c2]
          by_cases c3 : isSpace b = true
          · rw [if_pos c3]
            exact hrec
          · exfalso
            apply c3
            rw [blank_iff] at hb
            simp only [isSpace]
            rw [if_pos (by omega)]
            simp only [decide_eq_true_eq]
            omega
    · have hb' : blank b = false := by simpa using hb
      have hdw : (b :: t).dropWhile blank = b :: t := by
        rw [List.dropWhile_cons, if_neg hb]
      rw [hdw] at hh ⊢
      have hlt : b < 0x80 := hh b (by simp)
      have hs := isSpace_of_not_blank b hlt hb'
      have h13 : b ≠ 0x0D := by rintro rfl; simp [blank] at hb'
      have h10 : b ≠ 0x0A := by rintro rfl; simp [blank] at hb'
      right
      unfold skipSpaceAux
      simp only [decodeRune_ascii b t hlt, h13, h10, hs, false_and, if_false,
        Bool.false_eq_true]

/-- A payload that cannot begin with a number has the value 0. -/
theorem scanValue_of_no_start (p : Str) (h : mayStartNumber p = false) :
    scanValue p = F64.num 0 := by
  unfold mayStartNumber at h
  have hh : ∀ b ∈ (p.dropWhile blank).head?, b < 0x80 := by
    intro b hb
    rcases hd : p.dropWhile blank with _ | ⟨x, t⟩
    · rw [hd] at hb
      simp at hb
    · rw [hd] at hb h
      simp only [List.head?_cons, Option.mem_def, Option.some.injEq] at hb
      subst hb
      simp only [Bool.or_eq_false_iff, decide_eq_false_iff_not, not_le] at h
      exact h.1
  unfold scanValue sscanFloat skipSpace
  rcases skipSpaceAux_blank p p.length (le_refl _) hh with hs | hs
  · rw [hs]
    rfl
  · rw [hs]
    simp only
    rcases hd : p.dropWhile blank with _ | ⟨x, t⟩
    · simp
    · rw [hd] at h
      simp only [Bool.or_eq_false_iff] at h
      rw [if_neg (by simp)]
      cases hc : convertFloat (floatToken (x :: t)) with
      | none => rfl
      | some v =>
        have := numberStart_mono _ _ (floatToken_initial (x :: t)) (convertFloat_start _ v hc)
        rw [h.2] at this
        exact absurd this (by simp)

/-- C7, as amended. In a line `c ++ "(" ++ p ++ e ++ t` whose payload `p` is
closed by the unit separator `*` or, when no `*` follows, by `)`, and with no
delimiter before the opening one, `extractValue` returns 0 whenever `p`, after
its leading ASCII white space, is empty or begins with ASCII text with which no
number begins: not a digit and not a point followed by a digit (after an
optional sign), not the word `inf` (after an optional sign) and not the word
`nan`.  A payload that begins with a number and is not a well-formed number as
a whole can have a value other than 0: `extractValue("(1.0.0)")` is 1. -/
theorem extractValue_not_number (c p t : Str) (e : Nat) (hc1 : 0x28 ∉ c) (hc2 : 0x2A ∉ c)
    (hc3 : 0x29 ∉ c) (hp1 : 0x2A ∉ p) (hp2 : 0x29 ∉ p)
    (he : e = 0x2A ∨ (e = 0x29 ∧ 0x2A ∉ t)) (h : mayStartNumber p = false) :
    extractValue (c ++ 0x28 :: (p ++ e :: t)) = some (F64.num 0) ∧
      extractValue (ascii "(1.0.0)") = some (F64.num 1) := by
  refine ⟨?_, extractValue_one_dot⟩
  by_cases hne : p = []
  · subst hne
    rcases he with rfl | ⟨rfl, ht⟩
    · exact extractValue_empty_star c t hc1 hc2
    · have h1 : index (c ++ 0x28 :: ([] ++ 0x29 :: t)) 0x28 = (c.length : Int) :=
        index_append c _ 0x28 hc1
      have h2 : index (c ++ 0x28 :: ([] ++ 0x29 :: t)) 0x29 = (c.length : Int) + 1 := by
        have hm : 0x29 ∉ c ++ [0x28] := by
          simp only [List.mem_append, List.mem_singleton, not_or]
          exact ⟨hc3, by decide⟩
        have := index_append (c ++ [0x28]) t 0x29 hm
        simpa using this
      have h3 : index (c ++ 0x28 :: ([] ++ 0x29 :: t)) 0x2A = -1 := by
        apply index_of_not_mem
        simp only [List.nil_append, List.mem_append, List.mem_cons, not_or]
        exact ⟨hc2, by decide, by decide, ht⟩
      unfold extractValue
      simp only [h1, h2, h3]
      rw [if_pos (Or.inr (Or.inl (by decide))), if_pos (le_refl _)]
  · rcases he with rfl | ⟨rfl, ht⟩
    · rw [extractValue_star c p t hc1 hc2 hp1 hne, scanValue_of_no_start p h]
    · rw [extractValue_paren c p t hc1 hc3 hp2 hp1 ht hne, scanValue_of_no_start p h]

/-- Instances of C7 as amended: `extractValue("(abc)")` and
`extractValue("1-0:1.8.0( +.x*kWh)")` are 0. -/
theorem extractValue_not_number_witness :
    (0x28 ∉ ([] : Str) ∧ 0x2A ∉ ([] : Str) ∧ 0x29 ∉ ([] : Str) ∧ 0x2A ∉ ascii "abc" ∧
      0x29 ∉ ascii "abc" ∧ ((0x29 : Nat) = 0x2A ∨ ((0x29 : Nat) = 0x29 ∧ 0x2A ∉ ([] : Str))) ∧
      mayStartNumber (ascii "abc") = false) ∧
    (extractValue (ascii "(abc)") = some (F64.num 0) ∧
      extractValue (ascii "(1.0.0)") = some (F64.num 1)) ∧
    (mayStartNumber (ascii " +.x") = false ∧
      extractValue (ascii "1-0:1.8.0( +.x*kWh)") = some (F64.num 0)) :=
  ⟨by decide, extractValue_not_number [] (ascii "abc") [] 0x29 (by decide) (by decide)
    (by decide) (by decide) (by decide) (by decide) (by decide),
    by decide, (extractValue_not_number (ascii "1-0:1.8.0") (ascii " +.x") (ascii "kWh)") 0x2A
      (by decide) (by decide) (by decide) (by decide) (by decide) (by decide) (by decide)).1⟩

/-- C7 as stated fails at its own example: the payload `1.0.0` is not a
well-formed decimal number, yet `Sscanf` scans its prefix `1.0` and
`extractValue("(1.0.0)")` is 1, not 0. -/
theorem extractValue_one_dot_not_zero :
    extractValue (ascii "(1.0.0)") = some (F64.num 1) ∧
      extractValue (ascii "(1.0.0)") ≠ some (F64.num 0) := by
  refine ⟨extractValue_one_dot, ?_⟩
  rw [extractValue_one_dot]
  intro h
  exact absurd (F64.num.inj (Option.some.inj h)) (by norm_num)

/-! ## `parseTimestamp` -/

set_option maxRecDepth 100000 in
theorem daysSinceEpoch_years :
    ∀ yy : Fin 100, daysSinceEpoch (((2000 + yy.val : Nat) : Int)) =
      ((((List.range (2000 + yy.val - 1970)).map fun i => daysInYear (1970 + i)).sum : Nat) : Int) := by
  decide

theorem isLeap_cast (n : Nat) : isLeap (n : Int) = leapYear n := by
  simp only [isLeap, leapYear]
  congr 1
  apply propext
  omega

theorem daysBefore_months (y m : Nat) (h1 : 1 ≤ m) (h2 : m ≤ 12) :
    daysBefore ((m : Int) - 1) + (if isLeap (y : Int) ∧ (3 : Int) ≤ (m : Int) - 1 + 1 then 1 else 0) =
      ((((List.range (m - 1)).map fun i => daysInMonth y (i + 1)).sum : Nat) : Int) := by
  rw [isLeap_cast]
  interval_cases m <;> cases hl : leapYear y <;>
    simp [daysBefore, daysInMonth, hl, List.range_succ]

theorem atoi_digits (body : Str) (hne : body ≠ []) (hd : ∀ x ∈ body, isDigit x = true)
    (hlt : digitsVal body < 2 ^ 63) : atoi body = ((digitsVal body : Int), true) := by
  obtain ⟨c, t, rfl⟩ := List.exists_cons_of_ne_nil hne
  have hc := (isDigit_iff c).1 (hd c (by simp))
  have h1 : c ≠ 0x2B := by omega
  have h2 : c ≠ 0x2D := by omega
  have hall : (c :: t).all isDigit = true := by
    rw [List.all_eq_true]; exact hd
  unfold atoi
  simp only [h1, h2, or_self, if_false, decide_False, hall, if_true, Bool.false_eq_true,
    false_and, not_false_eq_true, true_and, not_le.2 hlt]
  simp

theorem digitsVal_two (a b : Nat) : digitsVal [a, b] = (a - 0x30) * 10 + (b - 0x30) := by
  simp [digitsVal]

theorem atoi_two (a b : Nat) (ha : isDigit a = true) (hb : isDigit b = true) :
    (atoi [a, b]).1 = (digitsVal [a, b] : Int) := by
  have h := (isDigit_iff a).1 ha
  have h' := (isDigit_iff b).1 hb
  rw [atoi_digits [a, b] (by simp) (by simp [ha, hb])
    (by rw [digitsVal_two]; omega)]

theorem atoi_year (a b : Nat) (ha : isDigit a = true) (hb : isDigit b = true) :
    (atoi (ascii "20" ++ [a, b])).1 = ((2000 + digitsVal [a, b] : Nat) : Int) := by
  have h := (isDigit_iff a).1 ha
  have h' := (isDigit_iff b).1 hb
  have e : ascii "20" ++ [a, b] = [0x32, 0x30, a, b] := rfl
  have e2 : digitsVal [0x32, 0x30, a, b] = 2000 + digitsVal [a, b] := by
    simp [digitsVal]; omega
  have hall : ∀ x ∈ [0x32, 0x30, a, b], isDigit x = true := by
    intro x hx
    simp only [List.mem_cons, List.mem_singleton, List.not_mem_nil, or_false] at hx
    rcases hx with rfl | rfl | rfl | rfl
    · decide
    · decide
    · exact ha
    · exact hb
  rw [e, atoi_digits [0x32, 0x30, a, b] (by simp) hall
    (by rw [e2, digitsVal_two]; omega), e2]

/-- The instant computed by `time.Date` for a valid date of the years 2000 to
2099 is the number of seconds counted by `unixSeconds`. -/
theorem dateUnix_valid (yy m d h mi s : Nat) (hy : yy < 100)
    (hv : validDateTime (2000 + yy) m d h mi s) :
    dateUnix ((2000 + yy : Nat) : Int) m d h mi s = unixSeconds (2000 + yy) m d h mi s := by
  obtain ⟨hm1, hm2, hd1, -, hh, hmi, hs⟩ := hv
  have e1 : ((m : Int) - 1) / 12 = 0 := by omega
  have e2 : ((m : Int) - 1) % 12 = (m : Int) - 1 := by omega
  have e3 : (s : Int) / 60 = 0 := by omega
  have e4 : (s : Int) % 60 = s := by omega
  have e5 : (mi : Int) / 60 = 0 := by omega
  have e6 : (mi : Int) % 60 = mi := by omega
  have e7 : (h : Int) / 24 = 0 := by omega
  have e8 : (h : Int) % 24 = h := by omega
  have hyears := daysSinceEpoch_years ⟨yy, hy⟩
  have hmonths := daysBefore_months (2000 + yy) m hm1 hm2
  simp only at hyears
  unfold dateUnix unixSeconds
  simp only [e1, e2, e3, e4, e5, e6, e7, e8, add_zero]
  have hd : (((d - 1 : Nat)) : Int) = (d : Int) - 1 := by omega
  rw [add_assoc (daysSinceEpoch _), hmonths, hyears]
  push_cast
  rw [hd]
  ring

theorem list_length_twelve (ts : Str) (h : ts.length = 12) :
    ∃ a0 a1 a2 a3 a4 a5 a6 a7 a8 a9 a10 a11 : Nat,
      ts = [a0, a1, a2, a3, a4, a5, a6, a7, a8, a9, a10, a11] := by
  rcases ts with _ | ⟨a0, _ | ⟨a1, _ | ⟨a2, _ | ⟨a3, _ | ⟨a4, _ | ⟨a5, _ | ⟨a6, _ | ⟨a7,
    _ | ⟨a8, _ | ⟨a9, _ | ⟨a10, _ | ⟨a11, _ | ⟨a12, t⟩⟩⟩⟩⟩⟩⟩⟩⟩⟩⟩⟩⟩ <;>
    simp at h
  exact ⟨a0, a1, a2, a3, a4, a5, a6, a7, a8, a9, a10, a11, rfl⟩

/-- C10. For a string of 12 ASCII digits `YYMMDDhhmmss` that denotes a valid
calendar date and time of day, `parseTimestamp` returns the number of seconds
from 1970-01-01T00:00:00Z to `(2000+YY)-MM-DD hh:mm:ss` taken as UTC. -/
theorem parseTimestamp_valid (ts : Str) (hlen : ts.length = 12)
    (hd : ∀ x ∈ ts, isDigit x = true)
    (hv : validDateTime (2000 + field ts 0) (field ts 2) (field ts 4) (field ts 6)
      (field ts 8) (field ts 10)) :
    parseTimestamp ts =
      some (unixSeconds (2000 + field ts 0) (field ts 2) (field ts 4) (field ts 6)
        (field ts 8) (field ts 10)) := by
  obtain ⟨a0, a1, a2, a3, a4, a5, a6, a7, a8, a9, a10, a11, rfl⟩ := list_length_twelve ts hlen
  have d0 := hd a0 (by simp)
  have d1 := hd a1 (by simp)
  have d2 := hd a2 (by simp)
  have d3 := hd a3 (by simp)
  have d4 := hd a4 (by simp)
  have d5 := hd a5 (by simp)
  have d6 := hd a6 (by simp)
  have d7 := hd a7 (by simp)
  have d8 := hd a8 (by simp)
  have d9 := hd a9 (by simp)
  have d10 := hd a10 (by simp)
  have d11 := hd a11 (by simp)
  have f0 : field [a0, a1, a2, a3, a4, a5, a6, a7, a8, a9, a10, a11] 0 = digitsVal [a0, a1] := rfl
  have f2 : field [a0, a1, a2, a3, a4, a5, a6, a7, a8, a9, a10, a11] 2 = digitsVal [a2, a3] := rfl
  have f4 : field [a0, a1, a2, a3, a4, a5, a6, a7, a8, a9, a10, a11] 4 = digitsVal [a4, a5] := rfl
  have f6 : field [a0, a1, a2, a3, a4, a5, a6, a7, a8, a9, a10, a11] 6 = digitsVal [a6, a7] := rfl
  have f8 : field [a0, a1, a2, a3, a4, a5, a6, a7, a8, a9, a10, a11] 8 = digitsVal [a8, a9] := rfl
  have f10 : field [a0, a1, a2, a3, a4, a5, a6, a7, a8, a9, a10, a11] 10 =
      digitsVal [a10, a11] := rfl
  rw [f0, f2, f4, f6, f8, f10] at hv ⊢
  have hy : digitsVal [a0, a1] < 100 := by
    have h := (isDigit_iff a0).1 d0
    have h' := (isDigit_iff a1).1 d1
    rw [digitsVal_two]; omega
  have s0 : slice [a0, a1, a2, a3, a4, a5, a6, a7, a8, a9, a10, a11] 0 2 = some [a0, a1] := rfl
  have s2 : slice [a0, a1, a2, a3, a4, a5, a6, a7, a8, a9, a10, a11] 2 4 = some [a2, a3] := rfl
  have s4 : slice [a0, a1, a2, a3, a4, a5, a6, a7, a8, a9, a10, a11] 4 6 = some [a4, a5] := rfl
  have s6 : slice [a0, a1, a2, a3, a4, a5, a6, a7, a8, a9, a10, a11] 6 8 = some [a6, a7] := rfl
  have s8 : slice [a0, a1, a2, a3, a4, a5, a6, a7, a8, a9, a10, a11] 8 10 = some [a8, a9] := rfl
  have s10 : slice [a0, a1, a2, a3, a4, a5, a6, a7, a8, a9, a10, a11] 10 12 =
      some [a10, a11] := rfl
  unfold parseTimestamp
  rw [if_neg (by simp), s0, s2, s4, s6, s8, s10]
  simp only [Option.some_bind, atoi_year a0 a1 d0 d1, atoi_two a2 a3 d2 d3, atoi_two a4 a5 d4 d5,
    atoi_two a6 a7 d6 d7, atoi_two a8 a9 d8 d9, atoi_two a10 a11 d10 d11]
  rw [dateUnix_valid _ _ _ _ _ _ hy hv]

/-- The instance of C10 named by the specification:
`parseTimestamp("230615143000") = 1686839400`, that is 2023-06-15T14:30:00Z. -/
theorem parseTimestamp_valid_witness :
    ((ascii "230615143000").length = 12 ∧ (∀ x ∈ ascii "230615143000", isDigit x = true) ∧
      validDateTime 2023 6 15 14 30 0) ∧
    parseTimestamp (ascii "230615143000") = some (unixSeconds 2023 6 15 14 30 0) ∧
    unixSeconds 2023 6 15 14 30 0 = 1686839400 :=
  ⟨⟨by decide, by decide, by decide⟩,
    parseTimestamp_valid (ascii "230615143000") (by decide) (by decide) (by decide),
    by decide⟩

/-! ## The dispatcher -/

theorem setGauge_eq (g : GaugeVec) (lvs : List String) (v : F64) (r : Registry)
    (h : lvs.length = g.labelNames.length) :
    setGauge g lvs v r = some (r.set ⟨g.name, lvs⟩ v) := by
  simp [setGauge, GaugeVec.withLabelValues, h]

theorem setNumeric_eq (g : GaugeVec) (lvs : List String) (line : Str) (r : Registry)
    (h : lvs.length = g.labelNames.length) :
    setNumeric g lvs line r =
      (entryValue Kind.numeric line).map fun v => r.set ⟨g.name, lvs⟩ v := by
  unfold setNumeric entryValue
  cases extractValue line with
  | none => rfl
  | some v => simp [setGauge_eq g lvs v r h]

theorem identity_eq (line : Str) (r : Registry) :
    ((extractValueText line).bind fun value =>
        setGauge meterID ["meter"] (F64.ofInt (hashString value)) r) =
      (entryValue Kind.identity line).map fun v => r.set ⟨"elcentral_meter_id", ["meter"]⟩ v := by
  unfold entryValue
  cases extractValueText line with
  | none => rfl
  | some t =>
    simp only [Option.some_bind, Option.map_some', setGauge_eq meterID ["meter"] _ r rfl]
    rfl

theorem timestamp_eq (line : Str) (r : Registry) :
    ((extractValueText line).bind fun value =>
        (parseTimestamp (trimSuffix value (ascii "W"))).bind fun unixTs =>
          setGauge timestamp ["meter"] (F64.ofInt unixTs) r) =
      (entryValue Kind.timestamp line).map fun v =>
        r.set ⟨"elcentral_timestamp", ["meter"]⟩ v := by
  unfold entryValue
  cases extractValueText line with
  | none => rfl
  | some t =>
    simp only [Option.some_bind]
    cases parseTimestamp (trimSuffix t (ascii "W")) with
    | none => rfl
    | some u =>
      simp only [Option.some_bind, Option.map_some', setGauge_eq timestamp ["meter"] _ r rfl]
      rfl

theorem chain_step (r : Registry) (line c : Str) (e : Entry) (l : List Entry)
    (A B : Option Registry) (hc : e.code = c)
    (hA : A = (entryValue e.kind line).map fun v => r.set e.series v)
    (hB : B = applyEntry r line (l.find? fun e => hasPrefix line e.code)) :
    (if hasPrefix line c = true then A else B) =
      applyEntry r line ((e :: l).find? fun e => hasPrefix line e.code) := by
  subst hc
  by_cases h : hasPrefix line e.code = true
  · rw [if_pos h, List.find?_cons, hA]
    simp only [h]
    rfl
  · rw [if_neg h, List.find?_cons, hB]
    simp only [Bool.eq_false_iff.2 h]

/-- The ordered case chain of the switch computes the table lookup. -/
theorem processLine_eq_dispatchTable (r : Registry) (line0 : Str) :
    processLine r line0 = dispatchTable r line0 := by
  unfold processLine dispatchTable lookupLine codeTable
  dsimp only
  by_cases h0 : trimSpace line0 = []
  · rw [if_pos h0, if_pos h0]
  · rw [if_neg h0, if_neg h0]
    generalize trimSpace line0 = line
    refine chain_step r line _ _ _ _ _ rfl ?_ ?_
    · exact identity_eq line r
    refine chain_step r line _ _ _ _ _ rfl ?_ ?_
    · exact timestamp_eq line r
    iterate 26 (refine chain_step r line _ _ _ _ _ rfl ?_ ?_; exact setNumeric_eq _ _ line r rfl)
    simp [applyEntry]

/-! ## What `strings.TrimSpace` removes -/

theorem isSpace_runeError : isSpace runeError = false := by decide

theorem spaceByte_of_isSpace (b : Nat) (h : b < 0x80) (hs : isSpace b = true) :
    spaceByte b = true := by
  simp only [isSpace] at hs
  rw [if_pos (by omega)] at hs
  simp only [decide_eq_true_eq] at hs
  simp only [spaceByte, decide_eq_true_eq]
  omega

theorem spaceByte_of_ge (b : Nat) (h : 0x80 ≤ b) : spaceByte b = true := by
  simp only [spaceByte, decide_eq_true_eq]
  omega

/-- A multi-byte rune is `RuneError` of width 1, or is made of bytes from 0x80 on. -/
theorem decodeRune_multi (s0 : Nat) (t : Str) (h0 : ¬ s0 < 0x80) :
    decodeRune (s0 :: t) = (runeError, 1) ∨
      (1 ≤ (decodeRune (s0 :: t)).2 ∧ (decodeRune (s0 :: t)).2 ≤ (s0 :: t).length ∧
        ∀ b ∈ (s0 :: t).take (decodeRune (s0 :: t)).2, 0x80 ≤ b) := by
  generalize hd : decodeRune (s0 :: t) = d
  unfold decodeRune at hd
  simp only [h0, if_false] at hd
  generalize (if s0 < 224 then 2 else if s0 < 240 then 3 else 4) = sz at hd
  generalize hlo' : (if s0 = 224 then 160 else if s0 = 240 then 144 else 128) = lo at hd
  generalize (if s0 = 237 then 159 else if s0 = 244 then 143 else 191) = hi at hd
  have hlo : 0x80 ≤ lo := by
    rw [← hlo']; split_ifs <;> omega
  by_cases hx : s0 < 0xC2 ∨ 0xF4 < s0
  · left; rw [if_pos hx] at hd; exact hd.symm
  · rw [if_neg hx] at hd
    by_cases hl : (s0 :: t).length < sz
    · left; rw [if_pos hl] at hd; exact hd.symm
    · rw [if_neg hl] at hd
      rcases t with _ | ⟨s1, t1⟩
      · left; exact hd.symm
      · simp only at hd
        by_cases h1 : s1 < lo ∨ hi < s1
        · left; rw [if_pos h1] at hd; exact hd.symm
        · rw [if_neg h1] at hd
          by_cases hz2 : sz ≤ 2
          · right
            rw [if_pos hz2] at hd
            subst hd
            refine ⟨by simp, by simp, ?_⟩
            intro b hb
            simp only [List.take_succ_cons, List.take_zero, List.mem_cons,
              List.not_mem_nil, or_false] at hb
            rcases hb with rfl | rfl <;> omega
          · rw [if_neg hz2] at hd
            rcases t1 with _ | ⟨s2, t2⟩
            · left; exact hd.symm
            · simp only at hd
              by_cases h2 : s2 < 0x80 ∨ 0xBF < s2
              · left; rw [if_pos h2] at hd; exact hd.symm
              · rw [if_neg h2] at hd
                by_cases hz3 : sz ≤ 3
                · right
                  rw [if_pos hz3] at hd
                  subst hd
                  refine ⟨by simp, by simp, ?_⟩
                  intro b hb
                  simp only [List.take_succ_cons, List.take_zero, List.mem_cons,
                    List.not_mem_nil, or_false] at hb
                  rcases hb with rfl | rfl | rfl <;> omega
                · rw [if_neg hz3] at hd
                  rcases t2 with _ | ⟨s3, t3⟩
                  · left; exact hd.symm
                  · simp only at hd
                    by_cases h3 : s3 < 0x80 ∨ 0xBF < s3
                    · left; rw [if_pos h3] at hd; exact hd.symm
                    · right
                      rw [if_neg h3] at hd
                      subst hd
                      refine ⟨by simp, by simp, ?_⟩
                      intro b hb
                      simp only [List.take_succ_cons, List.take_zero, List.mem_cons,
                        List.not_mem_nil, or_false] at hb
                      rcases hb with rfl | rfl | rfl | rfl <;> omega

/-- The width of a decoded rune is at least 1 on a non-empty string. -/
theorem decodeRune_width (s0 : Nat) (t : Str) : 1 ≤ (decodeRune (s0 :: t)).2 := by
  by_cases h0 : s0 < 0x80
  · rw [decodeRune_ascii s0 t h0]
  · rcases decodeRune_multi s0 t h0 with he | ⟨h1, -⟩
    · rw [he]
    · exact h1

/-- The bytes of a white-space rune at the head of a string. -/
theorem decodeRune_space (u : Str) (h : isSpace (decodeRune u).1 = true) :
    1 ≤ (decodeRune u).2 ∧ (decodeRune u).2 ≤ u.length ∧
      ∀ b ∈ u.take (decodeRune u).2, spaceByte b = true := by
  rcases u with _ | ⟨s0, t⟩
  · simp [decodeRune, isSpace_runeError] at h
  · refine ⟨decodeRune_width s0 t, ?_⟩
    by_cases h0 : s0 < 0x80
    · rw [decodeRune_ascii s0 t h0] at h ⊢
      refine ⟨by simp, ?_⟩
      intro b hb
      simp only [List.take_succ_cons, List.take_zero, List.mem_singleton] at hb
      subst hb
      exact spaceByte_of_isSpace b h0 h
    · rcases decodeRune_multi s0 t h0 with he | ⟨-, h1, h2⟩
      · rw [he, isSpace_runeError] at h
        exact absurd h Bool.false_ne_true
      · exact ⟨h1, fun b hb => spaceByte_of_ge b (h2 b hb)⟩

theorem trimLeftAux_spec (n : Nat) (s : Str) :
    ∃ a : Str, s = a ++ trimLeftAux n s ∧ ∀ b ∈ a, spaceByte b = true := by
  induction n generalizing s with
  | zero => exact ⟨[], rfl, by simp⟩
  | succ n ih =>
    rcases s with _ | ⟨c, t⟩
    · exact ⟨[], rfl, by simp⟩
    · unfold trimLeftAux
      dsimp only
      by_cases h : isSpace (decodeRune (c :: t)).1 = true
      · rw [if_pos h]
        obtain ⟨-, -, h3⟩ := decodeRune_space (c :: t) h
        obtain ⟨a, ha, hb⟩ := ih ((c :: t).drop (decodeRune (c :: t)).2)
        refine ⟨(c :: t).take (decodeRune (c :: t)).2 ++ a, ?_, ?_⟩
        · rw [List.append_assoc, ← ha, List.take_append_drop]
        · intro b hmem
          rcases List.mem_append.1 hmem with h' | h'
          · exact h3 b h'
          · exact hb b h'
      · rw [if_neg h]
        exact ⟨[], rfl, by simp⟩

theorem drop_length_pred (s : Str) (h : s ≠ []) :
    s.drop (s.length - 1) = [s.getD (s.length - 1) 0] := by
  induction s with
  | nil => exact absurd rfl h
  | cons c t ih =>
    rcases t with _ | ⟨c1, t1⟩
    · rfl
    · have := ih (by simp)
      simp only [List.length_cons, Nat.add_sub_cancel] at this ⊢
      rw [List.drop_succ_cons, this]
      simp [List.getD_cons_succ]

/-- The bytes of a white-space rune at the end of a string. -/
theorem decodeLastRune_space (s : Str) (h : isSpace (decodeLastRune s).1 = true) :
    1 ≤ (decodeLastRune s).2 ∧ (decodeLastRune s).2 ≤ s.length ∧
      ∀ b ∈ s.drop (s.length - (decodeLastRune s).2), spaceByte b = true := by
  generalize hd : decodeLastRune s = d at h ⊢
  unfold decodeLastRune at hd
  dsimp only at hd
  by_cases he : s.length = 0
  · rw [if_pos he] at hd
    subst hd
    rw [isSpace_runeError] at h
    exact absurd h Bool.false_ne_true
  · rw [if_neg he] at hd
    have hne : s ≠ [] := fun e => he (by rw [e]; rfl)
    by_cases hr : s.getD (s.length - 1) 0 < 0x80
    · rw [if_pos hr] at hd
      subst hd
      refine ⟨le_refl _, by omega, ?_⟩
      intro b hb
      rw [drop_length_pred s hne, List.mem_singleton] at hb
      subst hb
      exact spaceByte_of_isSpace _ hr h
    · rw [if_neg hr] at hd
      generalize (if lastRuneStart s (if (s.length : Int) - 4 < 0 then 0 else (s.length : Int) - 4)
        s.length ((s.length : Int) - 2) < 0 then 0
        else (lastRuneStart s (if (s.length : Int) - 4 < 0 then 0 else (s.length : Int) - 4)
          s.length ((s.length : Int) - 2)).toNat) = start at hd
      by_cases hst : start + (decodeRune (s.drop start)).2 ≠ s.length
      · rw [if_pos hst] at hd
        subst hd
        rw [isSpace_runeError] at h
        exact absurd h Bool.false_ne_true
      · rw [if_neg hst] at hd
        subst hd
        have hst' : start + (decodeRune (s.drop start)).2 = s.length := not_not.1 hst
        obtain ⟨h1, h2, h3⟩ := decodeRune_space (s.drop start) h
        refine ⟨h1, by omega, ?_⟩
        intro b hb
        have e1 : s.length - (decodeRune (s.drop start)).2 = start := by omega
        rw [e1] at hb
        apply h3 b
        have e2 : (s.drop start).length = (decodeRune (s.drop start)).2 := by
          rw [List.length_drop]; omega
        rw [← e2, List.take_length]
        exact hb

theorem trimRightAux_spec (n : Nat) (s : Str) :
    ∃ b : Str, s = trimRightAux n s ++ b ∧ ∀ x ∈ b, spaceByte x = true := by
  induction n generalizing s with
  | zero => exact ⟨[], by simp [trimRightAux], by simp⟩
  | succ n ih =>
    rcases s with _ | ⟨c, t⟩
    · exact ⟨[], rfl, by simp⟩
    · unfold trimRightAux
      dsimp only
      by_cases h : isSpace (decodeLastRune (c :: t)).1 = true
      · rw [if_pos h]
        obtain ⟨-, -, h3⟩ := decodeLastRune_space (c :: t) h
        obtain ⟨b, hb1, hb2⟩ :=
          ih ((c :: t).take ((c :: t).length - (decodeLastRune (c :: t)).2))
        refine ⟨b ++ (c :: t).drop ((c :: t).length - (decodeLastRune (c :: t)).2), ?_, ?_⟩
        · rw [← List.append_assoc, ← hb1, List.take_append_drop]
        · intro x hmem
          rcases List.mem_append.1 hmem with h' | h'
          · exact hb2 x h'
          · exact h3 x h'
      · rw [if_neg h]
        exact ⟨[], by simp, by simp⟩

/-- What `strings.TrimSpace` removes is a prefix and a suffix made of white-space bytes
only. -/
theorem trimSpace_spec (s : Str) :
    ∃ a b : Str, s = a ++ trimSpace s ++ b ∧ (∀ x ∈ a, spaceByte x = true) ∧
      ∀ x ∈ b, spaceByte x = true := by
  obtain ⟨a, ha1, ha2⟩ := trimLeftAux_spec s.length s
  obtain ⟨b, hb1, hb2⟩ := trimRightAux_spec (trimLeftAux s.length s).length
    (trimLeftAux s.length s)
  refine ⟨a, b, ?_, ha2, hb2⟩
  unfold trimSpace
  dsimp only
  rw [List.append_assoc, ← hb1, ← ha1]

theorem index_shift (a m b : Str) (c : Nat) (ha : c ∉ a) (hb : c ∉ b) :
    index (a ++ m ++ b) c = if c ∈ m then (a.length : Int) + index m c else -1 := by
  by_cases hm : c ∈ m
  · rw [if_pos hm, index_of_mem m c hm, index_of_mem _ c (by simp [hm]), List.append_assoc,
      List.indexOf_append_of_not_mem ha, List.indexOf_append_of_mem hm]
    push_cast
    rfl
  · rw [if_neg hm, index_of_not_mem _ c (by simp [ha, hm, hb])]

theorem slice_shift (a m b : Str) (lo hi : Int) (h1 : 0 ≤ lo) (h2 : lo ≤ hi)
    (h3 : hi ≤ (m.length : Int)) :
    slice (a ++ m ++ b) ((a.length : Int) + lo) ((a.length : Int) + hi) = slice m lo hi := by
  rw [slice_isSome m lo hi h1 h2 h3,
    slice_isSome _ _ _ (by omega) (by omega)
      (by simp only [List.length_append, Nat.cast_add]; omega)]
  congr 1
  obtain ⟨l, rfl⟩ : ∃ l : Nat, lo = l := ⟨lo.toNat, by omega⟩
  obtain ⟨k, rfl⟩ : ∃ k : Nat, hi = k := ⟨hi.toNat, by omega⟩
  have hk : k ≤ m.length := by exact_mod_cast h3
  have e1 : ((a.length : Int) + (k : Int)).toNat = a.length + k := by omega
  have e2 : ((a.length : Int) + (l : Int)).toNat = a.length + l := by omega
  rw [e1, e2, Int.toNat_natCast, Int.toNat_natCast, List.append_assoc, List.take_append,
    List.drop_append, List.take_append_of_le_length hk]

/-- Invariance: `extractValue` does not see the white space around a line that has an
opening delimiter. -/
theorem extractValue_shift (a m b : Str) (ha : ∀ x ∈ a, spaceByte x = true)
    (hb : ∀ x ∈ b, spaceByte x = true) (hm : 0x28 ∈ m) :
    extractValue (a ++ m ++ b) = extractValue m := by
  have na : ∀ c : Nat, spaceByte c = false → c ∉ a := fun c hc h => by
    rw [ha c h] at hc; exact Bool.noConfusion hc
  have nb : ∀ c : Nat, spaceByte c = false → c ∉ b := fun c hc h => by
    rw [hb c h] at hc; exact Bool.noConfusion hc
  have i1 := index_shift a m b 0x28 (na _ (by decide)) (nb _ (by decide))
  have i2 := index_shift a m b 0x2A (na _ (by decide)) (nb _ (by decide))
  have i3 := index_shift a m b 0x29 (na _ (by decide)) (nb _ (by decide))
  rw [if_pos hm] at i1
  have b1 := index_bounds m 0x28
  have b2 := index_bounds m 0x2A
  have b3 := index_bounds m 0x29
  have p1 : 0 ≤ index m 0x28 := by rw [index_of_mem m _ hm]; omega
  unfold extractValue
  simp only [i1, i2, i3]
  by_cases h2 : 0x2A ∈ m
  · have q2 : 0 ≤ index m 0x2A := by rw [index_of_mem m _ h2]; omega
    rw [if_pos h2]
    by_cases hc : index m 0x28 + 1 < 0 ∨ index m 0x2A < 0 ∨ index m 0x2A ≤ index m 0x28 + 1
    · rw [if_pos hc, if_pos (by omega)]
      by_cases h3 : 0x29 ∈ m
      · have q3 : 0 ≤ index m 0x29 := by rw [index_of_mem m _ h3]; omega
        rw [if_pos h3]
        by_cases hd : index m 0x29 ≤ index m 0x28 + 1
        · rw [if_pos hd, if_pos (by omega)]
        · rw [if_neg hd, if_neg (by omega), add_assoc,
            slice_shift a m b _ _ (by omega) (by omega) (by omega)]
      · rw [if_neg h3, index_of_not_mem m _ h3, if_pos (by omega), if_pos (by omega)]
    · rw [if_neg hc, if_neg (by omega), add_assoc,
        slice_shift a m b _ _ (by omega) (by omega) (by omega)]
  · rw [if_neg h2, index_of_not_mem m _ h2, if_pos (Or.inr (Or.inl (by decide))),
      if_pos (Or.inr (Or.inl (by decide)))]
    by_cases h3 : 0x29 ∈ m
    · have q3 : 0 ≤ index m 0x29 := by rw [index_of_mem m _ h3]; omega
      rw [if_pos h3]
      by_cases hd : index m 0x29 ≤ index m 0x28 + 1
      · rw [if_pos hd, if_pos (by omega)]
      · rw [if_neg hd, if_neg (by omega), add_assoc,
          slice_shift a m b _ _ (by omega) (by omega) (by omega)]
    · rw [if_neg h3, index_of_not_mem m _ h3, if_pos (by omega), if_pos (by omega)]

/-- Preservation: `strings.TrimSpace` keeps a prefix that neither starts nor ends with a
white-space byte. -/
theorem trimSpace_keeps (p s : Str) (hp : p <+: s) (x : Nat) (q : Str) (hx : p = x :: q)
    (h1 : spaceByte x = false) (h2 : spaceByte (p.getLast (by rw [hx]; simp)) = false) :
    p <+: trimSpace s := by
  obtain ⟨a, b, hs, ha, hb⟩ := trimSpace_spec s
  have ha' : a = [] := by
    rcases a with _ | ⟨a0, a'⟩
    · rfl
    · exfalso
      rw [hs, hx] at hp
      obtain ⟨w, hw⟩ := hp
      simp only [List.cons_append, List.append_assoc, List.cons.injEq] at hw
      rw [hw.1, ha a0 (by simp)] at h1
      exact Bool.noConfusion h1
  subst ha'
  rw [List.nil_append] at hs
  have hm : trimSpace s <+: s := ⟨b, hs.symm⟩
  rcases List.prefix_or_prefix_of_prefix hp hm with h | h
  · exact h
  · obtain ⟨c, hc⟩ := h
    rcases c with _ | ⟨c0, c'⟩
    · rw [List.append_nil] at hc; rw [hc]
    · exfalso
      have hcb : c0 :: c' <+: b := by
        have : trimSpace s ++ (c0 :: c') <+: trimSpace s ++ b := by rw [hc, ← hs]; exact hp
        exact (List.prefix_append_right_inj _).1 this
      have hl : p.getLast (by rw [hx]; simp) = (c0 :: c').getLast (by simp) := by
        have : p.getLast (by rw [hx]; simp) =
            (trimSpace s ++ (c0 :: c')).getLast (by simp) := by
          congr 1
          exact hc.symm
        rw [this, List.getLast_append_of_ne_nil]
      have hmem : (c0 :: c').getLast (by simp) ∈ b :=
        hcb.subset (List.getLast_mem _)
      rw [hl, hb _ hmem] at h2
      exact Bool.noConfusion h2

/-! ## The code table and the switch -/

theorem hasPrefix_iff (s p : Str) : hasPrefix s p = true ↔ p <+: s := by
  unfold hasPrefix
  exact List.isPrefixOf_iff_prefix

theorem trimSpace_keeps_code (p s : Str) (hp : p <+: s)
    (h1 : p.head?.map spaceByte = some false) (h2 : p.getLast?.map spaceByte = some false) :
    p <+: trimSpace s := by
  rcases p with _ | ⟨x, q⟩
  · simp at h1
  · refine trimSpace_keeps (x :: q) s hp x q rfl (by simpa using h1) ?_
    rw [List.getLast?_eq_getLast _ (by simp)] at h2
    simpa using h2

set_option maxRecDepth 100000 in
/-- No code prefix of the table is a prefix of another one. -/
theorem codeTable_disjoint :
    ∀ e1 ∈ codeTable, ∀ e2 ∈ codeTable, e1.code <+: e2.code → e1 = e2 := by
  decide

set_option maxRecDepth 100000 in
/-- Every code prefix starts with a digit and ends with the opening delimiter. -/
theorem codeTable_shape :
    ∀ e ∈ codeTable, e.code.head?.map spaceByte = some false ∧
      e.code.getLast?.map spaceByte = some false ∧ 0x28 ∈ e.code := by
  decide

theorem lookupLine_of_code (line : Str) (e : Entry) (he : e ∈ codeTable)
    (hp : hasPrefix line e.code = true) : lookupLine line = some e := by
  unfold lookupLine
  cases hf : codeTable.find? (fun e => hasPrefix line e.code) with
  | none =>
    rw [List.find?_eq_none] at hf
    exact absurd hp (hf e he)
  | some e1 =>
    have h1 : hasPrefix line e1.code = true :=
      @List.find?_some Entry (fun e => hasPrefix line e.code) e1 codeTable hf
    have h2 : e1 ∈ codeTable := List.mem_of_find?_eq_some hf
    rw [hasPrefix_iff] at h1 hp
    rcases List.prefix_or_prefix_of_prefix h1 hp with h | h
    · rw [codeTable_disjoint e1 h2 e he h]
    · rw [codeTable_disjoint e he e1 h2 h]

theorem lookupLine_none (line : Str) (h : ∀ e ∈ codeTable, hasPrefix line e.code = false) :
    lookupLine line = none := by
  unfold lookupLine
  rw [List.find?_eq_none]
  intro e he
  rw [h e he]
  exact Bool.false_ne_true

/-- Totality of `parseTimestamp`: it never panics. -/
theorem parseTimestamp_total (ts : Str) : ∃ v, parseTimestamp ts = some v := by
  unfold parseTimestamp
  by_cases h : ts.length < 12
  · rw [if_pos h]; exact ⟨_, rfl⟩
  · rw [if_neg h]
    have hl : (12 : Int) ≤ ts.length := by omega
    rw [slice_isSome ts 0 2 (by omega) (by omega) (by omega),
      slice_isSome ts 2 4 (by omega) (by omega) (by omega),
      slice_isSome ts 4 6 (by omega) (by omega) (by omega),
      slice_isSome ts 6 8 (by omega) (by omega) (by omega),
      slice_isSome ts 8 10 (by omega) (by omega) (by omega),
      slice_isSome ts 10 12 (by omega) (by omega) (by omega)]
    exact ⟨_, rfl⟩

/-- Every extractor of the table returns a value: no case of the switch panics. -/
theorem entryValue_total (k : Kind) (line : Str) : ∃ v, entryValue k line = some v := by
  cases k with
  | identity =>
    obtain ⟨t, ht⟩ := extractValueText_total line
    exact ⟨F64.ofInt (hashString t), by simp [entryValue, ht]⟩
  | timestamp =>
    obtain ⟨t, ht⟩ := extractValueText_total line
    obtain ⟨u, hu⟩ := parseTimestamp_total (trimSuffix t (ascii "W"))
    exact ⟨F64.ofInt u, by simp [entryValue, ht, hu]⟩
  | numeric => exact extractValue_total line

theorem splitLines_single (line : Str) (h : 10 ∉ line) : splitLines line = [line] := by
  unfold splitLines List.splitOn
  apply List.splitOnP_eq_single
  intro x hx hx2
  have : x = 10 := by simpa using hx2
  exact h (this ▸ hx)

theorem parseAndSetMetrics_single (line : Str) (r : Registry) (h : 10 ∉ line) :
    parseAndSetMetrics line r = dispatchTable r line := by
  unfold parseAndSetMetrics
  rw [splitLines_single line h, List.foldlM_cons, processLine_eq_dispatchTable]
  cases dispatchTable r line <;> rfl

/-- What a line whose trimmed form starts with a code prefix of the table does. -/
theorem dispatchTable_of_code (r : Registry) (line : Str) (e : Entry) (he : e ∈ codeTable)
    (hp : hasPrefix (trimSpace line) e.code = true) :
    dispatchTable r line = (entryValue e.kind (trimSpace line)).map fun v => r.set e.series v := by
  have hne : trimSpace line ≠ [] := by
    intro h0
    rw [h0, hasPrefix_iff] at hp
    have := (codeTable_shape e he).2.2
    rw [List.prefix_nil.1 hp] at this
    exact absurd this (List.not_mem_nil _)
  unfold dispatchTable
  dsimp only
  rw [if_neg hne, lookupLine_of_code _ e he hp]
  rfl

/-! ## The claims on the dispatcher -/

theorem set_same (r : Registry) (k : Series) (v : F64) : (r.set k v) k = some v := by
  simp [Registry.set]

theorem set_other (r : Registry) (k k1 : Series) (v : F64) (h : k1 ≠ k) :
    (r.set k v) k1 = r k1 := by
  simp [Registry.set, h]

/-- C1. For every registry and every single line whose trimmed form starts with
the code prefix of a numeric entry of the table, `parseAndSetMetrics` returns,
the series of the entry holds `extractValue(line)` (the same for the line as
received and for its trimmed form), and every other series is as before. -/
theorem parseAndSetMetrics_numeric_frame (r : Registry) (line : Str) (e : Entry)
    (he : e ∈ codeTable) (hk : e.kind = Kind.numeric) (hnl : 10 ∉ line)
    (hp : hasPrefix (trimSpace line) e.code = true) :
    ∃ v r1, extractValue line = some v ∧ extractValue (trimSpace line) = some v ∧
      parseAndSetMetrics line r = some r1 ∧ r1 e.series = some v ∧
      ∀ k, k ≠ e.series → r1 k = r k := by
  obtain ⟨v, hv⟩ := extractValue_total (trimSpace line)
  obtain ⟨a, b, hs, ha, hb⟩ := trimSpace_spec line
  have hparen : 0x28 ∈ trimSpace line :=
    ((hasPrefix_iff _ _).1 hp).subset (codeTable_shape e he).2.2
  have hsame : extractValue line = extractValue (trimSpace line) := by
    conv_lhs => rw [hs]
    exact extractValue_shift a (trimSpace line) b ha hb hparen
  refine ⟨v, r.set e.series v, by rw [hsame, hv], hv, ?_, set_same r _ v,
    fun k hk' => set_other r _ k v hk'⟩
  rw [parseAndSetMetrics_single line r hnl, dispatchTable_of_code r line e he hp, hk]
  show (extractValue (trimSpace line)).map _ = _
  rw [hv]
  rfl

/-- An instance of C1: the line `1-0:1.8.0(001234.567*kWh)` on the empty
registry. -/
theorem parseAndSetMetrics_numeric_frame_witness :
    ((⟨ascii "1-0:1.8.0(", ⟨"elcentral_active_energy_kwh", ["import", "T1"]⟩,
        ["direction", "tariff"], Kind.numeric⟩ : Entry) ∈ codeTable ∧
      10 ∉ ascii "1-0:1.8.0(001234.567*kWh)" ∧
      hasPrefix (trimSpace (ascii "1-0:1.8.0(001234.567*kWh)")) (ascii "1-0:1.8.0(") = true) ∧
    ∃ v r1, extractValue (ascii "1-0:1.8.0(001234.567*kWh)") = some v ∧
      extractValue (trimSpace (ascii "1-0:1.8.0(001234.567*kWh)")) = some v ∧
      parseAndSetMetrics (ascii "1-0:1.8.0(001234.567*kWh)") emptyRegistry = some r1 ∧
      r1 ⟨"elcentral_active_energy_kwh", ["import", "T1"]⟩ = some v ∧
      ∀ k, k ≠ ⟨"elcentral_active_energy_kwh", ["import", "T1"]⟩ → r1 k = emptyRegistry k :=
  ⟨⟨by decide, by decide, by decide⟩,
    parseAndSetMetrics_numeric_frame emptyRegistry (ascii "1-0:1.8.0(001234.567*kWh)")
      ⟨ascii "1-0:1.8.0(", ⟨"elcentral_active_energy_kwh", ["import", "T1"]⟩,
        ["direction", "tariff"], Kind.numeric⟩ (by decide) rfl (by decide) (by decide)⟩

set_option maxRecDepth 100000 in
/-- The table has 28 entries, every exported name starts with the shared prefix,
and every entry names a registered gauge vector with its label names and as many
label values. -/
theorem codeTable_gauges :
    codeTable.length = 28 ∧
    (∀ e ∈ codeTable, metricPrefix.toList <+: e.series.name.toList) ∧
    ∀ e ∈ codeTable, ∃ g ∈ gauges, g.name = e.series.name ∧ g.labelNames = e.labelNames ∧
      e.series.labels.length = g.labelNames.length := by
  decide

/-- C2. The dispatcher reproduces the code table: the table has 28 entries with
names that carry the prefix `elcentral_` and that are those of the registered
gauge vectors, and a line that starts (as received, or once trimmed) with the
code prefix of an entry writes the value of that entry to the series the table
lists for it, and to that series only. -/
theorem parseAndSetMetrics_code_table (r : Registry) (line : Str) (e : Entry)
    (he : e ∈ codeTable) (hnl : 10 ∉ line)
    (hp : hasPrefix line e.code = true ∨ hasPrefix (trimSpace line) e.code = true) :
    (codeTable.length = 28 ∧
      (∀ e ∈ codeTable, metricPrefix.toList <+: e.series.name.toList) ∧
      ∀ e ∈ codeTable, ∃ g ∈ gauges, g.name = e.series.name ∧ g.labelNames = e.labelNames ∧
        e.series.labels.length = g.labelNames.length) ∧
    ∃ v, entryValue e.kind (trimSpace line) = some v ∧
      parseAndSetMetrics line r = some (r.set e.series v) ∧
      (r.set e.series v) e.series = some v ∧
      ∀ k, k ≠ e.series → (r.set e.series v) k = r k := by
  refine ⟨codeTable_gauges, ?_⟩
  have hp' : hasPrefix (trimSpace line) e.code = true := by
    rcases hp with hp | hp
    · rw [hasPrefix_iff] at hp ⊢
      exact trimSpace_keeps_code e.code line hp (codeTable_shape e he).1
        (codeTable_shape e he).2.1
    · exact hp
  obtain ⟨v, hv⟩ := entryValue_total e.kind (trimSpace line)
  refine ⟨v, hv, ?_, set_same r _ v, fun k hk => set_other r _ k v hk⟩
  rw [parseAndSetMetrics_single line r hnl, dispatchTable_of_code r line e he hp', hv]
  rfl

/-- An instance of C2: the third current code `1-0:71.7.0(` writes to
`elcentral_current_a` with the label value `L3`. -/
theorem parseAndSetMetrics_code_table_witness :
    ((⟨ascii "1-0:71.7.0(", ⟨"elcentral_current_a", ["L3"]⟩, ["phase"], Kind.numeric⟩ : Entry)
        ∈ codeTable ∧
      10 ∉ ascii "1-0:71.7.0(001*A)" ∧
      hasPrefix (ascii "1-0:71.7.0(001*A)") (ascii "1-0:71.7.0(") = true) ∧
    ∃ v, entryValue Kind.numeric (trimSpace (ascii "1-0:71.7.0(001*A)")) = some v ∧
      parseAndSetMetrics (ascii "1-0:71.7.0(001*A)") emptyRegistry =
        some (emptyRegistry.set ⟨"elcentral_current_a", ["L3"]⟩ v) :=
  ⟨⟨by decide, by decide, by decide⟩,
    match (parseAndSetMetrics_code_table emptyRegistry (ascii "1-0:71.7.0(001*A)")
      ⟨ascii "1-0:71.7.0(", ⟨"elcentral_current_a", ["L3"]⟩, ["phase"], Kind.numeric⟩
      (by decide) (by decide) (Or.inl (by decide))).2 with
    | ⟨v, h1, h2, _⟩ => ⟨v, h1, h2⟩⟩

/-- Every line has one effect, whatever the registry. -/
theorem processLine_effect (line : Str) :
    ∃ eff : Option (Series × F64), ∀ r, processLine r line = some (applyEffect r eff) := by
  by_cases h0 : trimSpace line = []
  · refine ⟨none, fun r => ?_⟩
    rw [processLine_eq_dispatchTable]
    unfold dispatchTable
    dsimp only
    rw [if_pos h0]
    rfl
  · cases hl : lookupLine (trimSpace line) with
    | none =>
      refine ⟨none, fun r => ?_⟩
      rw [processLine_eq_dispatchTable]
      unfold dispatchTable
      dsimp only
      rw [if_neg h0, hl]
      rfl
    | some e =>
      obtain ⟨v, hv⟩ := entryValue_total e.kind (trimSpace line)
      refine ⟨some (e.series, v), fun r => ?_⟩
      rw [processLine_eq_dispatchTable]
      unfold dispatchTable
      dsimp only
      rw [if_neg h0, hl]
      show (entryValue e.kind (trimSpace line)).map _ = _
      rw [hv]
      rfl

theorem foldlM_effects (ls : List Str) :
    ∃ effs : List (Option (Series × F64)),
      ∀ r, ls.foldlM processLine r = some (applyEffects r effs) := by
  induction ls with
  | nil => exact ⟨[], fun r => rfl⟩
  | cons l ls ih =>
    obtain ⟨eff, he⟩ := processLine_effect l
    obtain ⟨effs, hes⟩ := ih
    refine ⟨eff :: effs, fun r => ?_⟩
    rw [List.foldlM_cons, he r]
    exact hes _

theorem applyEffects_not_written (effs : List (Option (Series × F64))) (r : Registry)
    (k : Series) (h : k ∉ written effs) : applyEffects r effs k = r k := by
  induction effs generalizing r with
  | nil => rfl
  | cons e effs ih =>
    unfold applyEffects at ih ⊢
    rw [List.foldl_cons]
    rcases e with _ | ⟨k1, v⟩
    · exact ih _ (by simpa [written] using h)
    · have h1 : k ≠ k1 := by
        intro heq; apply h; simp [written, heq]
      have h2 : k ∉ written effs := by
        intro hm; apply h; simp only [written, List.filterMap_cons, Option.map_some']
        exact List.mem_cons_of_mem _ hm
      rw [ih _ h2]
      exact set_other r k1 k v h1

theorem applyEffects_written (effs : List (Option (Series × F64))) (r r1 : Registry)
    (k : Series) (h : k ∈ written effs) : applyEffects r effs k = applyEffects r1 effs k := by
  induction effs generalizing r r1 with
  | nil => simp [written] at h
  | cons e effs ih =>
    by_cases hw : k ∈ written effs
    · unfold applyEffects at ih ⊢
      rw [List.foldl_cons, List.foldl_cons]
      exact ih _ _ hw
    · have e1 := applyEffects_not_written effs (applyEffect r e) k hw
      have e2 := applyEffects_not_written effs (applyEffect r1 e) k hw
      unfold applyEffects at e1 e2 ⊢
      rw [List.foldl_cons, List.foldl_cons, e1, e2]
      rcases e with _ | ⟨k1, v⟩
      · exact absurd (by simpa [written] using h) hw
      · have hk : k = k1 := by
          simp only [written, List.filterMap_cons, Option.map_some', List.mem_cons] at h
          rcases h with h | h
          · exact h
          · exact absurd h hw
        subst hk
        show (r.set k v) k = (r1.set k v) k
        rw [set_same, set_same]

/-- C3. Dispatch is idempotent: for every registry `r` and every input `s`
(any number of lines), `parseAndSetMetrics(s)` returns a registry, and applying
it once more to that registry returns the same registry. -/
theorem parseAndSetMetrics_idempotent (r : Registry) (s : Str) :
    ∃ r1, parseAndSetMetrics s r = some r1 ∧ parseAndSetMetrics s r1 = some r1 := by
  obtain ⟨effs, he⟩ := foldlM_effects (splitLines s)
  refine ⟨applyEffects r effs, he r, ?_⟩
  unfold parseAndSetMetrics
  rw [he]
  congr 1
  funext k
  by_cases hw : k ∈ written effs
  · exact applyEffects_written effs _ _ k hw
  · exact applyEffects_not_written effs _ k hw

set_option maxRecDepth 100000 in
/-- No code prefix of the table is comparable with `/` or `!`, and none is empty. -/
theorem codeTable_structural :
    ∀ e ∈ codeTable, e.code ≠ [] ∧ ¬ (e.code <+: ascii "/") ∧ ¬ (ascii "/" <+: e.code) ∧
      ¬ (e.code <+: ascii "!") ∧ ¬ (ascii "!" <+: e.code) := by
  decide

/-- A line that matches no entry of the table leaves the registry as it is. -/
theorem parseAndSetMetrics_skip (r : Registry) (line : Str) (hnl : 10 ∉ line)
    (h : trimSpace line = [] ∨ hasPrefix (trimSpace line) (ascii "/") = true ∨
      hasPrefix (trimSpace line) (ascii "!") = true ∨
      ∀ e ∈ codeTable, hasPrefix (trimSpace line) e.code = false) :
    parseAndSetMetrics line r = some r := by
  rw [parseAndSetMetrics_single line r hnl]
  unfold dispatchTable
  dsimp only
  by_cases h0 : trimSpace line = []
  · rw [if_pos h0]
  · rw [if_neg h0]
    have hall : ∀ e ∈ codeTable, hasPrefix (trimSpace line) e.code = false := by
      intro e he
      obtain ⟨-, s1, s2, s3, s4⟩ := codeTable_structural e he
      rcases h with h | h | h | h
      · exact absurd h h0
      · rw [Bool.eq_false_iff]
        intro hp
        rw [hasPrefix_iff] at h hp
        rcases List.prefix_or_prefix_of_prefix h hp with h' | h'
        · exact s2 h'
        · exact s1 h'
      · rw [Bool.eq_false_iff]
        intro hp
        rw [hasPrefix_iff] at h hp
        rcases List.prefix_or_prefix_of_prefix h hp with h' | h'
        · exact s4 h'
        · exact s3 h'
      · exact h e he
    rw [lookupLine_none _ hall]
    rfl

/-- C4. For every registry and every line whose trimmed form starts with none of
the 28 code prefixes of the table (in particular an empty or white-space-only
line, a structural line starting with `/` or `!`, an unknown code),
`parseAndSetMetrics` returns normally and the registry is unchanged. -/
theorem parseAndSetMetrics_unmatched (r : Registry) (line : Str) (hnl : 10 ∉ line)
    (h : trimSpace line = [] ∨ hasPrefix (trimSpace line) (ascii "/") = true ∨
      hasPrefix (trimSpace line) (ascii "!") = true ∨
      ∀ e ∈ codeTable, hasPrefix (trimSpace line) e.code = false) :
    parseAndSetMetrics line r = some r ∧
      ∀ e ∈ codeTable, hasPrefix (trimSpace line) e.code = false := by
  refine ⟨parseAndSetMetrics_skip r line hnl h, ?_⟩
  intro e he
  obtain ⟨s0, s1, s2, s3, s4⟩ := codeTable_structural e he
  rcases h with h | h | h | h
  · rw [h, Bool.eq_false_iff]
    intro hp
    rw [hasPrefix_iff] at hp
    exact s0 (List.prefix_nil.1 hp)
  · rw [Bool.eq_false_iff]
    intro hp
    rw [hasPrefix_iff] at h hp
    rcases List.prefix_or_prefix_of_prefix h hp with h' | h'
    · exact s2 h'
    · exact s1 h'
  · rw [Bool.eq_false_iff]
    intro hp
    rw [hasPrefix_iff] at h hp
    rcases List.prefix_or_prefix_of_prefix h hp with h' | h'
    · exact s4 h'
    · exact s3 h'
  · exact h e he

set_option maxRecDepth 100000 in
/-- The instances of C4 named by the specification: the structural lines
`/ABC123\r` and `!1234\r`, the unknown code `9-9:99.9.9(42)`, and a line of white
space, on the empty registry. -/
theorem parseAndSetMetrics_unmatched_witness :
    (10 ∉ ascii "/ABC123\r" ∧ hasPrefix (trimSpace (ascii "/ABC123\r")) (ascii "/") = true ∧
      10 ∉ ascii "!1234\r" ∧ hasPrefix (trimSpace (ascii "!1234\r")) (ascii "!") = true ∧
      10 ∉ ascii "9-9:99.9.9(42)" ∧
      (∀ e ∈ codeTable, hasPrefix (trimSpace (ascii "9-9:99.9.9(42)")) e.code = false) ∧
      10 ∉ ascii " \t\r" ∧ trimSpace (ascii " \t\r") = []) ∧
    parseAndSetMetrics (ascii "/ABC123\r") emptyRegistry = some emptyRegistry ∧
    parseAndSetMetrics (ascii "!1234\r") emptyRegistry = some emptyRegistry ∧
    parseAndSetMetrics (ascii "9-9:99.9.9(42)") emptyRegistry = some emptyRegistry ∧
    parseAndSetMetrics (ascii " \t\r") emptyRegistry = some emptyRegistry :=
  ⟨by decide,
    (parseAndSetMetrics_unmatched emptyRegistry (ascii "/ABC123\r") (by decide)
      (Or.inr (Or.inl (by decide)))).1,
    (parseAndSetMetrics_unmatched emptyRegistry (ascii "!1234\r") (by decide)
      (Or.inr (Or.inr (Or.inl (by decide))))).1,
    (parseAndSetMetrics_unmatched emptyRegistry (ascii "9-9:99.9.9(42)") (by decide)
      (Or.inr (Or.inr (Or.inr (by decide))))).1,
    (parseAndSetMetrics_unmatched emptyRegistry (ascii " \t\r") (by decide)
      (Or.inl (by decide))).1⟩

theorem extractValue_energy_line :
    extractValue (ascii "1-0:1.8.0(001234.567*kWh)") =
      some (F64.num (roundF64 (1234567 / 1000))) := by
  have h := extractValue_decimal (ascii "1-0:1.8.0") (ascii "001234") (ascii "567")
    (ascii "kWh)") (by decide) (by decide) (by decide) (by decide) (by decide)
  rw [if_neg (not_le.2 decimalValue_small_lt), decimalValue_small] at h
  exact h

theorem ReadSerialData_nil (r : Registry) : ReadSerialData [] r = some r := rfl

theorem ReadSerialData_cons (l : Str) (ls : List Str) (r : Registry) :
    ReadSerialData (l :: ls) r = (parseAndSetMetrics l r).bind (ReadSerialData ls) := by
  unfold ReadSerialData
  rw [List.foldlM_cons]
  rfl

/-- C5. End to end: from the empty registry, dispatching the three lines
`/ISk5\2MT382-1000`, `1-0:1.8.0(001234.567*kWh)` and `!` in this order gives a
registry with exactly one series, `active_energy_kwh{direction=import,
tariff=T1}` (exported as `elcentral_active_energy_kwh`), whose value is the
binary64 value nearest to 1234.567. -/
theorem ReadSerialData_end_to_end :
    ∃ r1, ReadSerialData
        [ascii "/ISk5\\2MT382-1000", ascii "1-0:1.8.0(001234.567*kWh)", ascii "!"]
        emptyRegistry = some r1 ∧
      r1 ⟨"elcentral_active_energy_kwh", ["import", "T1"]⟩ =
        some (F64.num (roundF64 (1234567 / 1000))) ∧
      ∀ k, k ≠ ⟨"elcentral_active_energy_kwh", ["import", "T1"]⟩ → r1 k = none := by
  have h1 : parseAndSetMetrics (ascii "/ISk5\\2MT382-1000") emptyRegistry = some emptyRegistry :=
    parseAndSetMetrics_skip _ _ (by decide) (Or.inr (Or.inl (by decide)))
  have h2 : parseAndSetMetrics (ascii "1-0:1.8.0(001234.567*kWh)") emptyRegistry =
      some (emptyRegistry.set ⟨"elcentral_active_energy_kwh", ["import", "T1"]⟩
        (F64.num (roundF64 (1234567 / 1000)))) := by
    have ht : trimSpace (ascii "1-0:1.8.0(001234.567*kWh)") =
        ascii "1-0:1.8.0(001234.567*kWh)" := by decide
    rw [parseAndSetMetrics_single _ _ (by decide),
      dispatchTable_of_code emptyRegistry _
        ⟨ascii "1-0:1.8.0(", ⟨"elcentral_active_energy_kwh", ["import", "T1"]⟩,
          ["direction", "tariff"], Kind.numeric⟩ (by decide) (by decide), ht]
    simp only [entryValue, extractValue_energy_line, Option.map_some']
  have h3 : ∀ r, parseAndSetMetrics (ascii "!") r = some r := fun r =>
    parseAndSetMetrics_skip r _ (by decide) (Or.inr (Or.inr (Or.inl (by decide))))
  refine ⟨emptyRegistry.set ⟨"elcentral_active_energy_kwh", ["import", "T1"]⟩
    (F64.num (roundF64 (1234567 / 1000))), ?_, set_same _ _ _, fun k hk => ?_⟩
  · rw [ReadSerialData_cons, h1, Option.some_bind, ReadSerialData_cons, h2, Option.some_bind,
      ReadSerialData_cons, h3, Option.some_bind, ReadSerialData_nil]
  · rw [set_other _ _ k _ hk]
    rfl

/-! ## `parseTimestamp` on short and on malformed input -/

/-- C11, as amended. For every input shorter than 12 bytes `parseTimestamp` does
not fail and returns 0, the instant 1970-01-01T00:00:00Z: the guard on the
length returns before any field is read. -/
theorem parseTimestamp_short (ts : Str) (h : ts.length < 12) : parseTimestamp ts = some 0 := by
  unfold parseTimestamp
  rw [if_pos h]

/-- The instance of C11 as amended at the input `230615`. -/
theorem parseTimestamp_short_witness :
    (ascii "230615").length < 12 ∧ parseTimestamp (ascii "230615") = some 0 :=
  ⟨by decide, parseTimestamp_short (ascii "230615") (by decide)⟩

/-- C11 as stated fails at its own example: for `230615` the result is 0, not
the instant 2023-06-15T00:00:00Z (1686787200). -/
theorem parseTimestamp_short_not_best_effort :
    parseTimestamp (ascii "230615") = some 0 ∧ unixSeconds 2023 6 15 0 0 0 = 1686787200 ∧
      parseTimestamp (ascii "230615") ≠ some (unixSeconds 2023 6 15 0 0 0) := by
  decide

theorem parseTimestamp_cons (a0 a1 a2 a3 a4 a5 a6 a7 a8 a9 a10 a11 : Nat) (rest : Str) :
    parseTimestamp (a0 :: a1 :: a2 :: a3 :: a4 :: a5 :: a6 :: a7 :: a8 :: a9 :: a10 :: a11 :: rest) =
      some (dateUnix (atoi [0x32, 0x30, a0, a1]).1 (atoi [a2, a3]).1 (atoi [a4, a5]).1
        (atoi [a6, a7]).1 (atoi [a8, a9]).1 (atoi [a10, a11]).1) := by
  unfold parseTimestamp
  rw [if_neg (by simp only [List.length_cons]; omega)]
  rw [slice_isSome _ 0 2 (by omega) (by omega) (by simp only [List.length_cons]; omega),
    slice_isSome _ 2 4 (by omega) (by omega) (by simp only [List.length_cons]; omega),
    slice_isSome _ 4 6 (by omega) (by omega) (by simp only [List.length_cons]; omega),
    slice_isSome _ 6 8 (by omega) (by omega) (by simp only [List.length_cons]; omega),
    slice_isSome _ 8 10 (by omega) (by omega) (by simp only [List.length_cons]; omega),
    slice_isSome _ 10 12 (by omega) (by omega) (by simp only [List.length_cons]; omega)]
  rfl

theorem length_ge_twelve (ts : Str) (h : 12 ≤ ts.length) :
    ∃ (a0 a1 a2 a3 a4 a5 a6 a7 a8 a9 a10 a11 : Nat) (rest : Str),
      ts = a0 :: a1 :: a2 :: a3 :: a4 :: a5 :: a6 :: a7 :: a8 :: a9 :: a10 :: a11 :: rest := by
  rcases ts with _ | ⟨a0, _ | ⟨a1, _ | ⟨a2, _ | ⟨a3, _ | ⟨a4, _ | ⟨a5, _ | ⟨a6, _ | ⟨a7,
    _ | ⟨a8, _ | ⟨a9, _ | ⟨a10, _ | ⟨a11, rest⟩⟩⟩⟩⟩⟩⟩⟩⟩⟩⟩⟩ <;>
    simp at h
  exact ⟨a0, a1, a2, a3, a4, a5, a6, a7, a8, a9, a10, a11, rest, rfl⟩

theorem digitsVal_lt (ds : Str) (h : ∀ x ∈ ds, isDigit x = true) :
    digitsVal ds < 10 ^ ds.length := by
  induction ds using List.reverseRecOn with
  | nil => simp [digitsVal]
  | append_singleton ds d ih =>
    have hd := (isDigit_iff d).1 (h d (by simp))
    have := ih (fun x hx => h x (by simp [hx]))
    have e : digitsVal [d] = d - 0x30 := by simp [digitsVal]
    have e1 : ([d] : Str).length = 1 := rfl
    have e2 : (ds ++ [d]).length = ds.length + 1 := by simp
    rw [digitsVal_append, e, e1, e2, pow_one, pow_succ]
    omega

/-- A short string that `strconv.Atoi` rejects gives 0. -/
theorem atoi_bad (s : Str) (hl : s.length ≤ 18) (h : (atoi s).2 = false) : (atoi s).1 = 0 := by
  rcases s with _ | ⟨c, t⟩
  · rfl
  · unfold atoi at h ⊢
    dsimp only at h ⊢
    have hlen : (if c = 0x2B ∨ c = 0x2D then t else c :: t).length ≤ 18 := by
      split_ifs
      · simp only [List.length_cons] at hl; omega
      · exact hl
    generalize (if c = 0x2B ∨ c = 0x2D then t else c :: t) = body at h hlen ⊢
    by_cases h1 : body = []
    · rw [if_pos h1]
    · rw [if_neg h1] at h ⊢
      by_cases h2 : body.all isDigit = true
      · rw [if_pos h2] at h ⊢
        have hall : ∀ x ∈ body, isDigit x = true := by
          rw [List.all_eq_true] at h2; exact h2
        have hlt := digitsVal_lt _ hall
        have hp : 10 ^ body.length ≤ 10 ^ 18 := Nat.pow_le_pow_right (by norm_num) hlen
        have h63 : (10 : Nat) ^ 18 < 2 ^ 63 := by norm_num
        have hn : digitsVal body < 2 ^ 63 := by omega
        rw [if_neg (by intro hh; have := hh.2; omega),
          if_neg (by intro hh; have := hh.2; omega)] at h
        simp at h
      · rw [if_neg h2]

theorem atoi_zeros : atoi [0x30, 0x30] = (0, true) := by decide

/-- The value of `strconv.Atoi` on a text of at most four bytes. -/
theorem atoi_bound (s : Str) (hl : s.length ≤ 4) : |(atoi s).1| ≤ 10000 := by
  rcases s with _ | ⟨c, t⟩
  · simp [atoi]
  · unfold atoi
    dsimp only
    have hlen : (if c = 0x2B ∨ c = 0x2D then t else c :: t).length ≤ 4 := by
      split_ifs
      · simp only [List.length_cons] at hl; omega
      · exact hl
    generalize (if c = 0x2B ∨ c = 0x2D then t else c :: t) = body at hlen ⊢
    by_cases h1 : body = []
    · rw [if_pos h1]
      simp
    · rw [if_neg h1]
      by_cases h2 : body.all isDigit = true
      · rw [if_pos h2]
        have hall : ∀ x ∈ body, isDigit x = true := by
          rw [List.all_eq_true] at h2; exact h2
        have hlt := digitsVal_lt _ hall
        have hp : 10 ^ body.length ≤ 10 ^ 4 := Nat.pow_le_pow_right (by norm_num) hlen
        have hn : digitsVal body < 10000 := by omega
        rw [if_neg (by intro hh; have := hh.2; omega),
          if_neg (by intro hh; have := hh.2; omega)]
        simp only
        rw [abs_le]
        split_ifs <;> omega
      · rw [if_neg h2]
        simp

theorem daysBefore_bound (m : Int) : 0 ≤ daysBefore m ∧ daysBefore m ≤ 334 := by
  unfold daysBefore
  generalize m.toNat = n
  rcases n with _ | _ | _ | _ | _ | _ | _ | _ | _ | _ | _ | _ | n <;> simp

/-- The instant of a date whose fields have at most four digits is far inside
the range in which every integer is a binary64 value. -/
theorem dateUnix_bound (y mo dd hh mi ss : Int) (hy : |y| ≤ 10000) (hmo : |mo| ≤ 10000)
    (hdd : |dd| ≤ 10000) (hhh : |hh| ≤ 10000) (hmi : |mi| ≤ 10000) (hss : |ss| ≤ 10000) :
    |dateUnix y mo dd hh mi ss| ≤ 2 ^ 53 := by
  rw [abs_le] at *
  unfold dateUnix
  lift_lets
  intro m0 year m min1 sec1 hour1 min2 day1 hour2 d
  have hb := daysBefore_bound m
  have hl : (0 : Int) ≤ (if isLeap year = true ∧ 3 ≤ m + 1 then 1 else 0) ∧
      (if isLeap year = true ∧ 3 ≤ m + 1 then 1 else 0) ≤ (1 : Int) := by
    split <;> simp
  have hd : d = daysSinceEpoch year + daysBefore m +
      (if isLeap year = true ∧ 3 ≤ m + 1 then 1 else 0) + (day1 - 1) := rfl
  have hs : daysSinceEpoch year = 365 * (year - 1970) + ((year - 1) / 4 - (year - 1) / 100 +
      (year - 1) / 400) - ((1970 - 1) / 4 - (1970 - 1) / 100 + (1970 - 1) / 400) := rfl
  have e1 : m0 = mo - 1 := rfl
  have e2 : year = y + m0 / 12 := rfl
  have e3 : min1 = mi + ss / 60 := rfl
  have e4 : sec1 = ss % 60 := rfl
  have e5 : hour1 = hh + min1 / 60 := rfl
  have e6 : min2 = min1 % 60 := rfl
  have e7 : day1 = dd + hour1 / 24 := rfl
  have e8 : hour2 = hour1 % 24 := rfl
  generalize daysBefore m = db at hb hd
  generalize (if isLeap year = true ∧ 3 ≤ m + 1 then (1 : Int) else 0) = lp at hl hd
  generalize daysSinceEpoch year = dse at hs hd
  clear_value m0 year min1 sec1 hour1 min2 day1 hour2 d
  omega

/-- Every result of `parseTimestamp` is an integer of fewer than 53 bits. -/
theorem parseTimestamp_bound (ts : Str) (v : Int) (h : parseTimestamp ts = some v) :
    |v| ≤ 2 ^ 53 := by
  by_cases hl : ts.length < 12
  · unfold parseTimestamp at h
    rw [if_pos hl] at h
    cases h
    norm_num
  · obtain ⟨a0, a1, a2, a3, a4, a5, a6, a7, a8, a9, a10, a11, rest, rfl⟩ :=
      length_ge_twelve ts (not_lt.1 hl)
    rw [parseTimestamp_cons] at h
    cases h
    exact dateUnix_bound _ _ _ _ _ _ (atoi_bound _ (by simp)) (atoi_bound _ (by simp))
      (atoi_bound _ (by simp)) (atoi_bound _ (by simp)) (atoi_bound _ (by simp))
      (atoi_bound _ (by simp))

/-- The conversion `float64(unixTs)` of a result of `parseTimestamp` is exact. -/
theorem ofInt_parseTimestamp (ts : Str) (v : Int) (h : parseTimestamp ts = some v) :
    F64.ofInt v = F64.num v := by
  unfold F64.ofInt
  rw [roundF64_int v (parseTimestamp_bound ts v h)]

/-- The year text `20YY` parses exactly when `YY` is two digits. -/
theorem atoi_year_ok (a b : Nat) :
    (atoi (ascii "20" ++ [a, b])).2 = true ↔ (isDigit a = true ∧ isDigit b = true) := by
  have e : ascii "20" ++ [a, b] = [0x32, 0x30, a, b] := rfl
  rw [e]
  constructor
  · intro h
    unfold atoi at h
    simp only [show ¬ ((0x32 : Nat) = 0x2B ∨ (0x32 : Nat) = 0x2D) by decide, if_false] at h
    by_cases hd : ([0x32, 0x30, a, b] : Str).all isDigit = true
    · simp only [List.all_cons, List.all_nil, Bool.and_true, Bool.and_eq_true] at hd
      exact ⟨hd.2.2.1, hd.2.2.2⟩
    · rw [if_neg (by simp), if_neg hd] at h
      exact absurd h (by simp)
  · rintro ⟨ha, hb⟩
    have hall : ∀ x ∈ ([0x32, 0x30, a, b] : Str), isDigit x = true := by
      intro x hx
      simp only [List.mem_cons, List.mem_singleton, List.not_mem_nil, or_false] at hx
      rcases hx with rfl | rfl | rfl | rfl
      · decide
      · decide
      · exact ha
      · exact hb
    have hlt := digitsVal_lt _ hall
    rw [atoi_digits _ (by simp) hall (lt_trans hlt (by norm_num))]

/-- C12, as amended. For every input of at least 12 bytes, `parseTimestamp` does
not fail; a field MM, DD, hh, mm or ss (offset 2, 4, 6, 8 or 10) that fails to
parse as an integer counts as zero, so that the result is that of the input with
the two bytes of the field replaced by `00`; and when `YY` is not two digits,
the year text `20YY` fails to parse and the year is 0 (not 2000), the other
fields being read as usual. -/
theorem parseTimestamp_bad_field (ts : Str) (hlen : 12 ≤ ts.length) :
    (∃ v, parseTimestamp ts = some v) ∧
    (∀ i : Nat, (i = 2 ∨ i = 4 ∨ i = 6 ∨ i = 8 ∨ i = 10) →
      (atoi (fieldBytes ts i)).2 = false →
        parseTimestamp ts = parseTimestamp (zeroField ts i)) ∧
    (((atoi (ascii "20" ++ fieldBytes ts 0)).2 = false) ↔
      ¬ ∀ x ∈ fieldBytes ts 0, isDigit x = true) ∧
    ((¬ ∀ x ∈ fieldBytes ts 0, isDigit x = true) →
      parseTimestamp ts =
        some (dateUnix 0 (atoi (fieldBytes ts 2)).1 (atoi (fieldBytes ts 4)).1
          (atoi (fieldBytes ts 6)).1 (atoi (fieldBytes ts 8)).1 (atoi (fieldBytes ts 10)).1)) := by
  obtain ⟨a0, a1, a2, a3, a4, a5, a6, a7, a8, a9, a10, a11, rest, rfl⟩ :=
    length_ge_twelve ts hlen
  have hy : ((atoi (ascii "20" ++ [a0, a1])).2 = false) ↔
      ¬ ∀ x ∈ ([a0, a1] : Str), isDigit x = true := by
    rw [← Bool.not_eq_true, atoi_year_ok]
    simp
  refine ⟨parseTimestamp_total _, fun i hi hbad => ?_, hy, fun hdig => ?_⟩
  · rcases hi with rfl | rfl | rfl | rfl | rfl
    · have hb : (atoi [a2, a3]).2 = false := hbad
      have hz : zeroField (a0 :: a1 :: a2 :: a3 :: a4 :: a5 :: a6 :: a7 :: a8 :: a9 :: a10 ::
          a11 :: rest) 2 =
          a0 :: a1 :: 0x30 :: 0x30 :: a4 :: a5 :: a6 :: a7 :: a8 :: a9 :: a10 :: a11 :: rest := rfl
      rw [hz, parseTimestamp_cons, parseTimestamp_cons, atoi_bad _ (by simp) hb, atoi_zeros]
    · have hb : (atoi [a4, a5]).2 = false := hbad
      have hz : zeroField (a0 :: a1 :: a2 :: a3 :: a4 :: a5 :: a6 :: a7 :: a8 :: a9 :: a10 ::
          a11 :: rest) 4 =
          a0 :: a1 :: a2 :: a3 :: 0x30 :: 0x30 :: a6 :: a7 :: a8 :: a9 :: a10 :: a11 :: rest := rfl
      rw [hz, parseTimestamp_cons, parseTimestamp_cons, atoi_bad _ (by simp) hb, atoi_zeros]
    · have hb : (atoi [a6, a7]).2 = false := hbad
      have hz : zeroField (a0 :: a1 :: a2 :: a3 :: a4 :: a5 :: a6 :: a7 :: a8 :: a9 :: a10 ::
          a11 :: rest) 6 =
          a0 :: a1 :: a2 :: a3 :: a4 :: a5 :: 0x30 :: 0x30 :: a8 :: a9 :: a10 :: a11 :: rest := rfl
      rw [hz, parseTimestamp_cons, parseTimestamp_cons, atoi_bad _ (by simp) hb, atoi_zeros]
    · have hb : (atoi [a8, a9]).2 = false := hbad
      have hz : zeroField (a0 :: a1 :: a2 :: a3 :: a4 :: a5 :: a6 :: a7 :: a8 :: a9 :: a10 ::
          a11 :: rest) 8 =
          a0 :: a1 :: a2 :: a3 :: a4 :: a5 :: a6 :: a7 :: 0x30 :: 0x30 :: a10 :: a11 :: rest := rfl
      rw [hz, parseTimestamp_cons, parseTimestamp_cons, atoi_bad _ (by simp) hb, atoi_zeros]
    · have hb : (atoi [a10, a11]).2 = false := hbad
      have hz : zeroField (a0 :: a1 :: a2 :: a3 :: a4 :: a5 :: a6 :: a7 :: a8 :: a9 :: a10 ::
          a11 :: rest) 10 =
          a0 :: a1 :: a2 :: a3 :: a4 :: a5 :: a6 :: a7 :: a8 :: a9 :: 0x30 :: 0x30 :: rest := rfl
      rw [hz, parseTimestamp_cons, parseTimestamp_cons, atoi_bad _ (by simp) hb, atoi_zeros]
  · have hb : (atoi [0x32, 0x30, a0, a1]).2 = false := hy.2 hdig
    rw [parseTimestamp_cons, atoi_bad _ (by simp) hb]
    rfl

/-- Two instances of C12 as amended: in `23xx15143000` the month does not parse
and counts as zero; in `xx0615143000` the year text `20xx` does not parse and
the year is 0, which gives the instant 0000-06-15T14:30:00Z. -/
theorem parseTimestamp_bad_field_witness :
    (12 ≤ (ascii "23xx15143000").length ∧
      (atoi (fieldBytes (ascii "23xx15143000") 2)).2 = false ∧
      parseTimestamp (ascii "23xx15143000") = parseTimestamp (ascii "230015143000")) ∧
    (12 ≤ (ascii "xx0615143000").length ∧
      (¬ ∀ x ∈ fieldBytes (ascii "xx0615143000") 0, isDigit x = true) ∧
      parseTimestamp (ascii "xx0615143000") = some (dateUnix 0 6 15 14 30 0) ∧
      dateUnix 0 6 15 14 30 0 = -62152824600) :=
  ⟨⟨by decide, by decide,
    (parseTimestamp_bad_field (ascii "23xx15143000") (by decide)).2.1 2 (by decide)
      (by decide)⟩,
   ⟨by decide, by decide,
    (parseTimestamp_bad_field (ascii "xx0615143000") (by decide)).2.2.2 (by decide),
    by decide⟩⟩

/-- C12 as stated fails for the year: in `xx0615143000` the text `20xx` does not
parse, the year is 0 and the result is the instant 0000-06-15T14:30:00Z, not the
result for `000615143000` (2000-06-15T14:30:00Z). -/
theorem parseTimestamp_bad_year :
    (atoi (ascii "xx")).2 = false ∧
    parseTimestamp (ascii "xx0615143000") = some (-62152824600) ∧
    parseTimestamp (ascii "000615143000") = some 961079400 ∧
    parseTimestamp (ascii "xx0615143000") ≠ parseTimestamp (ascii "000615143000") := by
  decide

/-! ## `hashString` -/

theorem wrap64_step (a : Int) (c : Int) : wrap64 (wrap64 a * 31 + c) = wrap64 (a * 31 + c) := by
  unfold wrap64
  omega

theorem hashLoop_eq_foldl (n : Nat) (h : Int) (s : Str) :
    hashLoop n h s = (runesAux n s).foldl (fun (h : Int) (c : Nat) => wrap64 (h * 31 + (c : Int))) h := by
  induction n generalizing h s with
  | zero => rfl
  | succ n ih =>
    rcases s with _ | ⟨c, t⟩
    · rfl
    · unfold hashLoop runesAux
      dsimp only
      rw [List.foldl_cons]
      exact ih _ _

theorem foldl_wrap (cs : List Nat) (a : Int) :
    cs.foldl (fun (h : Int) (c : Nat) => wrap64 (h * 31 + (c : Int))) (wrap64 a) =
      wrap64 (cs.foldl (fun (h : Int) (c : Nat) => h * 31 + (c : Int)) a) := by
  induction cs generalizing a with
  | nil => rfl
  | cons c cs ih =>
    rw [List.foldl_cons, List.foldl_cons, wrap64_step, ih]

theorem foldl_poly (cs : List Nat) (a : Int) :
    cs.foldl (fun (h : Int) (c : Nat) => h * 31 + (c : Int)) a = a * 31 ^ cs.length + polySum cs := by
  induction cs generalizing a with
  | nil => simp [polySum]
  | cons c cs ih =>
    rw [List.foldl_cons, ih, polySum, List.length_cons, pow_succ]
    ring

theorem polySum_append (cs : List Nat) (c : Nat) :
    polySum (cs ++ [c]) = polySum cs * 31 + (c : Int) := by
  induction cs with
  | nil => simp [polySum]
  | cons d cs ih =>
    rw [List.cons_append, polySum, polySum, ih, List.length_append, List.length_singleton,
      pow_succ]
    ring

theorem hashString_eq (s : Str) : hashString s = wrap64 (polySum (runes s)) := by
  have h0 : wrap64 0 = 0 := by decide
  unfold hashString runes
  rw [hashLoop_eq_foldl]
  conv_lhs => rw [← h0]
  rw [foldl_wrap, foldl_poly]
  simp

/-- The runes of an ASCII string are its bytes. -/
theorem runesAux_ascii (n : Nat) (s : Str) (hn : s.length ≤ n) (h : ∀ b ∈ s, b < 0x80) :
    runesAux n s = s := by
  induction n generalizing s with
  | zero =>
    have : s = [] := List.length_eq_zero.1 (by omega)
    subst this; rfl
  | succ n ih =>
    rcases s with _ | ⟨c, t⟩
    · rfl
    · unfold runesAux
      dsimp only
      rw [decodeRune_ascii c t (h c (by simp))]
      simp only [List.drop_succ_cons, List.drop_zero]
      rw [ih t (by simp only [List.length_cons] at hn; omega) (fun b hb => h b (by simp [hb]))]

/-- Helper: `strings.TrimSpace` leaves a string alone that starts and ends with a
byte that is not a white-space byte. -/
theorem trimSpace_id (s : Str) (h1 : s.head?.map spaceByte = some false)
    (h2 : s.getLast?.map spaceByte = some false) : trimSpace s = s := by
  obtain ⟨a, b, hs, ha, hb⟩ := trimSpace_spec s
  have hne : s ≠ [] := by rintro rfl; simp at h1
  have ha' : a = [] := by
    rcases a with _ | ⟨a0, a'⟩
    · rfl
    · exfalso
      rw [hs] at h1
      simp only [List.cons_append, List.head?_cons, Option.map_some', Option.some.injEq] at h1
      rw [ha a0 (by simp)] at h1
      exact Bool.noConfusion h1
  have hb' : b = [] := by
    rcases List.eq_nil_or_concat b with h | ⟨b', x, h⟩
    · exact h
    · exfalso
      have hl : s.getLast? = some x := by
        rw [hs, h, List.concat_eq_append, ← List.append_assoc, List.getLast?_append,
          List.getLast?_singleton]
        rfl
      rw [hl] at h2
      simp only [Option.map_some', Option.some.injEq] at h2
      rw [hb x (by rw [h, List.concat_eq_append]; simp)] at h2
      exact Bool.noConfusion h2
  rw [ha', hb', List.nil_append, List.append_nil] at hs
  exact hs.symm

/-- The text located by `extractValueText` in a line `a ++ "(" ++ p ++ ")" ++ t`
with no delimiter in `a` and no `)` in `p`. -/
theorem extractValueText_located (a p t : Str) (ha : 0x28 ∉ a) (hb : 0x29 ∉ a)
    (hp : 0x29 ∉ p) :
    extractValueText (a ++ 0x28 :: (p ++ 0x29 :: t)) = some p := by
  have h1 : index (a ++ 0x28 :: (p ++ 0x29 :: t)) 0x28 = (a.length : Int) :=
    index_append a _ 0x28 ha
  have h2 : index (a ++ 0x28 :: (p ++ 0x29 :: t)) 0x29 = ((a ++ 0x28 :: p).length : Int) := by
    have hn : 0x29 ∉ a ++ 0x28 :: p := by
      simp only [List.mem_append, List.mem_cons, not_or]
      exact ⟨hb, by decide, hp⟩
    have := index_append (a ++ 0x28 :: p) t 0x29 hn
    simpa using this
  have e2 : (((a ++ 0x28 :: p).length : Nat) : Int) = (a.length : Int) + 1 + p.length := by
    simp only [List.length_append, List.length_cons, Nat.cast_add, Nat.cast_one]; omega
  unfold extractValueText
  simp only [h1, h2]
  by_cases hne : p = []
  · subst hne
    rw [if_pos (Or.inr (Or.inr (by rw [e2]; simp)))]
  · have hlen : 0 < p.length := List.length_pos.2 hne
    rw [if_neg (by rw [e2]; omega)]
    have := slice_mid (a ++ [0x28]) p (0x29 :: t)
    have e1 : (((a ++ [0x28]).length : Nat) : Int) = (a.length : Int) + 1 := by simp
    rw [e1] at this
    rw [e2]
    simpa using this

/-- What the dispatcher does with a line `code ++ payload ++ ")"` of the table:
the line is not changed by the trimming and the entry of the code is applied. -/
theorem parseAndSetMetrics_code_line (r : Registry) (e : Entry) (he : e ∈ codeTable)
    (p : Str) (hnl : 10 ∉ p) :
    parseAndSetMetrics (e.code ++ (p ++ [0x29])) r =
      (entryValue e.kind (e.code ++ (p ++ [0x29]))).map fun v => r.set e.series v := by
  obtain ⟨s1, s2, -⟩ := codeTable_shape e he
  have hcode : ∀ e ∈ codeTable, 10 ∉ e.code := by decide
  have hne : e.code ≠ [] := (codeTable_structural e he).1
  have ht : trimSpace (e.code ++ (p ++ [0x29])) = e.code ++ (p ++ [0x29]) := by
    apply trimSpace_id
    · rw [List.head?_append_of_ne_nil _ hne]; exact s1
    · rw [← List.append_assoc, List.getLast?_append, List.getLast?_singleton]
      rfl
  have hnl' : 10 ∉ e.code ++ (p ++ [0x29]) := by
    simp only [List.mem_append, List.mem_singleton, not_or]
    exact ⟨hcode e he, hnl, by decide⟩
  have hp : hasPrefix (trimSpace (e.code ++ (p ++ [0x29]))) e.code = true := by
    rw [ht, hasPrefix_iff]
    exact List.prefix_append _ _
  rw [parseAndSetMetrics_single _ r hnl', dispatchTable_of_code r _ e he hp, ht]

theorem meter_line_text (id : Str) (h1 : 0x29 ∉ id) :
    extractValueText (ascii "0-0:96.1.0(" ++ (id ++ [0x29])) = some id := by
  have e : ascii "0-0:96.1.0(" ++ (id ++ [0x29]) =
      ascii "0-0:96.1.0" ++ 0x28 :: (id ++ 0x29 :: []) := by
    have : ascii "0-0:96.1.0(" = ascii "0-0:96.1.0" ++ [0x28] := by decide
    rw [this]; simp
  rw [e]
  exact extractValueText_located _ id [] (by decide) (by decide) h1

/-- C13, as amended. The identity surrogate is the base-31 polynomial hash in
64-bit arithmetic: `hashString("")` is 0; for every string `s`, `hashString(s)`
is the sum of `c_i * 31^(n-i)` over the runes `c_1 .. c_n` of `s` (its bytes
when `s` is ASCII), reduced modulo `2^64` and read as a signed integer;
appending a rune `c` turns the hash `h` into `h * 31 + c` with wrap-around; and
a line `0-0:96.1.0(` ++ id ++ `)` writes `float64(hashString(id))`, the binary64
value nearest to the hash, to the series `meter_id{device=meter}`: the hash
itself when its magnitude is at most `2^53`. -/
theorem hashString_polynomial (s id : Str) (r : Registry) (h1 : 0x29 ∉ id) (h2 : 10 ∉ id) :
    hashString [] = 0 ∧
    hashString s = wrap64 (polySum (runes s)) ∧
    ((∀ b ∈ s, b < 0x80) → runes s = s) ∧
    (∀ (cs : List Nat) (c : Nat),
      wrap64 (polySum (cs ++ [c])) = wrap64 (wrap64 (polySum cs) * 31 + (c : Int))) ∧
    parseAndSetMetrics (ascii "0-0:96.1.0(" ++ (id ++ [0x29])) r =
      some (r.set ⟨"elcentral_meter_id", ["meter"]⟩
        (F64.num (roundF64 ((hashString id : Int) : ℚ)))) ∧
    (|hashString id| ≤ 2 ^ 53 → roundF64 ((hashString id : Int) : ℚ) = (hashString id : Int)) := by
  refine ⟨by decide, hashString_eq s, fun h => runesAux_ascii _ s (le_refl _) h, ?_, ?_,
    fun h => roundF64_int _ h⟩
  · intro cs c
    rw [polySum_append, wrap64_step]
  · have he : (⟨ascii "0-0:96.1.0(", ⟨"elcentral_meter_id", ["meter"]⟩, ["device"],
        Kind.identity⟩ : Entry) ∈ codeTable := by decide
    have := parseAndSetMetrics_code_line r _ he id h2
    simp only [entryValue] at this
    rw [this, meter_line_text id h1]
    rfl

set_option maxRecDepth 100000 in
/-- An instance of C13 as amended: the identification `12345678`, whose hash
1394003017860 is below `2^53` and is written as it is. -/
theorem hashString_polynomial_witness :
    (0x29 ∉ ascii "12345678" ∧ 10 ∉ ascii "12345678") ∧
    hashString (ascii "12345678") = wrap64 (polySum (runes (ascii "12345678"))) ∧
    hashString (ascii "12345678") = 1394003017860 ∧
    parseAndSetMetrics (ascii "0-0:96.1.0(" ++ (ascii "12345678" ++ [0x29])) emptyRegistry =
      some (emptyRegistry.set ⟨"elcentral_meter_id", ["meter"]⟩
        (F64.num (roundF64 ((hashString (ascii "12345678") : Int) : ℚ)))) ∧
    roundF64 ((hashString (ascii "12345678") : Int) : ℚ) =
      (hashString (ascii "12345678") : Int) :=
  ⟨⟨by decide, by decide⟩,
    (hashString_polynomial (ascii "12345678") (ascii "12345678") emptyRegistry (by decide)
      (by decide)).2.1,
    by decide,
    (hashString_polynomial (ascii "12345678") (ascii "12345678") emptyRegistry (by decide)
      (by decide)).2.2.2.2.1,
    (hashString_polynomial (ascii "12345678") (ascii "12345678") emptyRegistry (by decide)
      (by decide)).2.2.2.2.2 (by decide)⟩

theorem roundF64_meter_hash :
    roundF64 ((710599457808053642 : Int) : ℚ) = 710599457808053632 := by
  have h := roundF64_normal ((710599457808053642 : Int) : ℚ) 59 (by norm_num [abs_of_pos])
    (by norm_num [abs_of_pos]) (by norm_num)
  have e : roundHalfEven (((710599457808053642 : Int) : ℚ) / 2 ^ ((59 : Int) - 52)) =
      5551558264125419 := by
    apply roundHalfEven_eval
    norm_num [abs_lt]
  rw [h, e]
  norm_num

set_option maxRecDepth 100000 in
/-- C13 as stated fails for a hash above `2^53`: for the identification
`E0023000067890123` the hash is 710599457808053642, and the line writes
`float64` of it, 710599457808053632, to the series, not the hash. -/
theorem hashString_not_written_exactly :
    (0x29 ∉ ascii "E0023000067890123" ∧ 10 ∉ ascii "E0023000067890123") ∧
    hashString (ascii "E0023000067890123") = 710599457808053642 ∧
    parseAndSetMetrics (ascii "0-0:96.1.0(E0023000067890123)") emptyRegistry =
      some (emptyRegistry.set ⟨"elcentral_meter_id", ["meter"]⟩ (F64.num 710599457808053632)) ∧
    parseAndSetMetrics (ascii "0-0:96.1.0(E0023000067890123)") emptyRegistry ≠
      some (emptyRegistry.set ⟨"elcentral_meter_id", ["meter"]⟩
        (F64.num ((hashString (ascii "E0023000067890123") : Int) : ℚ))) := by
  have hh : hashString (ascii "E0023000067890123") = 710599457808053642 := by decide
  have he : (⟨ascii "0-0:96.1.0(", ⟨"elcentral_meter_id", ["meter"]⟩, ["device"],
      Kind.identity⟩ : Entry) ∈ codeTable := by decide
  have hp : parseAndSetMetrics (ascii "0-0:96.1.0(E0023000067890123)") emptyRegistry =
      some (emptyRegistry.set ⟨"elcentral_meter_id", ["meter"]⟩
        (F64.num 710599457808053632)) := by
    have := parseAndSetMetrics_code_line emptyRegistry _ he (ascii "E0023000067890123")
      (by decide)
    simp only [entryValue] at this
    have e : ascii "0-0:96.1.0(E0023000067890123)" =
        ascii "0-0:96.1.0(" ++ (ascii "E0023000067890123" ++ [0x29]) := by decide
    rw [e, this, meter_line_text _ (by decide)]
    simp only [Option.map_some', F64.ofInt, hh, roundF64_meter_hash]
  refine ⟨⟨by decide, by decide⟩, hh, hp, ?_⟩
  rw [hp, hh]
  intro h
  have h2 := congrFun (Option.some.inj h) ⟨"elcentral_meter_id", ["meter"]⟩
  rw [set_same, set_same] at h2
  exact absurd (F64.num.inj (Option.some.inj h2)) (by norm_num)

/-! ## The timestamp line -/

theorem trimSuffix_keeps (d m1 : Str) (hd : ∀ x ∈ d, isDigit x = true) :
    ∃ m2, trimSuffix (d ++ m1) (ascii "W") = d ++ m2 := by
  have hW : ascii "W" = [0x57] := by decide
  unfold trimSuffix
  rw [hW]
  by_cases hs : ([0x57] : Str).isSuffixOf (d ++ m1) = true
  · rw [if_pos hs]
    rw [List.isSuffixOf_iff_suffix] at hs
    rcases List.eq_nil_or_concat m1 with h | ⟨m0, x, h⟩
    · exfalso
      subst h
      rw [List.append_nil] at hs
      have : (0x57 : Nat) ∈ d := hs.subset (by simp)
      have := hd _ this
      simp [isDigit] at this
    · refine ⟨m0, ?_⟩
      rw [h, List.concat_eq_append, ← List.append_assoc]
      have : ((d ++ m0) ++ [x]).length - ([0x57] : Str).length = (d ++ m0).length := by simp
      rw [this, List.take_left' rfl]
  · rw [if_neg hs]
    exact ⟨m1, rfl⟩

theorem parseTimestamp_append (d x : Str) (hd : d.length = 12) :
    parseTimestamp (d ++ x) = parseTimestamp d := by
  obtain ⟨a0, a1, a2, a3, a4, a5, a6, a7, a8, a9, a10, a11, rfl⟩ := list_length_twelve d hd
  have := parseTimestamp_cons a0 a1 a2 a3 a4 a5 a6 a7 a8 a9 a10 a11 x
  have h2 := parseTimestamp_cons a0 a1 a2 a3 a4 a5 a6 a7 a8 a9 a10 a11 []
  simp only [List.cons_append, List.nil_append]
  rw [this, h2]

/-- The text that `extractValueText` finds in a timestamp line starts with the 12
digits. -/
theorem timestamp_line_text (d m : Str) (hd : ∀ x ∈ d, isDigit x = true) :
    ∃ m1, extractValueText (ascii "0-0:1.0.0(" ++ (d ++ m ++ [0x29])) = some (d ++ m1) := by
  have hc : ascii "0-0:1.0.0(" = ascii "0-0:1.0.0" ++ [0x28] := by decide
  have hd9 : 0x29 ∉ d := fun h => by
    have := hd _ h
    simp [isDigit] at this
  by_cases hm : 0x29 ∈ m
  · obtain ⟨m1, m2, rfl, hm1⟩ := List.eq_append_cons_of_mem hm
    refine ⟨m1, ?_⟩
    have e : ascii "0-0:1.0.0(" ++ (d ++ (m1 ++ 0x29 :: m2) ++ [0x29]) =
        ascii "0-0:1.0.0" ++ 0x28 :: ((d ++ m1) ++ 0x29 :: (m2 ++ [0x29])) := by
      rw [hc]; simp
    rw [e]
    exact extractValueText_located _ (d ++ m1) _ (by decide) (by decide)
      (by simp only [List.mem_append, not_or]; exact ⟨hd9, hm1⟩)
  · refine ⟨m, ?_⟩
    have e : ascii "0-0:1.0.0(" ++ (d ++ m ++ [0x29]) =
        ascii "0-0:1.0.0" ++ 0x28 :: ((d ++ m) ++ 0x29 :: []) := by
      rw [hc]; simp
    rw [e]
    exact extractValueText_located _ (d ++ m) _ (by decide) (by decide)
      (by simp only [List.mem_append, not_or]; exact ⟨hd9, hm⟩)

theorem timestamp_line (r : Registry) (d m : Str) (hlen : d.length = 12)
    (hd : ∀ x ∈ d, isDigit x = true) (hm : 10 ∉ m) :
    parseAndSetMetrics (ascii "0-0:1.0.0(" ++ (d ++ m ++ [0x29])) r =
      (parseTimestamp d).map fun v =>
        r.set ⟨"elcentral_timestamp", ["meter"]⟩ (F64.ofInt v) := by
  have he : (⟨ascii "0-0:1.0.0(", ⟨"elcentral_timestamp", ["meter"]⟩, ["device"],
      Kind.timestamp⟩ : Entry) ∈ codeTable := by decide
  have hnl : 10 ∉ d ++ m := by
    simp only [List.mem_append, not_or]
    refine ⟨fun h => ?_, hm⟩
    have := hd _ h
    simp [isDigit] at this
  have := parseAndSetMetrics_code_line r _ he (d ++ m) hnl
  simp only [entryValue] at this
  obtain ⟨m1, h1⟩ := timestamp_line_text d m hd
  obtain ⟨m2, h2⟩ := trimSuffix_keeps d m1 hd
  rw [this, h1]
  simp only [Option.some_bind, h2, parseTimestamp_append d m2 hlen]
  cases parseTimestamp d <;> rfl

/-- C14. For every string `d` of 12 ASCII digits and every marker `m` without a
line break (any single character, `W` and `S` among them), dispatching
`0-0:1.0.0(` ++ d ++ m ++ `)` sets `timestamp{device=meter}` to
`parseTimestamp(d)`, the value that dispatching `0-0:1.0.0(` ++ d ++ `)`
sets. -/
theorem parseAndSetMetrics_marker (r : Registry) (d m : Str) (hlen : d.length = 12)
    (hd : ∀ x ∈ d, isDigit x = true) (hm : 10 ∉ m) :
    ∃ v, parseTimestamp d = some v ∧
      parseAndSetMetrics (ascii "0-0:1.0.0(" ++ (d ++ m ++ [0x29])) r =
        some (r.set ⟨"elcentral_timestamp", ["meter"]⟩ (F64.num v)) ∧
      parseAndSetMetrics (ascii "0-0:1.0.0(" ++ (d ++ [0x29])) r =
        some (r.set ⟨"elcentral_timestamp", ["meter"]⟩ (F64.num v)) := by
  obtain ⟨v, hv⟩ := parseTimestamp_total d
  have hex : F64.ofInt v = F64.num v := ofInt_parseTimestamp d v hv
  refine ⟨v, hv, ?_, ?_⟩
  · rw [timestamp_line r d m hlen hd hm, hv, ← hex]
    rfl
  · have := timestamp_line r d [] hlen hd (by simp)
    rw [List.append_nil] at this
    rw [this, hv, ← hex]
    rfl

/-- The instances of C14 with the markers `W` and `S` on the timestamp
`230615143000`. -/
theorem parseAndSetMetrics_marker_witness :
    ((ascii "230615143000").length = 12 ∧ (∀ x ∈ ascii "230615143000", isDigit x = true) ∧
      10 ∉ ascii "W" ∧ 10 ∉ ascii "S") ∧
    (∃ v, parseTimestamp (ascii "230615143000") = some v ∧
      parseAndSetMetrics (ascii "0-0:1.0.0(" ++ (ascii "230615143000" ++ ascii "W" ++ [0x29]))
        emptyRegistry = some (emptyRegistry.set ⟨"elcentral_timestamp", ["meter"]⟩ (F64.num v)) ∧
      parseAndSetMetrics (ascii "0-0:1.0.0(" ++ (ascii "230615143000" ++ [0x29]))
        emptyRegistry = some (emptyRegistry.set ⟨"elcentral_timestamp", ["meter"]⟩ (F64.num v))) ∧
    (∃ v, parseTimestamp (ascii "230615143000") = some v ∧
      parseAndSetMetrics (ascii "0-0:1.0.0(" ++ (ascii "230615143000" ++ ascii "S" ++ [0x29]))
        emptyRegistry = some (emptyRegistry.set ⟨"elcentral_timestamp", ["meter"]⟩ (F64.num v)) ∧
      parseAndSetMetrics (ascii "0-0:1.0.0(" ++ (ascii "230615143000" ++ [0x29]))
        emptyRegistry = some (emptyRegistry.set ⟨"elcentral_timestamp", ["meter"]⟩ (F64.num v))) :=
  ⟨⟨by decide, by decide, by decide, by decide⟩,
    parseAndSetMetrics_marker emptyRegistry (ascii "230615143000") (ascii "W") (by decide)
      (by decide) (by decide),
    parseAndSetMetrics_marker emptyRegistry (ascii "230615143000") (ascii "S") (by decide)
      (by decide) (by decide)⟩

/-! ## Scanning stops at a delimiter -/

/-- An ASCII byte after a non-empty string does not change the first rune of the
string. -/
theorem decodeRune_append (s0 : Nat) (t r : Str) (z : Nat) (hz : z < 0x80) :
    decodeRune (s0 :: t ++ z :: r) = decodeRune (s0 :: t) := by
  rw [List.cons_append]
  by_cases h0 : s0 < 0x80
  · rw [decodeRune_ascii s0 _ h0, decodeRune_ascii s0 _ h0]
  · unfold decodeRune
    simp only [h0, if_false]
    generalize hsz' : (if s0 < 224 then 2 else if s0 < 240 then 3 else 4) = sz
    generalize hlo' : (if s0 = 224 then 160 else if s0 = 240 then 144 else 128) = lo
    generalize (if s0 = 237 then 159 else if s0 = 244 then 143 else 191) = hi
    have hlo : 0x80 ≤ lo := by
      rw [← hlo']; split_ifs <;> omega
    have hsz : sz = 2 ∨ sz = 3 ∨ sz = 4 := by
      rw [← hsz']; split_ifs <;> simp
    have hzlo : z < lo ∨ hi < z := Or.inl (by omega)
    have hz2 : z < 0x80 ∨ 0xBF < z := Or.inl hz
    by_cases hx : s0 < 0xC2 ∨ 0xF4 < s0
    · rw [if_pos hx, if_pos hx]
    · rw [if_neg hx, if_neg hx]
      rcases t with _ | ⟨s1, t1⟩
      · simp only [List.nil_append, if_pos hzlo, ite_self]
      · simp only [List.cons_append]
        by_cases h1 : s1 < lo ∨ hi < s1
        · simp only [if_pos h1, ite_self]
        · simp only [if_neg h1]
          by_cases hs2 : sz ≤ 2
          · have e1 : ¬ (s0 :: s1 :: (t1 ++ z :: r)).length < sz := by
              simp only [List.length_cons]; omega
            have e2 : ¬ (s0 :: s1 :: t1).length < sz := by
              simp only [List.length_cons]; omega
            simp only [if_pos hs2, if_neg e1, if_neg e2]
          · simp only [if_neg hs2]
            rcases t1 with _ | ⟨s2, t2⟩
            · simp only [List.nil_append, if_pos hz2, ite_self]
            · simp only [List.cons_append]
              by_cases h2 : s2 < 0x80 ∨ 0xBF < s2
              · simp only [if_pos h2, ite_self]
              · simp only [if_neg h2]
                by_cases hs3 : sz ≤ 3
                · have e1 : ¬ (s0 :: s1 :: s2 :: (t2 ++ z :: r)).length < sz := by
                    simp only [List.length_cons]; omega
                  have e2 : ¬ (s0 :: s1 :: s2 :: t2).length < sz := by
                    simp only [List.length_cons]; omega
                  simp only [if_pos hs3, if_neg e1, if_neg e2]
                · simp only [if_neg hs3]
                  rcases t2 with _ | ⟨s3, t3⟩
                  · simp only [List.nil_append, if_pos hz2, ite_self]
                  · simp only [List.cons_append]
                    have e1 : ¬ (s0 :: s1 :: s2 :: s3 :: (t3 ++ z :: r)).length < sz := by
                      simp only [List.length_cons]; omega
                    have e2 : ¬ (s0 :: s1 :: s2 :: s3 :: t3).length < sz := by
                      simp only [List.length_cons]; omega
                    simp only [if_neg e1, if_neg e2]

/-- The width of the first rune is at most the length of the string. -/
theorem decodeRune_le (s0 : Nat) (t : Str) : (decodeRune (s0 :: t)).2 ≤ (s0 :: t).length := by
  by_cases h0 : s0 < 0x80
  · rw [decodeRune_ascii s0 t h0]
    simp
  · rcases decodeRune_multi s0 t h0 with he | ⟨-, h1, -⟩
    · rw [he]
      simp
    · exact h1

/-- The space skipped before the verb is the same when `)` or `*` and further
text follow the string. -/
theorem skipSpaceAux_append (z : Nat) (hz : z = 0x29 ∨ z = 0x2A) (r : Str) :
    ∀ (k : Nat) (p : Str) (n m : Nat), p.length ≤ k → p.length ≤ n → p.length < m →
      skipSpaceAux m (p ++ z :: r) = (skipSpaceAux n p).map fun s => s ++ z :: r := by
  have hz80 : z < 0x80 := by rcases hz with rfl | rfl <;> decide
  have hzA : z ≠ 0x0A := by rcases hz with rfl | rfl <;> decide
  have hzD : z ≠ 0x0D := by rcases hz with rfl | rfl <;> decide
  have hzS : isSpace z = false := by rcases hz with rfl | rfl <;> decide
  intro k
  induction k with
  | zero =>
    intro p n m hk hn hm
    have hp : p = [] := List.length_eq_zero.1 (Nat.le_zero.1 hk)
    subst hp
    obtain ⟨m1, rfl⟩ : ∃ m1, m = m1 + 1 := ⟨m - 1, by simp at hm; omega⟩
    have e1 : skipSpaceAux n [] = some [] := by cases n <;> rfl
    rw [e1]
    simp only [List.nil_append, Option.map_some']
    unfold skipSpaceAux
    simp only [decodeRune_ascii z r hz80, hzD, hzA, hzS, false_and, if_false,
      Bool.false_eq_true]
  | succ k ih =>
    intro p n m hk hn hm
    rcases p with _ | ⟨b, t⟩
    · exact ih [] n m (Nat.zero_le _) (Nat.zero_le _) hm
    · obtain ⟨m1, rfl⟩ : ∃ m1, m = m1 + 1 := ⟨m - 1, by omega⟩
      obtain ⟨n1, rfl⟩ : ∃ n1, n = n1 + 1 := ⟨n - 1, by simp at hn; omega⟩
      have hd := decodeRune_append b t r z hz80
      have hw1 := decodeRune_width b t
      have hw2 := decodeRune_le b t
      rw [List.cons_append] at hd
      simp only [List.cons_append]
      unfold skipSpaceAux
      simp only [hd]
      generalize decodeRune (b :: t) = d at hw1 hw2
      have hdrop : (b :: (t ++ z :: r)).drop d.2 = (b :: t).drop d.2 ++ z :: r := by
        rw [← List.cons_append, List.drop_append_of_le_length hw2]
      rw [hdrop]
      have hlen : ((b :: t).drop d.2).length ≤ t.length := by
        rw [List.length_drop]
        simp only [List.length_cons] at hw2 ⊢
        omega
      generalize (b :: t).drop d.2 = u at hlen
      have hhead : ((u ++ z :: r).head? = some 0x0A) ↔ (u.head? = some 0x0A) := by
        rcases u with _ | ⟨x, u1⟩
        · simp [hzA]
        · simp
      simp only [List.length_cons] at hk hn hm
      have hrec := ih u n1 m1 (by omega) (by omega) (by omega)
      simp only [hhead]
      by_cases c1 : d.1 = 0x0D ∧ u.head? = some 0x0A
      · rw [if_pos c1, if_pos c1]
        exact hrec
      · rw [if_neg c1, if_neg c1]
        by_cases c2 : d.1 = 0x0A
        · rw [if_pos c2, if_pos c2]
          rfl
        · rw [if_neg c2, if_neg c2]
          by_cases c3 : isSpace d.1 = true
          · rw [if_pos c3, if_pos c3]
            exact hrec
          · rw [if_neg c3, if_neg c3]
            rfl

theorem skipSpace_append (z : Nat) (hz : z = 0x29 ∨ z = 0x2A) (p r : Str) :
    skipSpace (p ++ z :: r) = (skipSpace p).map fun s => s ++ z :: r := by
  unfold skipSpace
  exact skipSpaceAux_append z hz r p.length p p.length _ (le_refl _) (le_refl _)
    (by simp)

theorem accept_append (ok : Str) (z : Nat) (r : Str) (hz : z ∉ ok) (sc sc1 : Str × Str)
    (h : sc1.1 = sc.1 ∧ sc1.2 = sc.2 ++ z :: r) :
    (accept ok sc1).1 = (accept ok sc).1 ∧ (accept ok sc1).2.1 = (accept ok sc).2.1 ∧
      (accept ok sc1).2.2 = (accept ok sc).2.2 ++ z :: r := by
  obtain ⟨buf, rest⟩ := sc
  obtain ⟨buf1, rest1⟩ := sc1
  obtain ⟨h1, h2⟩ := h
  simp only at h1 h2
  subst h1 h2
  rcases rest with _ | ⟨b, t⟩
  · rw [List.nil_append, accept_cons_neg _ _ _ _ hz, accept_nil]
    exact ⟨rfl, rfl, rfl⟩
  · rw [List.cons_append]
    by_cases hb : b ∈ ok
    · rw [accept_cons_pos _ _ _ _ hb, accept_cons_pos _ _ _ _ hb]
      exact ⟨rfl, rfl, rfl⟩
    · rw [accept_cons_neg _ _ _ _ hb, accept_cons_neg _ _ _ _ hb]
      exact ⟨rfl, rfl, rfl⟩

theorem guard_append (ok : Str) (z : Nat) (r : Str) (hz : z ∉ ok) (b b1 : Bool)
    (sc sc1 : Str × Str) (hb : b1 = b) (h : sc1.1 = sc.1 ∧ sc1.2 = sc.2 ++ z :: r) :
    (if b1 = true then accept ok sc1 else (false, sc1)).1 =
        (if b = true then accept ok sc else (false, sc)).1 ∧
      (if b1 = true then accept ok sc1 else (false, sc1)).2.1 =
        (if b = true then accept ok sc else (false, sc)).2.1 ∧
      (if b1 = true then accept ok sc1 else (false, sc1)).2.2 =
        (if b = true then accept ok sc else (false, sc)).2.2 ++ z :: r := by
  subst hb
  cases b1
  · exact ⟨rfl, h.1, h.2⟩
  · exact accept_append ok z r hz sc sc1 h

theorem takeWhile_append_stop (ok : Str) (z : Nat) (r : Str) (hz : z ∉ ok) (rest : Str) :
    (rest ++ z :: r).takeWhile (fun b => decide (b ∈ ok)) =
      rest.takeWhile (fun b => decide (b ∈ ok)) := by
  induction rest with
  | nil => simp [hz]
  | cons x xs ih =>
    simp only [List.cons_append, List.takeWhile_cons]
    split
    · rw [ih]
    · rfl

theorem dropWhile_append_stop (ok : Str) (z : Nat) (r : Str) (hz : z ∉ ok) (rest : Str) :
    (rest ++ z :: r).dropWhile (fun b => decide (b ∈ ok)) =
      rest.dropWhile (fun b => decide (b ∈ ok)) ++ z :: r := by
  induction rest with
  | nil => simp [hz]
  | cons x xs ih =>
    simp only [List.cons_append, List.dropWhile_cons]
    split
    · rw [ih]
    · rfl

theorem acceptAll_append (ok : Str) (z : Nat) (r : Str) (hz : z ∉ ok) (sc sc1 : Str × Str)
    (h : sc1.1 = sc.1 ∧ sc1.2 = sc.2 ++ z :: r) :
    (acceptAll ok sc1).1 = (acceptAll ok sc).1 ∧
      (acceptAll ok sc1).2 = (acceptAll ok sc).2 ++ z :: r := by
  obtain ⟨buf, rest⟩ := sc
  obtain ⟨buf1, rest1⟩ := sc1
  obtain ⟨h1, h2⟩ := h
  simp only at h1 h2
  subst h1 h2
  simp only [acceptAll, takeWhile_append_stop ok z r hz, dropWhile_append_stop ok z r hz,
    and_self]

theorem guardAll_append (ok : Str) (z : Nat) (r : Str) (hz : z ∉ ok) (b b1 : Bool)
    (sc sc1 : Str × Str) (hb : b1 = b) (h : sc1.1 = sc.1 ∧ sc1.2 = sc.2 ++ z :: r) :
    (if b1 = true then acceptAll ok sc1 else sc1).1 =
        (if b = true then acceptAll ok sc else sc).1 ∧
      (if b1 = true then acceptAll ok sc1 else sc1).2 =
        (if b = true then acceptAll ok sc else sc).2 ++ z :: r := by
  subst hb
  cases b1
  · exact h
  · exact acceptAll_append ok z r hz sc sc1 h

/-- The token scanned is the same when `)` or `*` and further text follow the
string: neither byte belongs to a number. -/
theorem floatToken_append (z : Nat) (hz : z = 0x29 ∨ z = 0x2A) (p r : Str) :
    floatToken (p ++ z :: r) = floatToken p := by
  have z1 : z ∉ ascii "nN" := by rcases hz with rfl | rfl <;> decide
  have z2 : z ∉ ascii "aA" := by rcases hz with rfl | rfl <;> decide
  have z3 : z ∉ ascii "+-" := by rcases hz with rfl | rfl <;> decide
  have z4 : z ∉ ascii "iI" := by rcases hz with rfl | rfl <;> decide
  have z5 : z ∉ ascii "fF" := by rcases hz with rfl | rfl <;> decide
  have z6 : z ∉ ascii "0" := by rcases hz with rfl | rfl <;> decide
  have z7 : z ∉ ascii "xX" := by rcases hz with rfl | rfl <;> decide
  have z8 : z ∉ ascii "0123456789aAbBcCdDeEfF_" := by rcases hz with rfl | rfl <;> decide
  have z9 : z ∉ ascii "0123456789_" := by rcases hz with rfl | rfl <;> decide
  have z10 : z ∉ ascii "pP" := by rcases hz with rfl | rfl <;> decide
  have z11 : z ∉ ascii "eEpP" := by rcases hz with rfl | rfl <;> decide
  have z12 : z ∉ ascii "." := by rcases hz with rfl | rfl <;> decide
  unfold floatToken
  lift_lets
  intro s0 a1 a2 a3 s4 b1 b2 b3 c1 c2 digits exp s10 d1 s12 e1 s14
  intro t0 A1 A2 A3 t4 B1 B2 B3 C1 C2 digits1 exp1 t10 D1 t12 E1 t14
  have q1 := accept_append (ascii "nN") z r z1 t0 s0 ⟨rfl, rfl⟩
  have q2 := guard_append (ascii "aA") z r z2 A1.1 a1.1 A1.2 a1.2 q1.1 q1.2
  have q3 := guard_append (ascii "nN") z r z1 A2.1 a2.1 A2.2 a2.2 q2.1 q2.2
  have q4 := accept_append (ascii "+-") z r z3 A3.2 a3.2 q3.2
  have q5 := accept_append (ascii "iI") z r z4 t4 s4 q4.2
  have q6 := guard_append (ascii "nN") z r z1 B1.1 b1.1 B1.2 b1.2 q5.1 q5.2
  have q7 := guard_append (ascii "fF") z r z5 B2.1 b2.1 B2.2 b2.2 q6.1 q6.2
  have q8 := accept_append (ascii "0") z r z6 B3.2 b3.2 q7.2
  have q9 := guard_append (ascii "xX") z r z7 C1.1 c1.1 C1.2 c1.2 q8.1 q8.2
  have hdig : digits = digits1 := by
    show (if c2.1 = true then _ else _) = (if C2.1 = true then _ else _)
    rw [q9.1]
  have hexp : exp = exp1 := by
    show (if c2.1 = true then _ else _) = (if C2.1 = true then _ else _)
    rw [q9.1]
  have zd : z ∉ digits1 := by
    show z ∉ (if C2.1 = true then _ else _)
    split
    · exact z8
    · exact z9
  have ze : z ∉ exp1 := by
    show z ∉ (if C2.1 = true then _ else _)
    split
    · exact z10
    · exact z11
  have q10 : s10.1 = t10.1 ∧ s10.2 = t10.2 ++ z :: r := by
    show (acceptAll digits c2.2).1 = _ ∧ (acceptAll digits c2.2).2 = _
    rw [hdig]
    exact acceptAll_append digits1 z r zd C2.2 c2.2 q9.2
  have q11 := accept_append (ascii ".") z r z12 t10 s10 q10
  have q12 : s12.1 = t12.1 ∧ s12.2 = t12.2 ++ z :: r := by
    show (if d1.1 = true then acceptAll digits d1.2 else d1.2).1 = _ ∧
      (if d1.1 = true then acceptAll digits d1.2 else d1.2).2 = _
    rw [hdig]
    exact guardAll_append digits1 z r zd D1.1 d1.1 D1.2 d1.2 q11.1 q11.2
  have q13 : e1.1 = E1.1 ∧ e1.2.1 = E1.2.1 ∧ e1.2.2 = E1.2.2 ++ z :: r := by
    show (accept exp s12).1 = _ ∧ (accept exp s12).2.1 = _ ∧ (accept exp s12).2.2 = _
    rw [hexp]
    exact accept_append exp1 z r ze t12 s12 q12
  have q14 : s14.1 = t14.1 := by
    show (if e1.1 = true then acceptAll (ascii "0123456789_") (accept (ascii "+-") e1.2).2
      else e1.2).1 = (if E1.1 = true then
        acceptAll (ascii "0123456789_") (accept (ascii "+-") E1.2).2 else E1.2).1
    rw [q13.1]
    split
    · exact (acceptAll_append (ascii "0123456789_") z r z9 _ _
        (accept_append (ascii "+-") z r z3 E1.2 e1.2 q13.2).2).1
    · exact q13.2.1
  rw [q3.1, q3.2.1, q7.1, q7.2.1, q14]

/-- The value scanned is the same when `)` or `*` and further text follow the
payload: `Sscanf` reads one token and ignores what is left. -/
theorem sscanFloat_append (z : Nat) (hz : z = 0x29 ∨ z = 0x2A) (p r : Str) :
    sscanFloat (p ++ z :: r) = sscanFloat p := by
  unfold sscanFloat
  rw [skipSpace_append z hz p r]
  rcases skipSpace p with _ | s
  · rfl
  · simp only [Option.map_some']
    have hne : s ++ z :: r ≠ [] := by simp
    rw [if_neg hne, floatToken_append z hz s r]
    by_cases hs : s = []
    · subst hs
      rw [if_pos rfl]
      decide
    · rw [if_neg hs]

theorem scanValue_append (z : Nat) (hz : z = 0x29 ∨ z = 0x2A) (p r : Str) :
    scanValue (p ++ z :: r) = scanValue p := by
  unfold scanValue
  rw [sscanFloat_append z hz p r]

theorem scanValue_nil : scanValue [] = F64.num 0 := by decide

/-! ## Only the first group is read -/

theorem scanValue_int (ip : Str) (n : Nat) (hne : ip ≠ []) (h1 : ∀ x ∈ ip, isDigit x = true)
    (hv : digitsVal ip = n) (hn : n ≤ 2 ^ 53) : scanValue ip = F64.num n := by
  have h := sscanFloat_decimal ip [] hne h1 (by simp)
  have e : decimalValue ip [] = (n : ℚ) := by
    rw [decimalValue, hv]
    simp [digitsVal]
  have hd : decimalLiteral ip [] = ip := by simp [decimalLiteral]
  rw [hd, e] at h
  have hlt : ¬ overflowBound ≤ (n : ℚ) := by
    rw [not_le]
    have : (n : ℚ) ≤ 2 ^ 53 := by exact_mod_cast hn
    refine lt_of_le_of_lt this ?_
    unfold overflowBound
    norm_num
  rw [if_neg hlt, roundF64_nat n hn] at h
  simp [scanValue, h]

theorem index_before (c t : Str) (x : Nat) (h : x ∈ c) : index (c ++ t) x < (c.length : Int) := by
  rw [index_of_mem _ _ (List.mem_append_left _ h), List.indexOf_append_of_mem h]
  exact_mod_cast List.indexOf_lt_length.2 h

/-- When no `*` follows the opening delimiter at a distance, the payload of
`extractValue` ends at the first `)`. -/
theorem extractValue_fallback (c p t : Str) (hc1 : 0x28 ∉ c) (hc2 : 0x29 ∉ c) (hp : 0x29 ∉ p)
    (hst : index (c ++ 0x28 :: (p ++ 0x29 :: t)) 0x2A ≤ (c.length : Int) + 1) :
    extractValue (c ++ 0x28 :: (p ++ 0x29 :: t)) = some (scanValue p) := by
  have h1 : index (c ++ 0x28 :: (p ++ 0x29 :: t)) 0x28 = (c.length : Int) :=
    index_append c _ 0x28 hc1
  have h2 : index (c ++ 0x28 :: (p ++ 0x29 :: t)) 0x29 = ((c ++ 0x28 :: p).length : Int) := by
    have hm : 0x29 ∉ c ++ 0x28 :: p := by
      simp only [List.mem_append, List.mem_cons, not_or]
      exact ⟨hc2, by decide, hp⟩
    have := index_append (c ++ 0x28 :: p) t 0x29 hm
    simpa using this
  have e2 : (((c ++ 0x28 :: p).length : Nat) : Int) = (c.length : Int) + 1 + p.length := by
    simp only [List.length_append, List.length_cons, Nat.cast_add, Nat.cast_one]; omega
  unfold extractValue
  simp only [h1, h2]
  rw [if_pos (Or.inr (Or.inr hst))]
  by_cases hne : p = []
  · subst hne
    rw [if_pos (by rw [e2]; simp), scanValue_nil]
  · have hlen : 0 < p.length := List.length_pos.2 hne
    rw [if_neg (by rw [e2]; omega)]
    have key : slice (c ++ 0x28 :: (p ++ 0x29 :: t)) ((c.length : Int) + 1)
        (((c ++ 0x28 :: p).length : Nat) : Int) = some p := by
      have := slice_mid (c ++ [0x28]) p (0x29 :: t)
      have e1 : (((c ++ [0x28]).length : Nat) : Int) = (c.length : Int) + 1 := by simp
      rw [e1] at this
      rw [e2]
      simpa using this
    rw [key]
    rfl

theorem firstGroup_stop (q t : Str) (z : Nat) (hz : z = 0x29 ∨ z = 0x2A) (h1 : 0x2A ∉ q)
    (h2 : 0x29 ∉ q) : firstGroup (q ++ z :: t) = q := by
  unfold firstGroup
  induction q with
  | nil =>
    rcases hz with rfl | rfl <;> rfl
  | cons x xs ih =>
    simp only [List.mem_cons, not_or] at h1 h2
    have hx : (x != 0x2A && x != 0x29) = true := by
      simp only [Bool.and_eq_true, bne_iff_ne, ne_eq]
      exact ⟨fun h => h1.1 h.symm, fun h => h2.1 h.symm⟩
    rw [List.cons_append, List.takeWhile_cons, hx]
    simp only [if_true]
    rw [ih h1.2 h2.2]

/-- The value of `extractValue` on a line with an opening delimiter and a
closing delimiter after it, with no `)` before the opening one: the number
scanned in the text up to the first `*` or `)`. -/
theorem extractValue_group_value (c p rest : Str) (hc1 : 0x28 ∉ c) (hc2 : 0x29 ∉ c)
    (hp : 0x29 ∉ p) :
    extractValue (c ++ 0x28 :: (p ++ 0x29 :: rest)) =
      some (scanValue (firstGroup (p ++ 0x29 :: rest))) := by
  by_cases hps : 0x2A ∈ p
  · obtain ⟨q, d, rfl, hq⟩ := List.eq_append_cons_of_mem hps
    have hq9 : 0x29 ∉ q := fun h => hp (List.mem_append_left _ h)
    have e : q ++ 0x2A :: d ++ 0x29 :: rest = q ++ 0x2A :: (d ++ 0x29 :: rest) := by simp
    rw [e, firstGroup_stop q _ 0x2A (Or.inr rfl) hq hq9]
    by_cases hcs : 0x2A ∈ c
    · rw [← e, extractValue_fallback c (q ++ 0x2A :: d) rest hc1 hc2 hp
        (le_of_lt (lt_of_lt_of_le (index_before c _ 0x2A hcs) (by omega))),
        scanValue_append 0x2A (Or.inr rfl)]
    · by_cases hne : q = []
      · subst hne
        rw [List.nil_append, extractValue_empty_star c _ hc1 hcs, scanValue_nil]
      · exact extractValue_star c q _ hc1 hcs hq hne
  · rw [firstGroup_stop p rest 0x29 (Or.inl rfl) hps hp]
    by_cases hcs : 0x2A ∈ c
    · exact extractValue_fallback c p rest hc1 hc2 hp
        (le_of_lt (lt_of_lt_of_le (index_before c _ 0x2A hcs) (by omega)))
    · by_cases hrs : 0x2A ∈ rest
      · obtain ⟨r1, r2, rfl, hr1⟩ := List.eq_append_cons_of_mem hrs
        have e : c ++ 0x28 :: (p ++ 0x29 :: (r1 ++ 0x2A :: r2)) =
            c ++ 0x28 :: ((p ++ 0x29 :: r1) ++ 0x2A :: r2) := by simp
        have hn : 0x2A ∉ p ++ 0x29 :: r1 := by
          simp only [List.mem_append, List.mem_cons, not_or]
          exact ⟨hps, by decide, hr1⟩
        rw [e, extractValue_star c (p ++ 0x29 :: r1) r2 hc1 hcs hn (by simp),
          scanValue_append 0x29 (Or.inl rfl)]
      · have hno : 0x2A ∉ c ++ 0x28 :: (p ++ 0x29 :: rest) := by
          simp only [List.mem_append, List.mem_cons, not_or]
          exact ⟨hcs, by decide, hps, by decide, hrs⟩
        exact extractValue_fallback c p rest hc1 hc2 hp
          (by rw [index_of_not_mem _ _ hno]; omega)

/-- C18. Only the first parenthesized group is read: for every line
`c ++ "(" ++ p ++ ")" ++ rest` where `c` contains neither `(` nor `)` and `p`
contains no `)`, `extractValue(line) = extractValue(c ++ "(" ++ p ++ ")")`, and
the value is the number scanned in the text between the opening delimiter and
whichever of `*` or `)` occurs first after it, whatever follows the first
closing delimiter. -/
theorem extractValue_first_group (c p rest : Str) (hc1 : 0x28 ∉ c) (hc2 : 0x29 ∉ c)
    (hp : 0x29 ∉ p) :
    extractValue (c ++ 0x28 :: (p ++ 0x29 :: rest)) = extractValue (c ++ 0x28 :: (p ++ [0x29])) ∧
      extractValue (c ++ 0x28 :: (p ++ 0x29 :: rest)) =
        some (scanValue (firstGroup (p ++ 0x29 :: rest))) ∧
      firstGroup (p ++ 0x29 :: rest) = firstGroup (p ++ [0x29]) := by
  have e : firstGroup (p ++ 0x29 :: rest) = firstGroup (p ++ [0x29]) := by
    by_cases hps : 0x2A ∈ p
    · obtain ⟨q, d, rfl, hq⟩ := List.eq_append_cons_of_mem hps
      have hq9 : 0x29 ∉ q := fun h => hp (List.mem_append_left _ h)
      have e1 : q ++ 0x2A :: d ++ 0x29 :: rest = q ++ 0x2A :: (d ++ 0x29 :: rest) := by simp
      have e2 : q ++ 0x2A :: d ++ [0x29] = q ++ 0x2A :: (d ++ [0x29]) := by simp
      rw [e1, e2, firstGroup_stop q _ 0x2A (Or.inr rfl) hq hq9,
        firstGroup_stop q _ 0x2A (Or.inr rfl) hq hq9]
    · rw [firstGroup_stop p rest 0x29 (Or.inl rfl) hps hp,
        firstGroup_stop p [] 0x29 (Or.inl rfl) hps hp]
  refine ⟨?_, extractValue_group_value c p rest hc1 hc2 hp, e⟩
  rw [extractValue_group_value c p rest hc1 hc2 hp, extractValue_group_value c p [] hc1 hc2 hp, e]

/-- The example of C18: `extractValue("1-0:1.8.0(123)(456*kWh)") = 123`, the
value of `extractValue("1-0:1.8.0(123)")`. -/
theorem extractValue_first_group_witness :
    (0x28 ∉ ascii "1-0:1.8.0" ∧ 0x29 ∉ ascii "1-0:1.8.0" ∧ 0x29 ∉ ascii "123") ∧
    extractValue (ascii "1-0:1.8.0(123)(456*kWh)") = extractValue (ascii "1-0:1.8.0(123)") ∧
    extractValue (ascii "1-0:1.8.0(123)(456*kWh)") = some (F64.num 123) := by
  have h := extractValue_first_group (ascii "1-0:1.8.0") (ascii "123") (ascii "(456*kWh)")
    (by decide) (by decide) (by decide)
  have e1 : ascii "1-0:1.8.0" ++ 0x28 :: (ascii "123" ++ 0x29 :: ascii "(456*kWh)") =
      ascii "1-0:1.8.0(123)(456*kWh)" := by decide
  have e2 : ascii "1-0:1.8.0" ++ 0x28 :: (ascii "123" ++ [0x29]) = ascii "1-0:1.8.0(123)" := by
    decide
  have e3 : firstGroup (ascii "123" ++ 0x29 :: ascii "(456*kWh)") = ascii "123" := by decide
  have e4 : scanValue (ascii "123") = F64.num 123 := by
    have := scanValue_int (ascii "123") 123 (by decide) (by decide) (by decide) (by norm_num)
    exact_mod_cast this
  rw [e1, e2, e3, e4] at h
  exact ⟨⟨by decide, by decide, by decide⟩, h.1, h.2.1⟩

/-- C18 as stated fails when a `)` stands before the opening delimiter: with
`c = ")"`, `p = "5"` and `rest = "*"` the hypotheses of the claim hold, yet
`extractValue(")(5)*") = 5` while `extractValue(")(5)") = 0`. -/
theorem extractValue_close_before_open :
    (0x28 ∉ ascii ")" ∧ 0x29 ∉ ascii "5" ∧
      ascii ")(5)*" = ascii ")" ++ 0x28 :: (ascii "5" ++ 0x29 :: ascii "*") ∧
      ascii ")(5)" = ascii ")" ++ 0x28 :: (ascii "5" ++ [0x29])) ∧
    extractValue (ascii ")(5)*") = some (F64.num 5) ∧
    extractValue (ascii ")(5)") = some (F64.num 0) ∧
    extractValue (ascii ")(5)*") ≠ extractValue (ascii ")(5)") := by
  have h5 : scanValue (ascii "5") = F64.num 5 := by
    have := scanValue_int (ascii "5") 5 (by decide) (by decide) (by decide) (by norm_num)
    exact_mod_cast this
  have a1 : extractValue (ascii ")(5)*") = some (F64.num 5) := by
    have e : ascii ")(5)*" = ascii ")" ++ 0x28 :: ((ascii "5" ++ 0x29 :: []) ++ 0x2A :: []) := by
      decide
    rw [e, extractValue_star (ascii ")") (ascii "5" ++ 0x29 :: []) [] (by decide) (by decide)
      (by decide) (by decide), scanValue_append 0x29 (Or.inl rfl), h5]
  have a2 : extractValue (ascii ")(5)") = some (F64.num 0) := by
    have i1 : index (ascii ")(5)") 0x28 = 1 := by decide
    have i2 : index (ascii ")(5)") 0x2A = -1 := by decide
    have i3 : index (ascii ")(5)") 0x29 = 0 := by decide
    unfold extractValue
    simp only [i1, i2, i3]
    rw [if_pos (Or.inr (Or.inl (by norm_num))), if_pos (by norm_num)]
  refine ⟨⟨by decide, by decide, by decide, by decide⟩, a1, a2, ?_⟩
  rw [a1, a2]
  intro h
  exact absurd (F64.num.inj (Option.some.inj h)) (by norm_num)

/-! ## Missing delimiters -/

/-- A line with no `*` and no `)` has the value 0. -/
theorem extractValue_no_delims (s : Str) (h1 : 0x2A ∉ s) (h2 : 0x29 ∉ s) :
    extractValue s = some (F64.num 0) := by
  have b := index_bounds s 0x28
  unfold extractValue
  simp only [index_of_not_mem s _ h1, index_of_not_mem s _ h2]
  rw [if_pos (Or.inr (Or.inl (by norm_num))), if_pos (by omega)]

set_option maxRecDepth 100000 in
/-- No code prefix of the table holds a line break, a `*` or a `)`. -/
theorem codeTable_no_delims :
    ∀ e ∈ codeTable, 10 ∉ e.code ∧ 0x2A ∉ e.code ∧ 0x29 ∉ e.code := by
  decide

/-- C16. A line with missing delimiters is recovered locally with the value 0:
for every line that starts with the code prefix of a numeric entry of the table
and has neither `*` nor `)` after the opening `(` (and no line break),
`extractValue` returns 0, and `parseAndSetMetrics` returns a registry in which
the series of the entry holds 0, whatever it held before, and every other
series is as before. -/
theorem parseAndSetMetrics_missing_delimiters (r : Registry) (e : Entry) (he : e ∈ codeTable)
    (hk : e.kind = Kind.numeric) (rest : Str) (h1 : 0x2A ∉ rest) (h2 : 0x29 ∉ rest)
    (hnl : 10 ∉ rest) :
    extractValue (e.code ++ rest) = some (F64.num 0) ∧
      ∃ r1, parseAndSetMetrics (e.code ++ rest) r = some r1 ∧
        r1 e.series = some (F64.num 0) ∧ ∀ k, k ≠ e.series → r1 k = r k := by
  obtain ⟨c1, c2, c3⟩ := codeTable_no_delims e he
  obtain ⟨s1, s2, -⟩ := codeTable_shape e he
  have n1 : 0x2A ∉ e.code ++ rest := by
    simp only [List.mem_append, not_or]; exact ⟨c2, h1⟩
  have n2 : 0x29 ∉ e.code ++ rest := by
    simp only [List.mem_append, not_or]; exact ⟨c3, h2⟩
  have n3 : 10 ∉ e.code ++ rest := by
    simp only [List.mem_append, not_or]; exact ⟨c1, hnl⟩
  obtain ⟨a, b, hs, -, -⟩ := trimSpace_spec (e.code ++ rest)
  have hsub : ∀ x ∈ trimSpace (e.code ++ rest), x ∈ e.code ++ rest := by
    intro x hx
    rw [hs]
    exact List.mem_append_left _ (List.mem_append_right _ hx)
  have hv : extractValue (trimSpace (e.code ++ rest)) = some (F64.num 0) :=
    extractValue_no_delims _ (fun h => n1 (hsub _ h)) (fun h => n2 (hsub _ h))
  have hp : hasPrefix (trimSpace (e.code ++ rest)) e.code = true := by
    rw [hasPrefix_iff]
    exact trimSpace_keeps_code e.code _ (List.prefix_append _ _) s1 s2
  refine ⟨extractValue_no_delims _ n1 n2, r.set e.series (F64.num 0), ?_, set_same r _ _,
    fun k hk1 => set_other r _ k _ hk1⟩
  rw [parseAndSetMetrics_single _ r n3, dispatchTable_of_code r _ e he hp, hk]
  show (extractValue (trimSpace (e.code ++ rest))).map _ = _
  rw [hv]
  rfl

/-- The example of C16: the line `1-0:1.8.0(001234.567`, on a registry in which
the series holds 7. -/
theorem parseAndSetMetrics_missing_delimiters_witness :
    ((⟨ascii "1-0:1.8.0(", ⟨"elcentral_active_energy_kwh", ["import", "T1"]⟩,
        ["direction", "tariff"], Kind.numeric⟩ : Entry) ∈ codeTable ∧
      0x2A ∉ ascii "001234.567" ∧ 0x29 ∉ ascii "001234.567" ∧ 10 ∉ ascii "001234.567") ∧
    extractValue (ascii "1-0:1.8.0(" ++ ascii "001234.567") = some (F64.num 0) ∧
    ∃ r1, parseAndSetMetrics (ascii "1-0:1.8.0(" ++ ascii "001234.567")
        (emptyRegistry.set ⟨"elcentral_active_energy_kwh", ["import", "T1"]⟩ (F64.num 7)) =
          some r1 ∧
      r1 ⟨"elcentral_active_energy_kwh", ["import", "T1"]⟩ = some (F64.num 0) ∧
      ∀ k, k ≠ ⟨"elcentral_active_energy_kwh", ["import", "T1"]⟩ → r1 k =
        (emptyRegistry.set ⟨"elcentral_active_energy_kwh", ["import", "T1"]⟩ (F64.num 7)) k :=
  ⟨⟨by decide, by decide, by decide, by decide⟩,
    parseAndSetMetrics_missing_delimiters
      (emptyRegistry.set ⟨"elcentral_active_energy_kwh", ["import", "T1"]⟩ (F64.num 7))
      ⟨ascii "1-0:1.8.0(", ⟨"elcentral_active_energy_kwh", ["import", "T1"]⟩,
        ["direction", "tariff"], Kind.numeric⟩ (by decide) rfl (ascii "001234.567")
      (by decide) (by decide) (by decide)⟩

/-! ## The dispatcher never aborts -/

/-- C15. The dispatcher never aborts: for every input string and every registry
`parseAndSetMetrics` returns a registry; every slice taken in `extractValue`,
`extractValueText` and `parseTimestamp` has `0 <= start <= end <= len` at the
point it is taken, so the three functions return on every input; and every
gauge write supplies as many label values as the gauge vector has label
names. -/
theorem parseAndSetMetrics_never_aborts :
    (∀ (data : Str) (r : Registry), ∃ r1, parseAndSetMetrics data r = some r1) ∧
    (∀ line : Str,
      (¬ (index line 0x28 + 1 < 0 ∨ index line 0x2A < 0 ∨
          index line 0x2A ≤ index line 0x28 + 1) →
        0 ≤ index line 0x28 + 1 ∧ index line 0x28 + 1 ≤ index line 0x2A ∧
          index line 0x2A ≤ (line.length : Int)) ∧
      (¬ index line 0x29 ≤ index line 0x28 + 1 →
        0 ≤ index line 0x28 + 1 ∧ index line 0x28 + 1 ≤ index line 0x29 ∧
          index line 0x29 ≤ (line.length : Int)) ∧
      ∃ v, extractValue line = some v) ∧
    (∀ line : Str,
      (¬ (index line 0x28 + 1 < 0 ∨ index line 0x29 < 0 ∨
          index line 0x29 ≤ index line 0x28 + 1) →
        0 ≤ index line 0x28 + 1 ∧ index line 0x28 + 1 ≤ index line 0x29 ∧
          index line 0x29 ≤ (line.length : Int)) ∧
      ∃ t, extractValueText line = some t) ∧
    (∀ ts : Str,
      (¬ ts.length < 12 → ∀ i ∈ ([0, 2, 4, 6, 8, 10] : List Int),
        (0 ≤ i ∧ i ≤ i + 2 ∧ i + 2 ≤ (ts.length : Int)) ∧ ∃ f, slice ts i (i + 2) = some f) ∧
      ∃ v, parseTimestamp ts = some v) ∧
    (∀ e ∈ codeTable, ∃ g ∈ gauges, g.withLabelValues e.series.labels = some e.series) := by
  refine ⟨fun data r => ?_, fun line => ⟨fun h => ?_, fun h => ?_, extractValue_total line⟩,
    fun line => ⟨fun h => ?_, extractValueText_total line⟩,
    fun ts => ⟨fun h i hi => ?_, parseTimestamp_total ts⟩, fun e he => ?_⟩
  · obtain ⟨effs, h⟩ := foldlM_effects (splitLines data)
    exact ⟨_, h r⟩
  · have b1 := index_bounds line 0x28
    have b2 := index_bounds line 0x2A
    omega
  · have b1 := index_bounds line 0x28
    have b2 := index_bounds line 0x29
    omega
  · have b1 := index_bounds line 0x28
    have b2 := index_bounds line 0x29
    omega
  · have hb : 0 ≤ i ∧ i ≤ i + 2 ∧ i + 2 ≤ (ts.length : Int) := by
      simp only [List.mem_cons, List.mem_singleton, List.not_mem_nil, or_false] at hi
      omega
    exact ⟨hb, _, slice_isSome ts i (i + 2) hb.1 hb.2.1 hb.2.2⟩
  · obtain ⟨g, hg, h1, -, h3⟩ := (codeTable_gauges.2.2) e he
    refine ⟨g, hg, ?_⟩
    unfold GaugeVec.withLabelValues
    rw [if_pos h3, h1]

/-! ## The lookup does not depend on the order of the table -/

/-- At most one entry of the table matches a line. -/
theorem codeTable_match_unique (line : Str) (e1 e2 : Entry) (h1 : e1 ∈ codeTable)
    (h2 : e2 ∈ codeTable) (p1 : hasPrefix line e1.code = true)
    (p2 : hasPrefix line e2.code = true) : e1 = e2 := by
  rw [hasPrefix_iff] at p1 p2
  rcases List.prefix_or_prefix_of_prefix p1 p2 with h | h
  · exact codeTable_disjoint e1 h1 e2 h2 h
  · exact (codeTable_disjoint e2 h2 e1 h1 h).symm

/-- The lookup in a table with the entries of the code table, in any order, is
the lookup in the code table. -/
theorem lookupIn_perm (t : List Entry) (ht : t.Perm codeTable) (line : Str) :
    lookupIn t line = lookupLine line := by
  unfold lookupIn
  cases hf : t.find? (fun e => hasPrefix line e.code) with
  | none =>
    rw [List.find?_eq_none] at hf
    refine (lookupLine_none line fun e he => ?_).symm
    have := hf e (ht.mem_iff.2 he)
    simpa using this
  | some e1 =>
    have h1 : hasPrefix line e1.code = true :=
      @List.find?_some Entry (fun e => hasPrefix line e.code) e1 t hf
    have h2 : e1 ∈ codeTable := ht.mem_iff.1 (List.mem_of_find?_eq_some hf)
    exact (lookupLine_of_code line e1 h2 h1).symm

/-- C19. Code lookup is deterministic and does not depend on the order of the
table: no code prefix of the table is a prefix of another one; for every line
at most one entry of the table has a prefix that the line starts with; and
what the ordered case chain of the dispatcher does with a line is what a
first-match lookup does in the same table taken in any order. -/
theorem processLine_order_independent :
    (∀ e1 ∈ codeTable, ∀ e2 ∈ codeTable, e1.code <+: e2.code → e1 = e2) ∧
    (∀ line : Str, ∀ e1 ∈ codeTable, ∀ e2 ∈ codeTable,
      hasPrefix line e1.code = true → hasPrefix line e2.code = true → e1 = e2) ∧
    (∀ line : Str, ((codeTable.filter fun e => hasPrefix line e.code).length ≤ 1)) ∧
    (∀ t : List Entry, t.Perm codeTable → ∀ (r : Registry) (line0 : Str),
      processLine r line0 = dispatchWith t r line0) := by
  have hnd : codeTable.Nodup := by decide
  refine ⟨codeTable_disjoint, fun line e1 h1 e2 h2 p1 p2 =>
    codeTable_match_unique line e1 e2 h1 h2 p1 p2, fun line => ?_, fun t ht r line0 => ?_⟩
  · have hn : (codeTable.filter fun e => hasPrefix line e.code).Nodup := hnd.filter _
    rcases hl : codeTable.filter (fun e => hasPrefix line e.code) with _ | ⟨x, _ | ⟨y, l⟩⟩
    · rw [hl]; simp
    · rw [hl]; simp
    · exfalso
      rw [hl] at hn
      have mx : x ∈ codeTable.filter (fun e => hasPrefix line e.code) := by rw [hl]; simp
      have my : y ∈ codeTable.filter (fun e => hasPrefix line e.code) := by rw [hl]; simp
      rw [List.mem_filter] at mx my
      have := codeTable_match_unique line x y mx.1 my.1 mx.2 my.2
      subst this
      simp at hn
  · rw [processLine_eq_dispatchTable]
    unfold dispatchTable dispatchWith
    simp only [lookupIn_perm t ht]

/-! ## The series of the registry -/

/-- The effect of one line, with the series it writes: a series of the code
table. -/
theorem processLine_effect_series (line : Str) :
    ∃ eff : Option (Series × F64), (∀ r, processLine r line = some (applyEffect r eff)) ∧
      ∀ kv, eff = some kv → kv.1 ∈ tableSeries := by
  by_cases h0 : trimSpace line = []
  · refine ⟨none, fun r => ?_, fun kv h => by cases h⟩
    rw [processLine_eq_dispatchTable]
    unfold dispatchTable
    dsimp only
    rw [if_pos h0]
    rfl
  · cases hl : lookupLine (trimSpace line) with
    | none =>
      refine ⟨none, fun r => ?_, fun kv h => by cases h⟩
      rw [processLine_eq_dispatchTable]
      unfold dispatchTable
      dsimp only
      rw [if_neg h0, hl]
      rfl
    | some e =>
      obtain ⟨v, hv⟩ := entryValue_total e.kind (trimSpace line)
      have he : e ∈ codeTable := List.mem_of_find?_eq_some hl
      refine ⟨some (e.series, v), fun r => ?_, fun kv h => ?_⟩
      · rw [processLine_eq_dispatchTable]
        unfold dispatchTable
        dsimp only
        rw [if_neg h0, hl]
        show (entryValue e.kind (trimSpace line)).map _ = _
        rw [hv]
        rfl
      · cases h
        exact List.mem_map.2 ⟨e, he, rfl⟩

/-- One line keeps the series of the registry inside the series of the table. -/
theorem processLine_series (line : Str) (r : Registry)
    (hr : ∀ k, r k ≠ none → k ∈ tableSeries) :
    ∃ r1, processLine r line = some r1 ∧ ∀ k, r1 k ≠ none → k ∈ tableSeries := by
  obtain ⟨eff, he, hs⟩ := processLine_effect_series line
  refine ⟨applyEffect r eff, he r, fun k hk => ?_⟩
  rcases eff with _ | kv
  · exact hr k hk
  · by_cases hkk : k = kv.1
    · rw [hkk]
      exact hs kv rfl
    · have : applyEffect r (some kv) k = r k := set_other r kv.1 k kv.2 hkk
      rw [this] at hk
      exact hr k hk

theorem foldlM_series (ls : List Str) :
    ∀ r : Registry, (∀ k, r k ≠ none → k ∈ tableSeries) →
      ∃ r1, ls.foldlM processLine r = some r1 ∧ ∀ k, r1 k ≠ none → k ∈ tableSeries := by
  induction ls with
  | nil => exact fun r hr => ⟨r, rfl, hr⟩
  | cons l ls ih =>
    intro r hr
    obtain ⟨r1, h1, hr1⟩ := processLine_series l r hr
    obtain ⟨r2, h2, hr2⟩ := ih r1 hr1
    refine ⟨r2, ?_, hr2⟩
    rw [List.foldlM_cons, h1]
    exact h2

theorem ReadSerialData_series (inputs : List Str) :
    ∀ r : Registry, (∀ k, r k ≠ none → k ∈ tableSeries) →
      ∃ r1, ReadSerialData inputs r = some r1 ∧ ∀ k, r1 k ≠ none → k ∈ tableSeries := by
  induction inputs with
  | nil => exact fun r hr => ⟨r, rfl, hr⟩
  | cons l ls ih =>
    intro r hr
    obtain ⟨r1, h1, hr1⟩ := foldlM_series (splitLines l) r hr
    obtain ⟨r2, h2, hr2⟩ := ih r1 hr1
    refine ⟨r2, ?_, hr2⟩
    rw [ReadSerialData_cons]
    unfold parseAndSetMetrics
    rw [h1]
    exact h2

set_option maxRecDepth 100000 in
/-- The 28 series of the table are distinct. -/
theorem tableSeries_nodup : tableSeries.length = 28 ∧ tableSeries.Nodup := by
  decide

/-- C20. The series of the registry are bounded independently of the input:
from the empty registry, dispatching any finite sequence of arbitrary strings
returns a registry whose series all belong to the 28 fixed (metric name, label
values) pairs of the code table; the 28 pairs are distinct, so distinct code
prefixes map to distinct series; the pairs are constants of the table, no text
of an input is part of them. -/
theorem ReadSerialData_series_bounded :
    (∀ inputs : List Str, ∃ r1, ReadSerialData inputs emptyRegistry = some r1 ∧
      ∀ k, r1 k ≠ none → k ∈ tableSeries) ∧
    (∀ (data : Str) (r : Registry), (∀ k, r k ≠ none → k ∈ tableSeries) →
      ∃ r1, parseAndSetMetrics data r = some r1 ∧ ∀ k, r1 k ≠ none → k ∈ tableSeries) ∧
    tableSeries.length = 28 ∧ tableSeries.Nodup ∧
    (∀ e1 ∈ codeTable, ∀ e2 ∈ codeTable, e1.code ≠ e2.code → e1.series ≠ e2.series) := by
  refine ⟨fun inputs => ReadSerialData_series inputs emptyRegistry (fun k hk => absurd rfl hk),
    fun data r hr => foldlM_series (splitLines data) r hr, tableSeries_nodup.1,
    tableSeries_nodup.2, fun e1 h1 e2 h2 hne hs => ?_⟩
  have hinj := List.inj_on_of_nodup_map tableSeries_nodup.2 h1 h2 hs
  exact hne (by rw [hinj])

end Metrics
